import Mathlib

/-!
# Dense tensor structural operations (`tensor2/dense_matop.go`)

A shallow embedding of the transpose engine (`T`, `UT`, `SafeT`, `Transpose`),
of the coordinate helpers (`at`, `itol`, `transposeIndex`), of `CopyTo` and
`RollAxis`, and of the builders `Stack`, `Repeat`, `Slice` and `Concat`,
followed by theorems about them.

Conventions of the embedding.

* Go `int` values that the code keeps non-negative (dimensions, strides,
  offsets, axes) are `Nat`; the `axis` and `start` arguments of `RollAxis`,
  which the code tests against `0`, are `Int`.  All indices stay below the
  length of a buffer that exists in memory, so 64-bit overflow plays no role.
* A method with a pointer receiver returns the receiver's new state.
  A Go `panic` and an exhausted loop budget are the two `Fault`s.
* A backing buffer is a `List α`; an `interface{}` that may be `nil` is an
  `Option α`.
* Collaborators that live outside `dense_matop.go` are modelled from the
  specification and say so in their doc comment.
-/

namespace Tensor

/-! ## Errors -/

/-- Error classes built by the error helpers (`dimMismatch`, `invalidAxis`, `sizeMismatch`,
`methodNYI`, `NoOpError`, `shapeMismatch`, and the slice errors of the access pattern). -/
inductive Err where
  | DimMismatch
  | InvalidAxis
  | SizeMismatch
  | NotImplemented
  | NoOp
  | ShapeMismatch
  | InvalidSlice
  deriving DecidableEq, Repr

/-- Abnormal ends of a call: a Go panic, or the loop budget of the model ran out. -/
inductive Fault where
  | panicked
  | outOfFuel
  deriving DecidableEq, Repr

/-! ## Access patterns -/

/-- Access pattern: shape and strides. -/
structure AP where
  shape : List Nat
  strides : List Nat
  deriving DecidableEq, Repr

/-- Modelled from the spec: `computeStrides(shape)`, the row-major derivation
`strides[d-1] = 1`, `strides[i] = strides[i+1] * shape[i+1]`. -/
def CalcStrides : List Nat → List Nat
  | [] => []
  | _ :: rest => (CalcStrides rest).headD 1 * rest.headD 1 :: CalcStrides rest

/-- Modelled from the spec: the total element count of a shape. -/
def TotalSize (s : List Nat) : Nat := s.prod

/-- Modelled from the spec: a vector is an array with exactly one non-unit dimension. -/
def IsVectorShape (s : List Nat) : Bool := (s.filter (fun d => d != 1)).length == 1

/-- Modelled from the spec: a scalar is the remaining degenerate case skipped by `Transpose`,
an array without any non-unit dimension (a single element). -/
def IsScalarShape (s : List Nat) : Bool := (s.filter (fun d => d != 1)).length == 0

/-- Modelled from the spec: `applyPermutation(perm, coords)`, `result[i] = coords[perm[i]]`;
it fails when an entry of the pattern is not an index of `xs`. -/
def Permute (pattern xs : List Nat) : Except Err (List Nat) :=
  if pattern.all (fun a => decide (a < xs.length)) then
    .ok (pattern.map (fun a => xs.getD a 0))
  else .error .InvalidAxis

/-- Modelled from the spec: `axes` is a permutation of `0..dims-1`
(right length, every axis in range, no axis repeated). -/
def isPermutation (axes : List Nat) (dims : Nat) : Bool :=
  axes.length == dims && axes.all (fun a => decide (a < dims)) && decide axes.Nodup

/-- Modelled from the spec: `requestTranspose(ap, axes)`.  An omitted `axes` defaults to the
full reversal; `axes` must be a permutation of `0..dims-1`; the identity permutation gives
the `NoOp` signal; otherwise the new AP has shape `shape[axes[i]]` and strides
`strides[axes[i]]`.  The resolved axes are returned with it. -/
def AP.T (ap : AP) (axes : List Nat) : Except Err (AP × List Nat) :=
  let dims := ap.shape.length
  let axes := if axes.isEmpty then (List.range dims).reverse else axes
  if axes.length ≠ dims then .error .DimMismatch
  else if ¬ isPermutation axes dims then .error .InvalidAxis
  else if axes = List.range dims then .error .NoOp
  else .ok ({ shape := axes.map (fun a => ap.shape.getD a 0),
              strides := axes.map (fun a => ap.strides.getD a 0) }, axes)

/-- Modelled from the spec: `AP.Size`, the total element count of the shape. -/
def AP.Size (ap : AP) : Nat := TotalSize ap.shape

/-- Modelled from the spec: `coordsOf(offset, shape, strides)`, a divmod by each stride in
turn.  It fails when a coordinate falls outside its dimension (or a stride is zero). -/
def Itol : Nat → List Nat → List Nat → Option (List Nat)
  | _, _, [] => some []
  | _, [], _ :: _ => none
  | i, sh :: shs, st :: sts =>
    if st = 0 then none
    else if sh ≤ i / st then none
    else (Itol (i % st) shs sts).map (fun cs => i / st :: cs)

/-- Dot product of coordinates and strides. -/
def dot : List Nat → List Nat → Nat
  | c :: cs, s :: ss => c * s + dot cs ss
  | _, _ => 0

/-- Modelled from the spec: `offsetOf(shape, strides, coords)`, the dot product of coords and
strides; `DimensionMismatch` when `len(coords) != len(shape)`. -/
def Ltoi (shape strides coords : List Nat) : Except Err Nat :=
  if coords.length ≠ shape.length then .error .DimMismatch
  else .ok (dot coords strides)

/-! ## Dense arrays -/

/-- The `*Dense` handle: current AP, the AP before a pending transpose (`old`), the pending
axes (`transposeWith`), the backing buffer, and whether `viewOf` is non-nil. -/
structure Dense (α : Type) where
  AP : AP
  old : Option Tensor.AP
  transposeWith : Option (List Nat)
  data : List α
  viewOf : Bool
  deriving DecidableEq, Repr

variable {α : Type}

/-- Current (reported) shape. -/
def Dense.Shape (t : Dense α) : List Nat := t.AP.shape

/-- Current (reported) strides. -/
def Dense.Strides (t : Dense α) : List Nat := t.AP.strides

/-- Number of dimensions. -/
def Dense.Dims (t : Dense α) : Nat := t.AP.shape.length

/-- Total element count (promoted from the access pattern). -/
def Dense.Size (t : Dense α) : Nat := t.AP.Size

/-- Vector test on the reported shape. -/
def Dense.IsVector (t : Dense α) : Bool := IsVectorShape t.AP.shape

/-- Scalar test on the reported shape. -/
def Dense.IsScalar (t : Dense α) : Bool := IsScalarShape t.AP.shape

/-- Shape before the pending transpose (as inlined in `itol`): `old`'s when there is one. -/
def Dense.oshape (t : Dense α) : List Nat :=
  match t.old with
  | some o => o.shape
  | none => t.AP.shape

/-- Strides before the pending transpose (as inlined in `itol`): `old`'s when there is one. -/
def Dense.ostrides (t : Dense α) : List Nat :=
  match t.old with
  | some o => o.strides
  | none => t.AP.strides

/-- Modelled from the spec: `setShape`, which recomputes the logical shape to the given one
with freshly computed row-major strides. -/
def Dense.setShape (t : Dense α) (s : List Nat) : Dense α :=
  { t with AP := { shape := s, strides := CalcStrides s } }

/-- Go's `copy(dst[off:], src)`: overwrites `min (len dst - off) (len src)` elements. -/
def copyInto {β : Type} (dst : List β) (off : Nat) (src : List β) : List β :=
  let n := min (dst.length - off) src.length
  dst.take off ++ src.take n ++ dst.drop (off + n)

/-- Modelled from the spec: bulk `copy(dst, src)` of the backing storage, element for element
in physical order. -/
def copyArray (dst src : List α) : List α := copyInto dst 0 src

/-- Modelled from the spec: `data.Get(i)`; out of range panics. -/
def dataGet (data : List α) (i : Nat) : Option α := data[i]?

/-- Modelled from the spec: `data.Set(i, v)`; out of range panics; a `nil` value is not an
element of the buffer's type, the store is refused and the buffer stays as it is. -/
def dataSet (data : List α) (i : Nat) (v : Option α) : Option (List α) :=
  if i < data.length then
    match v with
    | some x => some (data.set i x)
    | none => some data
  else none

/-! ## Bitmap -/

/-- Modelled from the spec: a fixed-capacity set of flags sized to the element count. -/
def NewBitMap (size : Nat) : List Bool := List.replicate size false

/-- `track.Set(i)`; out of range panics. -/
def bmSet (track : List Bool) (i : Nat) : Option (List Bool) :=
  if i < track.length then some (track.set i true) else none

/-- `track.IsSet(i)`; out of range panics. -/
def bmIsSet (track : List Bool) (i : Nat) : Option Bool := track[i]?

/-! ## Thunked transpose -/

/-- `UT`: untranspose a currently transposed array; nothing happens without a previous
transpose. -/
def Dense.UT (t : Dense α) : Dense α :=
  match t.old with
  | some o => { t with AP := o, old := none, transposeWith := none }
  | none => t

/-- The weighted sum of `transposeIndex`: `index += oldCoord[axis] * strides[i]` for
`i, axis := range transposePat`; an index out of range panics. -/
def transposeSum (oldCoord : List Nat) : List Nat → List Nat → Option Nat
  | [], _ => some 0
  | _ :: _, [] => none
  | axis :: pat, st :: sts =>
    match oldCoord[axis]?, transposeSum oldCoord pat sts with
    | some c, some r => some (c * st + r)
    | _, _ => none

/-- `transposeIndex`: the new index given the old index; `none` is a panic. -/
def Dense.transposeIndex (t : Dense α) (i : Nat) (transposePat strides : List Nat) :
    Option Nat :=
  match Itol i t.oshape t.ostrides with
  | none => none
  | some oldCoord => transposeSum oldCoord transposePat strides

/-- The inner loop `for i < size && track.IsSet(i) { i++ }`, with a budget of steps. -/
def skipSet (track : List Bool) (size : Nat) : Nat → Nat → Nat
  | 0, i => i
  | k + 1, i =>
    if i < size ∧ track.getD i false = true then skipSet track size k (i + 1) else i

/-- State of the cycle-following loop when it exits. -/
structure LoopExit (α : Type) where
  i : Nat
  track : List Bool
  data : List α
  deriving DecidableEq, Repr

/-- The cycle-following loop of `Transpose`, `for i = 1; ; { ... }`, one iteration per unit of
fuel.  `dest` is `transposeIndex`, `zero` is `t.t.ZeroValue()`. -/
def transposeLoop (dest : Nat → Option Nat) (zero : α) (size : Nat) :
    Nat → Nat → Option α → List Bool → List α → Except Fault (LoopExit α)
  | 0, _, _, _, _ => .error .outOfFuel
  | fuel + 1, i, saved, track, data =>
    match dest i with
    | none => .error .panicked
    | some d =>
      match bmIsSet track i with
      | none => .error .panicked
      | some bi =>
        match (if bi then bmIsSet track d else some false) with
        | none => .error .panicked
        | some true =>
          match dataSet data i saved with
          | none => .error .panicked
          | some data1 =>
            let j := skipSet track size size i
            if size ≤ j then .ok { i := j, track := track, data := data1 }
            else transposeLoop dest zero size fuel j (some zero) track data1
        | some false =>
          match bmSet track i, dataGet data i with
          | some track1, some tmp =>
            match dataSet data i saved with
            | none => .error .panicked
            | some data1 => transposeLoop dest zero size fuel d (some tmp) track1 data1
          | _, _ => .error .panicked

/-- The cycle-following loop of `Transpose` once more, with a log: every index `i` the
iteration passes to `Itol` (through `transposeIndex`), to the bitmap and to `data.Get`/
`data.Set`, and every destination `dest` it computes, is appended to the log. -/
def transposeLoopLog (dest : Nat → Option Nat) (zero : α) (size : Nat) :
    Nat → Nat → Option α → List Bool → List α → List Nat →
      Except Fault (LoopExit α × List Nat)
  | 0, _, _, _, _, _ => .error .outOfFuel
  | fuel + 1, i, saved, track, data, log =>
    match dest i with
    | none => .error .panicked
    | some d =>
      match bmIsSet track i with
      | none => .error .panicked
      | some bi =>
        match (if bi then bmIsSet track d else some false) with
        | none => .error .panicked
        | some true =>
          match dataSet data i saved with
          | none => .error .panicked
          | some data1 =>
            let j := skipSet track size size i
            if size ≤ j then .ok ({ i := j, track := track, data := data1 }, log ++ [i, d])
            else transposeLoopLog dest zero size fuel j (some zero) track data1 (log ++ [i, d])
        | some false =>
          match bmSet track i, dataGet data i with
          | some track1, some tmp =>
            match dataSet data i saved with
            | none => .error .panicked
            | some data1 =>
              transposeLoopLog dest zero size fuel d (some tmp) track1 data1 (log ++ [i, d])
          | _, _ => .error .panicked

/-- The bitmap `Transpose` starts from: `NewBitMap(size)` with bits `0` and `size-1` set. -/
def initTrack (size : Nat) : Option (List Bool) :=
  if size = 0 then none
  else (bmSet (NewBitMap size) 0).bind (fun tr => bmSet tr (size - 1))

/-- `Transpose`: actually transposes the data (in-place cycle following).  The deferred
function clears `old` and `transposeWith` on every path after the scalar test. -/
def Dense.Transpose [Inhabited α] (t : Dense α) : Except Fault (Dense α) :=
  match t.old with
  | none => .ok t
  | some _ =>
    if t.IsScalar then .ok t
    else
      let expShape := t.Shape
      let expStrides := CalcStrides expShape
      let size := t.data.length
      let axes := t.transposeWith.getD []
      if t.IsVector then
        .ok { t.setShape expShape with old := none, transposeWith := none }
      else
        match initTrack size with
        | none => .error .panicked
        | some track =>
          match transposeLoop (fun i => t.transposeIndex i axes expStrides) default size
              (2 * size + 2) 1 none track t.data with
          | .error f => .error f
          | .ok ex =>
            .ok { ({ t with data := ex.data } : Dense α).setShape expShape with
                  old := none, transposeWith := none }

/-- The `isReversed` scan of `T`: `transform.Shape()[i] != s` for `i, s := range t.oshape()`;
an index out of range panics. -/
def isReversed : List Nat → List Nat → Option Bool
  | [], _ => some true
  | _ :: _, [] => none
  | s :: rest, x :: xs => if x ≠ s then some false else isReversed rest xs

/-- Result of `T`: the receiver afterwards, the returned error, and how many times
`Transpose` was invoked. -/
structure TOut (α : Type) where
  t : Dense α
  err : Option Err
  transposes : Nat
  deriving DecidableEq, Repr

/-- `T`: thunked transpose. -/
def Dense.T [Inhabited α] (t : Dense α) (axes : List Nat) : Except Fault (TOut α) :=
  match t.AP.T axes with
  | .error e =>
    if e = Err.NoOp then .ok { t := t, err := none, transposes := 0 }
    else .ok { t := t, err := some e, transposes := 0 }
  | .ok (transform, axes) =>
    match t.old with
    | none =>
      .ok { t := { t with old := some t.AP, transposeWith := some axes, AP := transform },
            err := none, transposes := 0 }
    | some _ =>
      if t.IsVector then .ok { t := t.UT, err := none, transposes := 0 }
      else
        match isReversed t.oshape transform.shape with
        | none => .error .panicked
        | some true => .ok { t := t.UT, err := none, transposes := 0 }
        | some false =>
          match t.Transpose with
          | .error f => .error f
          | .ok t1 =>
            .ok { t := { t1 with old := some t1.AP, transposeWith := some axes,
                                 AP := transform },
                  err := none, transposes := 1 }

/-- Modelled from the spec: `newTypedShapedDense`, a fresh owned array of the given shape
with a zeroed buffer and row-major strides. -/
def newTypedShapedDense [Inhabited α] (shape : List Nat) : Dense α :=
  { AP := { shape := shape, strides := CalcStrides shape }, old := none,
    transposeWith := none, data := List.replicate (TotalSize shape) default, viewOf := false }

/-- Result of `SafeT`: the receiver afterwards, the returned pointer (`none` is `nil`) and
the returned error. -/
structure SafeTOut (α : Type) where
  t : Dense α
  retVal : Option (Dense α)
  err : Option Err
  deriving DecidableEq, Repr

/-- `SafeT`: like `T`, but on a copy. -/
def Dense.SafeT [Inhabited α] (t : Dense α) (axes : List Nat) : SafeTOut α :=
  match t.AP.T axes with
  | .error e =>
    if e = Err.NoOp then { t := t, retVal := none, err := none }
    else { t := t, retVal := none, err := some e }
  | .ok (transform, axes) =>
    let retVal : Dense α := newTypedShapedDense [t.data.length]
    let retVal := { retVal with data := copyArray retVal.data t.data }
    { t := t,
      retVal := some { retVal with AP := transform, old := some t.AP,
                                   transposeWith := some axes },
      err := none }

/-! ## Coordinates -/

/-- `at`: the index a coordinate refers to. -/
def Dense.at_ (t : Dense α) (coords : List Nat) : Except Err Nat :=
  Ltoi t.Shape t.Strides coords

/-- `itol`: the inverse of `at`; decodes in the original shape and permutes afterwards.  When
`Permute` fails the unpermuted coordinates are returned with the error. -/
def Dense.itol (t : Dense α) (i : Nat) : Option (List Nat) × Option Err :=
  match Itol i t.oshape t.ostrides with
  | none => (none, some Err.InvalidAxis)
  | some coords =>
    match t.transposeWith with
    | none => (some coords, none)
    | some tw =>
      match Permute tw coords with
      | .ok res => (some res, none)
      | .error e => (some coords, some e)

/-! ## CopyTo -/

/-- The destination pointer of `CopyTo`: the receiver itself, or another instance. -/
inductive Dest (α : Type) where
  | self
  | other (d : Dense α)
  deriving DecidableEq, Repr

/-- Result of `CopyTo`: the receiver afterwards, the destination afterwards, the error. -/
structure CopyOut (α : Type) where
  t : Dense α
  other : Dest α
  err : Option Err
  deriving DecidableEq, Repr

/-- Modelled from the spec: `copyArray(dst, src)` with both of its results between buffers
of one element type: the destination afterwards (Go's `copy`) and no error. -/
def copyArrayResult (dst src : List α) : List α × Option Err := (copyArray dst src, none)

/-- `CopyTo`: copies the underlying data to the destination.  The bulk copy of the storage is
the parameter `copy`; it gives the destination's buffer afterwards and the error, and
`CopyTo` returns that error, whatever it is. -/
def Dense.CopyTo (copy : List α → List α → List α × Option Err) (t : Dense α)
    (other : Dest α) : CopyOut α :=
  match other with
  | .self => { t := t, other := .self, err := none }
  | .other o =>
    if o.Size ≠ t.Size then { t := t, other := .other o, err := some Err.SizeMismatch }
    else if t.viewOf = false ∧ o.viewOf = false then
      { t := t, other := .other { o with data := (copy o.data t.data).1 },
        err := (copy o.data t.data).2 }
    else { t := t, other := .other o, err := some Err.NotImplemented }

/-! ## RollAxis -/

/-- The `axes` slice that `RollAxis` builds: fill with `0..dims-1`, then
`copy(axes[axis:], axes[axis+1:])`, `copy(axes[start+1:], axes[start:])`,
`axes[start] = axis`. -/
def rollAxes (dims axis start : Nat) : List Nat :=
  let axes := List.range dims
  let axes := copyInto axes axis (axes.drop (axis + 1))
  let axes := copyInto axes (start + 1) (axes.drop start)
  axes.set start axis

/-- The pointer `RollAxis` returns: `nil`, the receiver, or a fresh array. -/
inductive Ret (α : Type) where
  | null
  | self
  | fresh (d : Dense α)
  deriving DecidableEq, Repr

/-- Result of `RollAxis`: the receiver afterwards, the returned pointer, the error. -/
structure RollOut (α : Type) where
  t : Dense α
  retVal : Ret α
  err : Option Err
  deriving DecidableEq, Repr

/-- `RollAxis`: rolls the axis backwards until it lies in the given position. -/
def Dense.RollAxis [Inhabited α] (t : Dense α) (axis start : Int) (safe : Bool) :
    Except Fault (RollOut α) :=
  let dims : Int := t.Dims
  if ¬ (0 ≤ axis ∧ axis < dims) then
    .ok { t := t, retVal := .null, err := some Err.InvalidAxis }
  else if ¬ (0 ≤ start ∧ start ≤ dims) then
    .ok { t := t, retVal := .null, err := some Err.InvalidAxis }
  else
    let start := if axis < start then start - 1 else start
    if axis = start then .ok { t := t, retVal := .self, err := none }
    else
      let axes := rollAxes t.Dims axis.toNat start.toNat
      if safe then
        let r := t.SafeT axes
        .ok { t := r.t,
              retVal := (match r.retVal with
                | some d => Ret.fresh d
                | none => Ret.null),
              err := r.err }
      else
        match t.T axes with
        | .error f => .error f
        | .ok r => .ok { t := r.t, retVal := .self, err := r.err }

/-! ## At and sequences of calls -/

/-- `At`: the value at the given coordinate.  A wrong number of coordinates and a failing `at`
are errors; an offset outside the buffer panics in `data.Get`. -/
def Dense.At (t : Dense α) (coords : List Nat) : Except Fault (Option α × Option Err) :=
  if coords.length ≠ t.Dims then .ok (none, some Err.ShapeMismatch)
  else
    match t.at_ coords with
    | .error e => .ok (none, some e)
    | .ok off =>
      match dataGet t.data off with
      | none => .error .panicked
      | some v => .ok (some v, none)

/-- A call on the transpose engine. -/
inductive Op where
  | T (axes : List Nat)
  | UT
  | Transpose
  deriving DecidableEq, Repr

/-- One call on the receiver; the error that `T` may return is dropped, the receiver kept. -/
def Dense.step [Inhabited α] (t : Dense α) : Op → Except Fault (Dense α)
  | .T axes =>
    match t.T axes with
    | .error f => .error f
    | .ok r => .ok r.t
  | .UT => .ok t.UT
  | .Transpose => t.Transpose

/-- A finite sequence of calls on the receiver, in order. -/
def Dense.run [Inhabited α] (t : Dense α) : List Op → Except Fault (Dense α)
  | [] => .ok t
  | op :: ops =>
    match t.step op with
    | .error f => .error f
    | .ok t1 => t1.run ops

/-! ## Stack -/

/-- Modelled from the spec: `makeArray`, a fresh buffer of the given size (zero values). -/
def makeArray [Inhabited α] (size : Nat) : List α := List.replicate size default

/-- Modelled from the spec: `copySliced(dst, dstStart, dstEnd, src, srcStart, srcEnd)`, the
bulk copy `copy(dst[dstStart:dstEnd], src[srcStart:srcEnd])` between buffers of one element
type.  It returns the destination afterwards and an error value, which `Repeat` returns to
its caller and `simpleStack` drops.  A range outside its buffer is reported as an error and
nothing is copied. -/
def copySlicedArray (dst : List α) (dstStart dstEnd : Nat) (src : List α)
    (srcStart srcEnd : Nat) : List α × Option Err :=
  if dstStart ≤ dstEnd ∧ dstEnd ≤ dst.length ∧ srcStart ≤ srcEnd ∧ srcEnd ≤ src.length then
    (dst.take dstStart ++
        (src.drop srcStart).take (min (dstEnd - dstStart) (srcEnd - srcStart)) ++
        dst.drop (dstStart + min (dstEnd - dstStart) (srcEnd - srcStart)),
      none)
  else (dst, some Err.InvalidSlice)

/-- Modelled from the spec: the offsets of the flat iterator, one per logical element, visiting
the logical shape in row-major (last axis fastest) order and mapping each coordinate through
the strides. -/
def flatOffsets : List Nat → List Nat → List Nat
  | [], _ => [0]
  | d :: shape, strides =>
    (List.range d).flatMap (fun c =>
      (flatOffsets shape strides.tail).map (fun off => c * strides.headD 0 + off))

/-- Modelled from the spec: `NewFlatIterator(ap).Chan()`, the finite stream of physical
offsets of the access pattern, consumed in order by a single loop. -/
def NewFlatIterator (ap : AP) : List Nat := flatOffsets ap.shape ap.strides

/-- Modelled from the spec: `IsMaterializable`, the operand needs iterator-based traversal
because it is a view. -/
def Dense.IsMaterializable (t : Dense α) : Bool := t.viewOf

/-- The loop of `Stack` that fills `newShape`: `if i == axis { cur++ }; newShape[cur] = s;
cur++` for `i, s := range shape`. -/
def stackShapeLoop (axis : Nat) : List Nat → Nat → Nat → List Nat → List Nat
  | [], _, _, newShape => newShape
  | s :: rest, i, cur, newShape =>
    stackShapeLoop axis rest (i + 1) ((if i = axis then cur + 1 else cur) + 1)
      (newShape.set (if i = axis then cur + 1 else cur) s)

/-- The shape `Stack` builds: a borrowed slice of `opdims + 1` ints, `newShape[axis] =
len(others) + 1`, then the loop over the operand's shape. -/
def stackShape (shape : List Nat) (axis count : Nat) : List Nat :=
  stackShapeLoop axis shape 0 0 ((List.replicate (shape.length + 1) 0).set axis count)

/-- `simpleStack`, case `axis == 0`: the loop over `others` after the receiver was copied. -/
def simpleStackZero : List (Dense α) → Nat → List α → Except Fault (List α)
  | [], _, data => .ok data
  | ot :: rest, next, data =>
    simpleStackZero rest (next + ot.data.length)
      (copySlicedArray data next data.length ot.data 0 ot.data.length).1

/-- `simpleStack`, default case: the inner loop over `others` of one outer step; returns the
advanced `destStart` and the buffer. -/
def simpleStackInner (axisStride start stop : Nat) :
    List (Dense α) → Nat → List α → Except Fault (Nat × List α)
  | [], destStart, data => .ok (destStart, data)
  | ot :: rest, destStart, data =>
    simpleStackInner axisStride start stop rest (destStart + axisStride)
      (copySlicedArray data (destStart + axisStride) data.length ot.data start stop).1

/-- `simpleStack`, default case: the outer loop `for i := 0; i < batches; i++`, whose counter
is also advanced once per other operand by the inner loop.  One outer step per unit of fuel. -/
def simpleStackLoop (tdata : List α) (others : List (Dense α)) (axisStride batches : Nat) :
    Nat → Nat → Nat → Nat → Nat → List α → Except Fault (List α)
  | 0, i, _, _, _, data => if i < batches then .error .outOfFuel else .ok data
  | fuel + 1, i, destStart, start, stop, data =>
    if i < batches then
      match simpleStackInner axisStride start stop others destStart
          (copySlicedArray data destStart data.length tdata start stop).1 with
      | .error f => .error f
      | .ok (destStart1, data2) =>
        simpleStackLoop tdata others axisStride batches fuel (i + others.length + 1)
          (destStart1 + axisStride) (start + axisStride) (stop + axisStride) data2
    else .ok data

/-- `simpleStack`: the data movement of `Stack` for non-view operands. -/
def Dense.simpleStack [Inhabited α] (t : Dense α) (axis : Nat) (ap : Tensor.AP)
    (others : List (Dense α)) : Except Fault (List α) :=
  let data : List α := makeArray ap.Size
  match axis with
  | 0 => simpleStackZero others t.data.length (copyArray data t.data)
  | _ + 1 =>
    match ap.strides[axis]? with
    | none => .error .panicked
    | some axisStride =>
      if axisStride = 0 then .error .panicked
      else
        simpleStackLoop t.data others axisStride (data.length / axisStride)
          (data.length / axisStride) 0 0 0 (0 + axisStride) data

/-- One batch of `viewStack`: `for j := 0; j < axisStride; j++ { id, ok := <-ch; if !ok
{ break }; data = append(data, t.data.Get(id)) }`.  A closed channel is the empty list;
`data.Get` out of range panics. -/
def viewStackPull (data : List α) : Nat → List Nat → List α → Option (List Nat × List α)
  | 0, ch, acc => some (ch, acc)
  | _ + 1, [], acc => some ([], acc)
  | j + 1, id :: ch, acc =>
    match dataGet data id with
    | none => none
    | some v => viewStackPull data j ch (acc ++ [v])

/-- `viewStack`: the loop over `others` of one outer step; each operand comes with what is
left of its channel. -/
def viewStackInner (axisStride : Nat) :
    List (List α × List Nat) → List α → Option (List (List α × List Nat) × List α)
  | [], acc => some ([], acc)
  | (d, ch) :: rest, acc =>
    match viewStackPull d axisStride ch acc with
    | none => none
    | some (ch1, acc1) =>
      match viewStackInner axisStride rest acc1 with
      | none => none
      | some (rest1, acc2) => some ((d, ch1) :: rest1, acc2)

/-- `viewStack`: the outer loop `for i := 0; i < batches; i++`. -/
def viewStackLoop (tdata : List α) (axisStride : Nat) :
    Nat → List Nat → List (List α × List Nat) → List α → Option (List α)
  | 0, _, _, acc => some acc
  | batches + 1, ch, others, acc =>
    match viewStackPull tdata axisStride ch acc with
    | none => none
    | some (ch1, acc1) =>
      match viewStackInner axisStride others acc1 with
      | none => none
      | some (others1, acc2) => viewStackLoop tdata axisStride batches ch1 others1 acc2

/-- `viewStack`: the data movement of `Stack` applied on views. -/
def Dense.viewStack (t : Dense α) (axis : Nat) (ap : Tensor.AP) (others : List (Dense α)) :
    Except Fault (List α) :=
  match ap.strides[axis]? with
  | none => .error .panicked
  | some axisStride =>
    if axisStride = 0 then .error .panicked
    else
      match viewStackLoop t.data axisStride (ap.Size / axisStride) (NewFlatIterator t.AP)
          (others.map (fun ot => (ot.data, NewFlatIterator ot.AP))) [] with
      | none => .error .panicked
      | some data => .ok data

/-- Result of `Stack`: the returned pointer (`none` is `nil`) and the error. -/
structure StackOut (α : Type) where
  retVal : Option (Dense α)
  err : Option Err
  deriving DecidableEq, Repr

/-- `Stack`: stacks the other tensors along the axis specified.  The axis is a natural number
(a negative one panics at `newShape[axis]`). -/
def Dense.Stack [Inhabited α] (t : Dense α) (axis : Nat) (others : List (Dense α)) :
    Except Fault (StackOut α) :=
  let opdims := t.Dims
  if axis ≥ opdims + 1 then .ok { retVal := none, err := some Err.DimMismatch }
  else
    let newShape := stackShape t.Shape axis (others.length + 1)
    let ap : Tensor.AP := { shape := newShape, strides := CalcStrides newShape }
    let allNoMat := others.foldl
      (fun acc ot => if acc && ot.IsMaterializable then false else acc) (!t.IsMaterializable)
    match (if allNoMat then t.simpleStack axis ap others else t.viewStack axis ap others) with
    | .error f => .error f
    | .ok data =>
      .ok { retVal := some { AP := ap, old := none, transposeWith := none, data := data,
                             viewOf := false },
            err := none }

/-! ## Layout of a stack -/

/-- The expected buffer of a stack of row-major operands: for each of `m` outer indices from
`o` on, one block of `axisStride` elements of every operand in turn. -/
def stackLayout (axisStride : Nat) (datas : List (List α)) : Nat → Nat → List α
  | 0, _ => []
  | m + 1, o =>
    datas.flatMap (fun d => (d.drop (o * axisStride)).take axisStride) ++
      stackLayout axisStride datas m (o + 1)

/-- The coordinates are inside the shape. -/
def InShape (coords shape : List Nat) : Prop := List.Forall₂ (fun x s => x < s) coords shape

/-- Contiguous operand of shape `S`: not a view, row-major strides, one buffer element per
element of the shape. -/
def Dense.Contiguous (t : Dense α) (S : List Nat) : Prop :=
  t.viewOf = false ∧ t.AP.shape = S ∧ t.AP.strides = CalcStrides S ∧
    t.data.length = TotalSize S

/-- The operand `v` has shape `S` and holds at every coordinate the element `c` holds. -/
def Dense.SameElements (v c : Dense α) (S : List Nat) : Prop :=
  v.AP.shape = S ∧ ∀ coords, InShape coords S →
    ∃ x, v.At coords = .ok (some x, none) ∧ c.At coords = .ok (some x, none)

/-! ## Repeat -/

/-- Modelled from the spec: `AllAxes`, the axis value that stands for every axis. -/
def AllAxes : Int := -1

/-- Modelled from the spec: `ProdInts`, the product of a slice of ints; the empty product is
reported as `0`, which `Repeat` turns into `1`. -/
def ProdInts : List Nat → Nat
  | [] => 0
  | xs => xs.prod

/-- Modelled from the spec: `repeatShape(axis, repeats...)`.  A single repeat count is
broadcast to the axis length, otherwise the counts must be as many as the axis is long
(`ShapeMismatch`); the new shape has the sum of the counts at `axis`.  `AllAxes` flattens the
shape to one axis; an axis outside the shape is refused. -/
def ShapeRepeat (s : List Nat) (axis : Int) (repeats : List Nat) :
    Except Err (List Nat × List Nat × Nat) :=
  if axis ≠ AllAxes ∧ (axis < 0 ∨ axis ≥ s.length) then .error .InvalidAxis
  else
    let size := if axis = AllAxes then TotalSize s else s.getD axis.toNat 0
    let base := if axis = AllAxes then [size] else s
    let ax := if axis = AllAxes then 0 else axis.toNat
    let reps := match repeats with
      | [rep] => List.replicate size rep
      | _ => repeats
    if reps.length ≠ size then .error .ShapeMismatch
    else .ok (base.set ax reps.sum, reps, size)

/-- The innermost loop of `Repeat`: `for k := 0; k < tmp; k++`, with its `break`; returns the
advanced `destStart` and the destination buffer, or the error of the copy. -/
def repeatCopies (tdata : List α) (stride newStride srcStart : Nat) :
    Nat → Nat → List α → Except Err (Nat × List α)
  | 0, destStart, d => .ok (destStart, d)
  | k + 1, destStart, d =>
    if srcStart ≥ tdata.length ∨ destStart + stride > d.length then .ok (destStart, d)
    else
      match copySlicedArray d destStart d.length tdata srcStart tdata.length with
      | (_, some e) => .error e
      | (d1, none) => repeatCopies tdata stride newStride srcStart k (destStart + newStride) d1

/-- The middle loop of `Repeat`: `for j := 0; j < size; j++`, with `n` steps left.  Reading
`repeats[j]` outside the slice panics (`none`); the error of a copy ends the loop. -/
def repeatAxis (tdata : List α) (repeats : List Nat) (stride newStride : Nat) :
    Nat → Nat → Nat → Nat → List α → Option (Except Err (Nat × Nat × List α))
  | 0, _, destStart, srcStart, d => some (.ok (destStart, srcStart, d))
  | n + 1, j, destStart, srcStart, d =>
    match repeats[j]? with
    | none => none
    | some tmp =>
      match repeatCopies tdata stride newStride srcStart tmp destStart d with
      | .error e => some (.error e)
      | .ok (destStart1, d1) =>
        repeatAxis tdata repeats stride newStride n (j + 1) destStart1 (srcStart + stride) d1

/-- The outer loop of `Repeat`: `for i := 0; i < outers; i++`. -/
def repeatOuter (tdata : List α) (repeats : List Nat) (stride newStride size : Nat) :
    Nat → Nat → Nat → List α → Option (Except Err (List α))
  | 0, _, _, d => some (.ok d)
  | outers + 1, destStart, srcStart, d =>
    match repeatAxis tdata repeats stride newStride size 0 destStart srcStart d with
    | none => none
    | some (.error e) => some (.error e)
    | some (.ok (destStart1, srcStart1, d1)) =>
      repeatOuter tdata repeats stride newStride size outers destStart1 srcStart1 d1

/-- Result of `Repeat`: the returned tensor (`none` is `nil`) and the error. -/
structure RepeatOut (α : Type) where
  retVal : Option (Dense α)
  err : Option Err
  deriving DecidableEq, Repr

/-- `Repeat` is like Numpy's repeat.  It repeats the elements of an array. -/
def Dense.Repeat [Inhabited α] (t : Dense α) (axis : Int) (repeats : List Nat) :
    Except Fault (RepeatOut α) :=
  match ShapeRepeat t.Shape axis repeats with
  | .error e => .ok { retVal := none, err := some e }
  | .ok (newShape, repeats, size) =>
    let axis : Nat := if axis = AllAxes then 0 else axis.toNat
    let d : Dense α := newTypedShapedDense newShape
    let outers :=
      if t.IsScalar then 1
      else if ProdInts (t.Shape.take axis) = 0 then 1 else ProdInts (t.Shape.take axis)
    let stride : Option Nat :=
      if IsVectorShape newShape then some 1
      else if t.IsVector then some 1
      else t.ostrides[axis]?
    let newStride : Option Nat :=
      if IsVectorShape newShape then some 1 else d.ostrides[axis]?
    match stride, newStride with
    | some stride, some newStride =>
      match repeatOuter t.data repeats stride newStride size outers 0 0 d.data with
      | none => .error .panicked
      | some (.error e) => .ok { retVal := none, err := some e }
      | some (.ok data) => .ok { retVal := some { d with data := data }, err := none }
    | _, _ => .error .panicked

/-! ## Slice and Concat -/

/-- Range slice `[start, stop)` as `makeRS` builds it; in a slice list `none` is the `nil`
slice, which takes the whole axis. -/
structure RS where
  start : Nat
  stop : Nat
  deriving DecidableEq, Repr

/-- Modelled from the spec: `makeRS(start, end)`, the range slice of the two bounds. -/
def makeRS (start stop : Nat) : RS := { start := start, stop := stop }

/-- Modelled from the spec: the loop of `sliceRange` over the axes.  Each slice narrows the
shape, keeps the stride and accumulates the physical range: `ndStart` grows by `start *
stride`, `ndEnd` shrinks by `(size - stop) * stride`.  Bounds outside the axis are refused
with `InvalidSlice`. -/
def sliceLoop : List Nat → List Nat → List (Option RS) → Nat → Nat →
    Except Err (List Nat × List Nat × Nat × Nat)
  | [], _, _, ndStart, ndEnd => .ok ([], [], ndStart, ndEnd)
  | size :: shape, strides, slices, ndStart, ndEnd =>
    let stride := strides.headD 0
    let rs : RS := match slices.head? with
      | some (some rs) => rs
      | _ => makeRS 0 size
    if size ≤ rs.start ∨ rs.stop < rs.start ∨ size < rs.stop then .error .InvalidSlice
    else
      match sliceLoop shape strides.tail slices.tail (ndStart + rs.start * stride)
          (ndEnd - (size - rs.stop) * stride) with
      | .error e => .error e
      | .ok (sh, st, s, e) => .ok ((rs.stop - rs.start) :: sh, stride :: st, s, e)

/-- Modelled from the spec: `sliceRange(ap, totalLen, slices)`, the narrowed access pattern
and the physical range `[ndStart, ndEnd)` it touches; more slices than dimensions are
refused. -/
def AP.S (ap : AP) (size : Nat) (slices : List (Option RS)) : Except Err (AP × Nat × Nat) :=
  if slices.length > ap.shape.length then .error .InvalidAxis
  else
    match sliceLoop ap.shape ap.strides slices 0 size with
    | .error e => .error e
    | .ok (sh, st, s, e) => .ok ({ shape := sh, strides := st }, s, e)

/-- Modelled from the spec: `sliceArray(data, start, end)`, the part `data[start:end]` of the
buffer; a range outside the buffer panics. -/
def sliceArray (data : List α) (ndStart ndEnd : Nat) : Option (List α) :=
  if ndStart ≤ ndEnd ∧ ndEnd ≤ data.length then some ((data.drop ndStart).take (ndEnd - ndStart))
  else none

/-- Result of `Slice`: the view (`none` is `nil`), the error, and where the view's buffer
starts inside the receiver's buffer, which the two share. -/
structure SliceOut (α : Type) where
  view : Option (Dense α)
  err : Option Err
  start : Nat
  deriving DecidableEq, Repr

/-- `Slice` performs slicing on the tensor and returns a view. -/
def Dense.Slice (t : Dense α) (slices : List (Option RS)) : Except Fault (SliceOut α) :=
  match t.AP.S t.data.length slices with
  | .error e => .ok { view := none, err := some e, start := 0 }
  | .ok (newAP, ndStart, ndEnd) =>
    match sliceArray t.data ndStart ndEnd with
    | none => .error .panicked
    | some data =>
      .ok { view := some { AP := newAP, old := none, transposeWith := none, data := data,
                           viewOf := true },
            err := none, start := ndStart }

/-- The stores of `assignArray`, one per pair of a destination offset and a source offset;
an offset outside its buffer panics. -/
def assignLoop (src : List α) : List (Nat × Nat) → List α → Option (List α)
  | [], d => some d
  | (doff, soff) :: rest, d =>
    match dataGet src soff with
    | none => none
    | some v =>
      match dataSet d doff (some v) with
      | none => none
      | some d1 => assignLoop src rest d1

/-- Modelled from the spec: `assignArray(dest, src)`, the element-wise assignment of the
source's values into the destination, coordinate by coordinate in row-major order (the flat
iterators of the two access patterns side by side); `ShapeMismatch` when the shapes differ.
Returns the destination's buffer afterwards. -/
def assignArray (dest src : Dense α) : Except Fault (List α × Option Err) :=
  if dest.Shape ≠ src.Shape then .ok (dest.data, some Err.ShapeMismatch)
  else
    match assignLoop src.data ((NewFlatIterator dest.AP).zip (NewFlatIterator src.AP))
        dest.data with
    | none => .error .panicked
    | some d => .ok (d, none)

/-- Modelled from the spec: `concatShape(axis, shapes...)`; every shape agrees with the
receiver's on every axis except `axis` (`ShapeMismatch` otherwise) and the sizes along `axis`
are summed; an axis outside the shape is refused. -/
def ShapeConcat (s : List Nat) (axis : Nat) (ss : List (List Nat)) : Except Err (List Nat) :=
  if axis ≥ s.length then .error .InvalidAxis
  else if ss.all (fun s1 => s1.length == s.length && s1.set axis 0 == s.set axis 0) then
    .ok (s.set axis (s.getD axis 0 + (ss.map (fun s1 => s1.getD axis 0)).sum))
  else .error .ShapeMismatch

/-- Result of `Concat`: the returned pointer (`none` is `nil`) and the error. -/
structure ConcatOut (α : Type) where
  retVal : Option (Dense α)
  err : Option Err
  deriving DecidableEq, Repr

/-- The loop of `Concat` over `all`: `end += T.Shape()[axis]`, the slice `makeRS(start, end)`
at `axis` of `axis + 1` slices, the view of the destination, the assignment, `start = end`.
What is assigned through the view lands in the destination's buffer, which the view
shares. -/
def concatLoop (axis : Nat) : List (Dense α) → Nat → Nat → Dense α →
    Except Fault (Dense α × Option Err)
  | [], _, _, retVal => .ok (retVal, none)
  | T :: rest, start, stop, retVal =>
    match T.Shape[axis]? with
    | none => .error .panicked
    | some n =>
      match retVal.Slice ((List.replicate (axis + 1) none).set axis
          (some (makeRS start (stop + n)))) with
      | .error f => .error f
      | .ok { view := none, err := e, start := _ } => .ok (retVal, e)
      | .ok { view := some v, err := _, start := off } =>
        match assignArray v T with
        | .error f => .error f
        | .ok (_, some e) => .ok (retVal, some e)
        | .ok (vdata, none) =>
          concatLoop axis rest (stop + n) (stop + n)
            { retVal with data := copyInto retVal.data off vdata }

/-- `Concat` concatenates the other tensors along the given axis.  It is like Numpy's
concatenate() function. -/
def Dense.Concat [Inhabited α] (t : Dense α) (axis : Nat) (Ts : List (Dense α)) :
    Except Fault (ConcatOut α) :=
  match ShapeConcat t.Shape axis (Ts.map (fun T => T.Shape)) with
  | .error e => .ok { retVal := none, err := some e }
  | .ok newShape =>
    let retVal : Dense α :=
      { AP := { shape := newShape, strides := CalcStrides newShape }, old := none,
        transposeWith := none, data := makeArray (TotalSize newShape), viewOf := false }
    match concatLoop axis (t :: Ts) 0 0 retVal with
    | .error f => .error f
    | .ok (r, e) => .ok { retVal := some r, err := e }

/-- Every coordinate inside the shape of the operand can be read. -/
def Dense.Readable (t : Dense α) : Prop :=
  ∀ c, InShape c t.AP.shape → ∃ v, t.At c = .ok (some v, none)

/-- The loop of `Concat` with a log: the same steps as `concatLoop`, and every range
`makeRS(start, end)` it builds is appended to the log. -/
def concatLoopLog (axis : Nat) : List (Dense α) → Nat → Nat → Dense α → List RS →
    Except Fault ((Dense α × Option Err) × List RS)
  | [], _, _, retVal, log => .ok ((retVal, none), log)
  | T :: rest, start, stop, retVal, log =>
    match T.Shape[axis]? with
    | none => .error .panicked
    | some n =>
      match retVal.Slice ((List.replicate (axis + 1) none).set axis
          (some (makeRS start (stop + n)))) with
      | .error f => .error f
      | .ok { view := none, err := e, start := _ } =>
        .ok ((retVal, e), log ++ [makeRS start (stop + n)])
      | .ok { view := some v, err := _, start := off } =>
        match assignArray v T with
        | .error f => .error f
        | .ok (_, some e) => .ok ((retVal, some e), log ++ [makeRS start (stop + n)])
        | .ok (vdata, none) =>
          concatLoopLog axis rest (stop + n) (stop + n)
            { retVal with data := copyInto retVal.data off vdata }
            (log ++ [makeRS start (stop + n)])

/-- The length of an operand along `axis`. -/
def Dense.axisLen (t : Dense α) (axis : Nat) : Nat := t.AP.shape.getD axis 0

/-- The sum of the lengths along `axis` of the first `k` operands: where the range of
operand `k` is expected to start. -/
def concatStart (axis : Nat) (ops : List (Dense α)) (k : Nat) : Nat :=
  ((ops.take k).map (fun T => T.axisLen axis)).sum

/-- The ranges laid end to end from `s` on: the range of an operand starts where the range
of the one before stops and is as long as the operand along `axis`. -/
def concatRanges (axis : Nat) : List (Dense α) → Nat → List RS
  | [], _ => []
  | T :: rest, s => makeRS s (s + T.axisLen axis) :: concatRanges axis rest (s + T.axisLen axis)

/-! ## States and example arrays -/

/-- Identity state: no pending transpose. -/
def Dense.IsIdentity (t : Dense α) : Prop := t.old = none ∧ t.transposeWith = none

/-- Row-major array over its whole buffer: freshly computed strides, one buffer element per
element of the shape. -/
def Dense.RowMajor (t : Dense α) : Prop :=
  t.AP.strides = CalcStrides t.AP.shape ∧ t.data.length = TotalSize t.AP.shape

/-- A row-major array of naturals in the Identity state, for the concrete checks. -/
def exampleDense (sh : List Nat) (d : List Nat) : Dense Nat :=
  { AP := { shape := sh, strides := CalcStrides sh }, old := none, transposeWith := none,
    data := d, viewOf := false }

/-- A `2x3` array of naturals with the pending transpose `(1,0)`: reported shape `3x2`,
buffer still in `2x3` row-major order. -/
def examplePending : Dense Nat :=
  { AP := { shape := [3, 2], strides := [1, 3] },
    old := some { shape := [2, 3], strides := [3, 1] },
    transposeWith := some [1, 0], data := [0, 1, 2, 3, 4, 5], viewOf := false }

/-- A `2x2` view of naturals with column-major strides: the element at `(i, j)` is
`2 * i + j`. -/
def exampleView : Dense Nat :=
  { AP := { shape := [2, 2], strides := [1, 2] }, old := none, transposeWith := none,
    data := [0, 2, 1, 3], viewOf := true }

/-- The `1x1x5` vector of naturals after `T(2,1,0)`: reported shape `5x1x1`, the transpose
still pending. -/
def examplePendingVector : Dense Nat :=
  { AP := { shape := [5, 1, 1], strides := [1, 5, 5] },
    old := some { shape := [1, 1, 5], strides := [5, 5, 1] },
    transposeWith := some [2, 1, 0], data := [0, 1, 2, 3, 4], viewOf := false }

/-- A `2x3` array of naturals that is a view of six elements. -/
def exampleViewOf23 : Dense Nat :=
  { AP := { shape := [2, 3], strides := [3, 1] }, old := none, transposeWith := none,
    data := [0, 0, 0, 0, 0, 0], viewOf := true }

/-- The columns `1..2` of the `2x3` array `0..5`, as `Slice` returns them: a view of shape
`2x2` over the five buffer elements `1..5`. -/
def exampleColumns : Dense Nat :=
  { AP := { shape := [2, 2], strides := [3, 1] }, old := none, transposeWith := none,
    data := [1, 2, 3, 4, 5], viewOf := true }

/-- The copy `SafeT(1,0)` returns of `exampleColumns`: not a view, four logical elements,
five buffer elements. -/
def exampleColumnsCopy : Dense Nat :=
  { AP := { shape := [2, 2], strides := [1, 3] },
    old := some { shape := [2, 2], strides := [3, 1] },
    transposeWith := some [1, 0], data := [1, 2, 3, 4, 5], viewOf := false }

/-! ## Invariants of the cycle-following loop -/

/-- Index `j` is marked in the bitmap. -/
def Settled (track : List Bool) (j : Nat) : Prop := track[j]? = some true

/-- Loop invariant between two cycles, at an unmarked index `i`: the marked indices are closed
under the destination map and under its inverse, every element of a marked index already
sits at its destination, everything unmarked is untouched, and all indices below `i` are
marked. -/
def IdleInv (n : Nat) (dst : Nat → Nat) (old : List α) (i : Nat) (track : List Bool)
    (data : List α) : Prop :=
  track.length = n ∧ data.length = n ∧ i < n ∧ track[i]? = some false ∧
  (∀ j, j < i → Settled track j) ∧
  (∀ j, Settled track j → Settled track (dst j) ∧ data[dst j]? = old[j]?) ∧
  (∀ j, Settled track j → ∃ k, Settled track k ∧ dst k = j) ∧
  (∀ j, j < n → ¬ Settled track j → data[j]? = old[j]?)

/-- Loop invariant inside a cycle that started at `a`: `p` is the last index visited, `i` its
destination, `saved` the element evicted from `p`.  Every marked index other than `p` has
its element at its destination, which is marked and is not `a`; every marked index other
than `a` has a marked predecessor other than `p`. -/
def MidInv (n : Nat) (dst : Nat → Nat) (old : List α) (a p i : Nat) (saved : Option α)
    (track : List Bool) (data : List α) : Prop :=
  track.length = n ∧ data.length = n ∧ i < n ∧ Settled track a ∧ Settled track p ∧
  dst p = i ∧ saved = old[p]? ∧
  (∀ j, j < a → Settled track j) ∧
  (∀ j, Settled track j → j ≠ p →
    Settled track (dst j) ∧ dst j ≠ a ∧ data[dst j]? = old[j]?) ∧
  (∀ j, Settled track j → j ≠ a → ∃ k, Settled track k ∧ k ≠ p ∧ dst k = j) ∧
  (∀ j, j < n → ¬ Settled track j → data[j]? = old[j]?)

/-- What the loop has established when it exits: every element is at its destination, every
index is marked, and the scan ran off the end of the buffer. -/
def LoopPost (n : Nat) (dst : Nat → Nat) (old : List α) (ex : LoopExit α) : Prop :=
  ex.data.length = n ∧ ex.track.length = n ∧ n ≤ ex.i ∧
  (∀ j, j < n → Settled ex.track j) ∧
  (∀ j, j < n → ex.data[dst j]? = old[j]?)

/-! ## Basic facts -/

theorem copyInto_zero_of_length_eq {β : Type} (dst src : List β)
    (h : dst.length = src.length) : copyInto dst 0 src = src := by
  simp [copyInto, h]

theorem copyArray_of_length_eq (dst src : List α) (h : dst.length = src.length) :
    copyArray dst src = src := copyInto_zero_of_length_eq dst src h

theorem isPermutation_iff (P : List Nat) (n : Nat) :
    isPermutation P n = true ↔ P.length = n ∧ (∀ a ∈ P, a < n) ∧ P.Nodup := by
  simp [isPermutation, and_assoc]

theorem isPermutation_perm {P : List Nat} {n : Nat} (h : isPermutation P n = true) :
    P.Perm (List.range n) := by
  obtain ⟨hl, hr, hn⟩ := (isPermutation_iff P n).1 h
  apply List.Subperm.perm_of_length_le
  · apply List.subperm_of_subset hn
    intro a ha
    exact List.mem_range.2 (hr a ha)
  · simp [hl]

theorem perm_isPermutation {P : List Nat} {n : Nat} (h : P.Perm (List.range n)) :
    isPermutation P n = true := by
  rw [isPermutation_iff]
  refine ⟨by simpa using h.length_eq, ?_, h.nodup_iff.2 (List.nodup_range n)⟩
  intro a ha
  exact List.mem_range.1 (h.subset ha)

/-- On a valid permutation `AP.T` gives the `NoOp` signal for the identity and the permuted
access pattern otherwise. -/
theorem AP_T_of_isPermutation (ap : AP) (P : List Nat)
    (h : isPermutation P ap.shape.length = true) :
    ap.T P = if P = List.range ap.shape.length then .error Err.NoOp
      else .ok ({ shape := P.map (fun a => ap.shape.getD a 0),
                  strides := P.map (fun a => ap.strides.getD a 0) }, P) := by
  have hl := ((isPermutation_iff P _).1 h).1
  have hax : (if P.isEmpty then (List.range ap.shape.length).reverse else P) = P := by
    cases P with
    | nil => simp at hl; simp [← hl]
    | cons a as => simp
  simp only [AP.T, hax, hl, h]
  simp

/-- The access pattern `AP.T` builds for the axes `P`. -/
theorem T_of_old_none [Inhabited α] (t : Dense α) (P : List Nat) (h : t.old = none)
    (hP : isPermutation P t.Dims = true) (hn : P ≠ List.range t.Dims) :
    t.T P = .ok { t := { t with
                    old := some t.AP, transposeWith := some P,
                    AP := { shape := P.map (fun a => t.AP.shape.getD a 0),
                            strides := P.map (fun a => t.AP.strides.getD a 0) } },
                  err := none, transposes := 0 } := by
  have hT := AP_T_of_isPermutation t.AP P hP
  rw [if_neg (by simpa [Dense.Dims] using hn)] at hT
  simp only [Dense.T, hT, h]

theorem T_of_identity_axes [Inhabited α] (t : Dense α) (P : List Nat)
    (hn : P = List.range t.Dims) :
    t.T P = .ok { t := t, err := none, transposes := 0 } := by
  have hP : isPermutation P t.Dims = true := by
    rw [hn]; exact perm_isPermutation (List.Perm.refl _)
  have hT := AP_T_of_isPermutation t.AP P hP
  rw [if_pos (by simpa [Dense.Dims] using hn)] at hT
  simp [Dense.T, hT]

/-! ## UT -/

/-- C5: `UT` sets the AP of a Pending array to the stored previous AP and clears `old` and
`transposeWith` without touching the buffer; it changes nothing on an Identity array; it is
idempotent; and from Identity, `T(P)` followed by `UT()` gives back the original array
(shape, strides, state and buffer) for every valid permutation `P`. -/
theorem UT_restores [Inhabited α] (t : Dense α) :
    (∀ o, t.old = some o →
      t.UT = { t with AP := o, old := none, transposeWith := none }) ∧
    (t.old = none → t.UT = t) ∧
    t.UT.data = t.data ∧
    t.UT.UT = t.UT ∧
    (t.IsIdentity → ∀ P, isPermutation P t.Dims = true →
      ∃ r, t.T P = .ok r ∧ r.err = none ∧ r.transposes = 0 ∧ r.t.UT = t) := by
  refine ⟨?_, ?_, ?_, ?_, ?_⟩
  · intro o h
    simp [Dense.UT, h]
  · intro h
    simp [Dense.UT, h]
  · cases h : t.old <;> simp [Dense.UT, h]
  · cases h : t.old <;> simp [Dense.UT, h]
  · intro hid P hP
    obtain ⟨h, h2⟩ := hid
    by_cases hn : P = List.range t.Dims
    · refine ⟨{ t := t, err := none, transposes := 0 }, T_of_identity_axes t P hn, rfl, rfl, ?_⟩
      simp [Dense.UT, h]
    · refine ⟨_, T_of_old_none t P h hP hn, rfl, rfl, ?_⟩
      cases t
      simp_all [Dense.UT]

/-- C5, concrete check: a Pending `2x3` array restored by `UT`, and `T(1,0); UT` on an
Identity array. -/
theorem UT_restores_witness :
    (exampleDense [2, 3] [0, 1, 2, 3, 4, 5]).IsIdentity ∧
    isPermutation [1, 0] (exampleDense [2, 3] [0, 1, 2, 3, 4, 5]).Dims = true ∧
    ∃ r, (exampleDense [2, 3] [0, 1, 2, 3, 4, 5]).T [1, 0] = .ok r ∧ r.err = none ∧
      r.transposes = 0 ∧ r.t.UT = exampleDense [2, 3] [0, 1, 2, 3, 4, 5] :=
  ⟨⟨rfl, rfl⟩, by decide,
    (UT_restores (exampleDense [2, 3] [0, 1, 2, 3, 4, 5])).2.2.2.2 ⟨rfl, rfl⟩ [1, 0]
      (by decide)⟩

/-! ## SafeT -/

/-- C6, the code at the failing input: with the identity permutation `(0,1)` on a `2x3` array
`SafeT` returns a nil pointer and a nil error, not a copy. -/
theorem SafeT_identity_returns_nil :
    isPermutation [0, 1] (exampleDense [2, 3] [0, 1, 2, 3, 4, 5]).Dims = true ∧
    (exampleDense [2, 3] [0, 1, 2, 3, 4, 5]).SafeT [0, 1] =
      { t := exampleDense [2, 3] [0, 1, 2, 3, 4, 5], retVal := none, err := none } := by
  decide

/-! ## CopyTo -/

/-- C7 fails on the code: a shape-(6) array is copied into a `2x3` array that is a view.  The
sizes are equal, and `CopyTo` returns the `NotImplemented` error whatever the bulk copy of the
storage does, against the doc comment of `CopyTo` ("The only time that this will fail is if
the underlying sizes are different"). -/
theorem CopyTo_view_same_size_fails :
    exampleViewOf23.viewOf = true ∧
    exampleViewOf23.Size = (exampleDense [6] [0, 1, 2, 3, 4, 5]).Size ∧
    ∀ copy : List Nat → List Nat → List Nat × Option Err,
      (exampleDense [6] [0, 1, 2, 3, 4, 5]).CopyTo copy (.other exampleViewOf23) =
        { t := exampleDense [6] [0, 1, 2, 3, 4, 5], other := .other exampleViewOf23,
          err := some Err.NotImplemented } ∧
      ¬ (((exampleDense [6] [0, 1, 2, 3, 4, 5]).CopyTo copy (.other exampleViewOf23)).err ≠
            none ↔
          exampleViewOf23.Size ≠ (exampleDense [6] [0, 1, 2, 3, 4, 5]).Size) := by
  refine ⟨rfl, rfl, ?_⟩
  intro copy
  have h : (exampleDense [6] [0, 1, 2, 3, 4, 5]).CopyTo copy (.other exampleViewOf23) =
      { t := exampleDense [6] [0, 1, 2, 3, 4, 5], other := .other exampleViewOf23,
        err := some Err.NotImplemented } := rfl
  refine ⟨h, ?_⟩
  rw [h]
  intro hiff
  exact (hiff.1 (by simp)) rfl

/-- Go's `copy` overwrites the first `min (len dst) (len src)` elements of the destination
with those of the source and keeps the rest. -/
theorem copyArray_eq (dst src : List α) :
    copyArray dst src =
      src.take (min dst.length src.length) ++ dst.drop (min dst.length src.length) := by
  simp [copyArray, copyInto]

/-- C8 as stated fails: the `2x3` array `0..5` is sliced to its columns `1..2`, a view over
the five buffer elements `1..5` with four logical elements, and `SafeT(1,0)` copies it: the
copy is not a view, its size is `4`, its buffer has five elements.  `CopyTo` into a four
element array returns no error and the destination's buffer is `1,2,3,4`, not the receiver's
buffer. -/
theorem CopyTo_buffer_longer_than_size :
    (exampleDense [2, 3] [0, 1, 2, 3, 4, 5]).Slice [none, some (makeRS 1 3)] =
      .ok { view := some exampleColumns, err := none, start := 1 } ∧
    (exampleColumns.SafeT [1, 0]).retVal = some exampleColumnsCopy ∧
    exampleColumnsCopy.viewOf = false ∧ (exampleDense [4] [9, 9, 9, 9]).viewOf = false ∧
    (exampleDense [4] [9, 9, 9, 9]).Size = exampleColumnsCopy.Size ∧
    exampleColumnsCopy.CopyTo copyArrayResult (.other (exampleDense [4] [9, 9, 9, 9])) =
      { t := exampleColumnsCopy, other := .other (exampleDense [4] [1, 2, 3, 4]),
        err := none } ∧
    exampleColumnsCopy.data = [1, 2, 3, 4, 5] ∧
    (exampleDense [4] [1, 2, 3, 4]).data ≠ exampleColumnsCopy.data := by
  refine ⟨rfl, rfl, rfl, rfl, rfl, rfl, rfl, by decide⟩

/-- C8 amended: the four cases of `CopyTo`.  Same instance: nil, nothing changes.  Sizes
differ: `SizeMismatch`, nothing changes.  Neither side a view: it returns the error of the
bulk copy and the destination gets the buffer the bulk copy leaves, the receiver and the
shapes and strides of both stay as they are; the bulk copy between buffers of one element
type returns no error and overwrites the first `min (len other.data) (len t.data)` elements
of the destination's buffer with the receiver's, so that the destination's buffer equals the
receiver's element for element when the two buffers are equally long.  Either side a view:
`NotImplemented`, nothing changes. -/
theorem CopyTo_cases (copy : List α → List α → List α × Option Err) (t : Dense α) :
    t.CopyTo copy .self = { t := t, other := .self, err := none } ∧
    (∀ o : Dense α, o.Size ≠ t.Size →
      t.CopyTo copy (.other o) =
        { t := t, other := .other o, err := some Err.SizeMismatch }) ∧
    (∀ o : Dense α, o.Size = t.Size → t.viewOf = false → o.viewOf = false →
      t.CopyTo copy (.other o) =
        { t := t, other := .other { o with data := (copy o.data t.data).1 },
          err := (copy o.data t.data).2 }) ∧
    (∀ o : Dense α, o.Size = t.Size → t.viewOf = false → o.viewOf = false →
      t.CopyTo copyArrayResult (.other o) =
        { t := t, other := .other { o with data := copyArray o.data t.data }, err := none } ∧
      copyArray o.data t.data =
        t.data.take (min o.data.length t.data.length) ++
          o.data.drop (min o.data.length t.data.length) ∧
      (o.data.length = t.data.length → copyArray o.data t.data = t.data)) ∧
    (∀ o : Dense α, o.Size = t.Size → (t.viewOf = true ∨ o.viewOf = true) →
      t.CopyTo copy (.other o) =
        { t := t, other := .other o, err := some Err.NotImplemented }) := by
  refine ⟨rfl, ?_, ?_, ?_, ?_⟩
  · intro o hs
    simp [Dense.CopyTo, hs]
  · intro o hs hv1 hv2
    simp [Dense.CopyTo, hs, hv1, hv2]
  · intro o hs hv1 hv2
    refine ⟨?_, copyArray_eq _ _, fun hl => copyArray_of_length_eq _ _ hl⟩
    simp [Dense.CopyTo, hs, hv1, hv2, copyArrayResult]
  · intro o hs hv
    have hv2 : ¬ (t.viewOf = false ∧ o.viewOf = false) := by
      rcases hv with h | h <;> simp [h]
    simp [Dense.CopyTo, hs, hv2]

/-- C8 amended, concrete check of the bulk-copy case: a shape-(6) array copied into a
shape-(2,3) array. -/
theorem CopyTo_cases_witness :
    (exampleDense [2, 3] [9, 9, 9, 9, 9, 9]).Size = (exampleDense [6] [0, 1, 2, 3, 4, 5]).Size ∧
    (exampleDense [6] [0, 1, 2, 3, 4, 5]).CopyTo copyArrayResult
        (.other (exampleDense [2, 3] [9, 9, 9, 9, 9, 9])) =
      { t := exampleDense [6] [0, 1, 2, 3, 4, 5],
        other := .other (exampleDense [2, 3] [0, 1, 2, 3, 4, 5]), err := none } :=
  ⟨by decide,
    ((CopyTo_cases copyArrayResult (exampleDense [6] [0, 1, 2, 3, 4, 5])).2.2.2.1
      (exampleDense [2, 3] [9, 9, 9, 9, 9, 9]) (by decide) rfl rfl).1⟩

/-! ## Thunked round trip -/

theorem isReversed_self (s : List Nat) : isReversed s s = some true := by
  induction s with
  | nil => rfl
  | cons a s ih => simp [isReversed, ih]

theorem getD_map_of_lt {β : Type} (P : List Nat) (f : Nat → β) (a : Nat) (d : β)
    (h : a < P.length) : (P.map f).getD a d = f (P.getD a 0) := by
  simp [List.getD_eq_getElem?_getD, List.getElem?_eq_getElem h]

/-- Composing the permuted lists of two permutations, the second undoing the first, gives the
list back. -/
theorem map_getD_inverse {β : Type} (S : List β) (d : β) (P Q : List Nat)
    (hP : isPermutation P S.length = true) (hQ : isPermutation Q S.length = true)
    (hinv : ∀ k, k < S.length → P.getD (Q.getD k 0) 0 = k) :
    Q.map (fun a => (P.map (fun b => S.getD b d)).getD a d) = S := by
  obtain ⟨hPl, -, -⟩ := (isPermutation_iff P _).1 hP
  obtain ⟨hQl, hQr, -⟩ := (isPermutation_iff Q _).1 hQ
  apply List.ext_getElem
  · simp [hQl]
  · intro k h1 h2
    have hk : k < Q.length := by simpa using h1
    have hq : Q[k] < P.length := by rw [hPl]; exact hQr _ (List.getElem_mem hk)
    simp only [List.getElem_map]
    rw [getD_map_of_lt P _ _ d hq]
    have := hinv k h2
    rw [List.getD_eq_getElem _ _ hk] at this
    rw [this, List.getD_eq_getElem _ _ h2]

theorem inverse_ne_identity (P Q : List Nat) (n : Nat)
    (hP : isPermutation P n = true) (hne : P ≠ List.range n)
    (hinv : ∀ k, k < n → P.getD (Q.getD k 0) 0 = k) : Q ≠ List.range n := by
  intro hQ
  apply hne
  obtain ⟨hPl, -, -⟩ := (isPermutation_iff P _).1 hP
  apply List.ext_getElem
  · simp [hPl]
  · intro k h1 h2
    have hk : k < n := by simpa using h2
    have := hinv k hk
    rw [hQ, List.getD_eq_getElem _ _ h2, List.getElem_range, List.getD_eq_getElem _ _ h1] at this
    simp [this]

/-- On a Pending array, a request whose target shape equals the pre-transpose shape is
answered by `UT` alone. -/
theorem T_cancel [Inhabited α] (t : Dense α) (o : AP) (Q : List Nat) (hold : t.old = some o)
    (hQ : isPermutation Q t.Dims = true) (hne : Q ≠ List.range t.Dims)
    (hrev : Q.map (fun a => t.AP.shape.getD a 0) = o.shape) :
    t.T Q = .ok { t := t.UT, err := none, transposes := 0 } := by
  have hT := AP_T_of_isPermutation t.AP Q hQ
  rw [if_neg (by simpa [Dense.Dims] using hne)] at hT
  simp only [Dense.T, hT, hold]
  by_cases hv : t.IsVector = true
  · simp [hv]
  · simp only [hv, Dense.oshape, hold, hrev, isReversed_self]
    simp

/-- C2: from Identity, `T(P)` followed by `T(Q)` with `Q` the inverse of the non-identity
permutation `P` returns no error both times, never calls `Transpose`, and gives back the
array exactly as it was: Identity state, original shape, strides and buffer. -/
theorem T_then_inverse [Inhabited α] (t : Dense α) (P Q : List Nat)
    (hid : t.IsIdentity)
    (hP : isPermutation P t.Dims = true) (hne : P ≠ List.range t.Dims)
    (hQ : isPermutation Q t.Dims = true)
    (hinv : ∀ k, k < t.Dims → P.getD (Q.getD k 0) 0 = k) :
    ∃ r1 r2, t.T P = .ok r1 ∧ r1.err = none ∧ r1.transposes = 0 ∧
      r1.t.T Q = .ok r2 ∧ r2.err = none ∧ r2.transposes = 0 ∧
      r2.t = t ∧ r2.t.IsIdentity := by
  obtain ⟨ho, htw⟩ := hid
  have hPl := ((isPermutation_iff P _).1 hP).1
  have hQne := inverse_ne_identity P Q t.Dims hP hne hinv
  let t1 : Dense α := { t with
    old := some t.AP, transposeWith := some P,
    AP := { shape := P.map (fun a => t.AP.shape.getD a 0),
            strides := P.map (fun a => t.AP.strides.getD a 0) } }
  have hd1 : t1.Dims = t.Dims := by simp [t1, Dense.Dims, hPl]
  have h2 : t1.T Q = .ok { t := t1.UT, err := none, transposes := 0 } := by
    apply T_cancel t1 t.AP Q rfl (by rw [hd1]; exact hQ) (by rw [hd1]; exact hQne)
    exact map_getD_inverse t.AP.shape 0 P Q hP hQ hinv
  have hut : t1.UT = t := by
    cases t
    simp_all [t1, Dense.UT]
  refine ⟨{ t := t1, err := none, transposes := 0 }, { t := t, err := none, transposes := 0 },
    T_of_old_none t P ho hP hne, rfl, rfl, ?_, rfl, rfl, rfl, ⟨ho, htw⟩⟩
  rw [← hut]
  simpa [hut] using h2

/-- C2, concrete check: `T(1,2,0)` then `T(2,0,1)` on a `2x3x4` array. -/
theorem T_then_inverse_witness :
    ∃ r1 r2, (exampleDense [2, 3, 4] (List.range 24)).T [1, 2, 0] = .ok r1 ∧ r1.err = none ∧
      r1.transposes = 0 ∧ r1.t.T [2, 0, 1] = .ok r2 ∧ r2.err = none ∧ r2.transposes = 0 ∧
      r2.t = exampleDense [2, 3, 4] (List.range 24) ∧ r2.t.IsIdentity :=
  T_then_inverse (exampleDense [2, 3, 4] (List.range 24)) [1, 2, 0] [2, 0, 1] ⟨rfl, rfl⟩
    (by decide) (by decide) (by decide) (by decide)

/-! ## The axes of RollAxis -/

theorem insertIdx_eq_take_drop {β : Type} (x : β) :
    ∀ (l : List β) (n : Nat), n ≤ l.length → l.insertIdx n x = l.take n ++ x :: l.drop n
  | l, 0, _ => by simp
  | [], n + 1, h => by simp at h
  | a :: l, n + 1, h => by
    simp only [List.insertIdx_succ_cons, List.take_succ_cons, List.drop_succ_cons,
      List.cons_append, List.cons.injEq, true_and]
    exact insertIdx_eq_take_drop x l n (by simpa using h)

theorem copyInto_eq {β : Type} (dst src : List β) (off : Nat) :
    copyInto dst off src =
      dst.take off ++ src.take (min (dst.length - off) src.length) ++
        dst.drop (off + min (dst.length - off) src.length) := rfl

/-- `copy(axes[axis:], axes[axis+1:])` removes index `axis` and repeats the last element. -/
theorem copyInto_shift_left {β : Type} (L : List β) (axis : Nat) (ha : axis < L.length) :
    copyInto L axis (L.drop (axis + 1)) = L.eraseIdx axis ++ L.drop (L.length - 1) := by
  have h1 : min (L.length - axis) (L.drop (axis + 1)).length = L.length - (axis + 1) := by
    rw [List.length_drop]; omega
  have h2 : axis + (L.length - (axis + 1)) = L.length - 1 := by omega
  rw [copyInto_eq, h1, h2, List.eraseIdx_eq_take_drop_succ]
  congr 2
  apply List.take_of_length_le
  rw [List.length_drop]

/-- `copy(axes[s+1:], axes[s:])` followed by `axes[s] = x`. -/
theorem copyInto_shift_right {β : Type} (A : List β) (s : Nat) (x : β) (hs : s < A.length) :
    (copyInto A (s + 1) (A.drop s)).set s x =
      A.take s ++ x :: (A.drop s).take (A.length - (s + 1)) := by
  have h1 : min (A.length - (s + 1)) (A.drop s).length = A.length - (s + 1) := by
    rw [List.length_drop]; omega
  have h2 : s + 1 + (A.length - (s + 1)) = A.length := by omega
  rw [copyInto_eq, h1, h2, List.drop_of_length_le (le_refl _), List.append_nil]
  have h3 : A.take (s + 1) = A.take s ++ [A[s]] := by
    rw [List.take_succ, List.getElem?_eq_getElem hs]; rfl
  have h4 : (A.take s).length = s := by rw [List.length_take]; omega
  rw [h3, List.append_assoc, List.set_append_right _ _ (by omega), h4, Nat.sub_self]
  rfl

/-- The three slice operations of `RollAxis` on any list: remove index `axis`, re-insert `x`
at index `s`. -/
theorem roll_list {β : Type} (L : List β) (axis s : Nat) (x : β)
    (ha : axis < L.length) (hs : s < L.length) :
    (copyInto (copyInto L axis (L.drop (axis + 1))) (s + 1)
        ((copyInto L axis (L.drop (axis + 1))).drop s)).set s x =
      (L.eraseIdx axis).insertIdx s x := by
  have hE : (L.eraseIdx axis).length = L.length - 1 := List.length_eraseIdx_of_lt ha
  have hR : (L.drop (L.length - 1)).length = 1 := by rw [List.length_drop]; omega
  have hlen : (L.eraseIdx axis ++ L.drop (L.length - 1)).length = L.length := by
    rw [List.length_append, hE, hR]; omega
  rw [copyInto_shift_left L axis ha, copyInto_shift_right _ s x (by omega),
    insertIdx_eq_take_drop x _ s (by omega), hlen,
    List.take_append_of_le_length (by omega), List.drop_append_of_le_length (by omega),
    List.take_append_of_le_length (by rw [List.length_drop]; omega)]
  congr 2
  apply List.take_of_length_le
  rw [List.length_drop]; omega

/-- The axes slice built by `RollAxis` is `0..dims-1` with `axis` removed and re-inserted at
index `s`. -/
theorem rollAxes_eq (dims axis s : Nat) (ha : axis < dims) (hs : s < dims) :
    rollAxes dims axis s = ((List.range dims).eraseIdx axis).insertIdx s axis := by
  unfold rollAxes
  exact roll_list (List.range dims) axis s axis (by simpa using ha) (by simpa using hs)

theorem cons_getElem_eraseIdx_perm {β : Type} (L : List β) (i : Nat) (h : i < L.length) :
    (L[i] :: L.eraseIdx i).Perm L := by
  have h1 : L = L.take i ++ L[i] :: L.drop (i + 1) := by
    rw [← List.drop_eq_getElem_cons h, List.take_append_drop]
  rw [List.eraseIdx_eq_take_drop_succ]
  exact (List.perm_middle.symm.trans (by rw [← h1]))

theorem rollAxes_perm (dims axis s : Nat) (ha : axis < dims) (hs : s < dims) :
    (rollAxes dims axis s).Perm (List.range dims) := by
  rw [rollAxes_eq dims axis s ha hs]
  have hE : ((List.range dims).eraseIdx axis).length = dims - 1 := by
    rw [List.length_eraseIdx_of_lt (by simpa using ha)]; simp
  refine (List.perm_insertIdx axis _ (by omega)).trans ?_
  have h := cons_getElem_eraseIdx_perm (List.range dims) axis (by simpa using ha)
  rwa [List.getElem_range] at h

theorem map_insertIdx {β γ : Type} (f : β → γ) (x : β) :
    ∀ (l : List β) (n : Nat), (l.insertIdx n x).map f = (l.map f).insertIdx n (f x)
  | l, 0 => by simp
  | [], n + 1 => by simp
  | a :: l, n + 1 => by
    simp only [List.insertIdx_succ_cons, List.map_cons, List.cons.injEq, true_and]
    exact map_insertIdx f x l n

theorem map_eraseIdx {β γ : Type} (f : β → γ) :
    ∀ (l : List β) (n : Nat), (l.eraseIdx n).map f = (l.map f).eraseIdx n
  | [], _ => by simp
  | a :: l, 0 => by simp
  | a :: l, n + 1 => by
    simp only [List.eraseIdx_cons_succ, List.map_cons, List.cons.injEq, true_and]
    exact map_eraseIdx f l n

theorem map_getD_range {β : Type} (S : List β) (d : β) :
    (List.range S.length).map (fun a => S.getD a d) = S := by
  apply List.ext_getElem
  · simp
  · intro k h1 h2
    simp [List.getElem?_eq_getElem h2]

/-- Permuting a shape by the axes of `RollAxis` removes dimension `axis` and re-inserts it at
index `s`. -/
theorem map_rollAxes {β : Type} (S : List β) (d : β) (axis s : Nat) (ha : axis < S.length)
    (hs : s < S.length) :
    (rollAxes S.length axis s).map (fun a => S.getD a d) =
      (S.eraseIdx axis).insertIdx s (S.getD axis d) := by
  rw [rollAxes_eq _ axis s ha hs, map_insertIdx, map_eraseIdx, map_getD_range]

theorem rollAxes_ne_range (dims axis s : Nat) (ha : axis < dims) (hs : s < dims)
    (hne : axis ≠ s) : rollAxes dims axis s ≠ List.range dims := by
  intro h
  have h1 : (rollAxes dims axis s)[s]? = some axis := by
    rw [rollAxes_eq dims axis s ha hs]
    have hE : ((List.range dims).eraseIdx axis).length = dims - 1 := by
      rw [List.length_eraseIdx_of_lt (by simpa using ha)]; simp
    have hT : (List.take s ((List.range dims).eraseIdx axis)).length = s := by
      rw [List.length_take]; omega
    rw [insertIdx_eq_take_drop _ _ _ (by omega), List.getElem?_append_right (by omega), hT,
      Nat.sub_self]
    simp
  rw [h, List.getElem?_range hs] at h1
  exact hne (by simpa using h1.symm)

/-! ## T, SafeT and RollAxis on valid axes -/

/-- With a valid permutation `T` never returns an error. -/
theorem T_err_none [Inhabited α] (t : Dense α) (P : List Nat)
    (hP : isPermutation P t.Dims = true) (r : TOut α) (h : t.T P = .ok r) : r.err = none := by
  have hT := AP_T_of_isPermutation t.AP P hP
  by_cases hn : P = List.range t.AP.shape.length
  · rw [if_pos hn] at hT
    simp [Dense.T, hT] at h
    rw [← h]
  · rw [if_neg hn] at hT
    simp only [Dense.T, hT] at h
    split at h
    · cases h; rfl
    · split at h
      · cases h; rfl
      · split at h
        · cases h
        · cases h; rfl
        · split at h
          · cases h
          · cases h; rfl

/-- With a valid, non-identity permutation `SafeT` returns a fresh array carrying the permuted
access pattern, and leaves the receiver alone. -/
theorem SafeT_of_valid [Inhabited α] (t : Dense α) (P : List Nat)
    (hP : isPermutation P t.Dims = true) (hn : P ≠ List.range t.Dims) :
    t.SafeT P =
      { t := t,
        retVal := some
          { AP := { shape := P.map (fun a => t.AP.shape.getD a 0),
                    strides := P.map (fun a => t.AP.strides.getD a 0) },
            old := some t.AP, transposeWith := some P,
            data := t.data, viewOf := false },
        err := none } := by
  have hT := AP_T_of_isPermutation t.AP P hP
  rw [if_neg (by simpa [Dense.Dims] using hn)] at hT
  simp only [Dense.SafeT, hT, newTypedShapedDense]
  rw [copyArray_of_length_eq _ _ (by simp [TotalSize])]

/-- `RollAxis` with both indices in range and `axis` different from the adjusted start hands
`rollAxes` to `SafeT` or `T`. -/
theorem RollAxis_in_range [Inhabited α] (t : Dense α) (axis start : Nat) (safe : Bool)
    (ha : axis < t.Dims) (hst : start ≤ t.Dims)
    (hne : axis ≠ (if axis < start then start - 1 else start)) :
    t.RollAxis axis start safe =
      if safe then
        .ok { t := (t.SafeT (rollAxes t.Dims axis (if axis < start then start - 1 else start))).t,
              retVal :=
                (match (t.SafeT (rollAxes t.Dims axis
                    (if axis < start then start - 1 else start))).retVal with
                  | some d => Ret.fresh d
                  | none => Ret.null),
              err := (t.SafeT (rollAxes t.Dims axis
                    (if axis < start then start - 1 else start))).err }
      else
        match t.T (rollAxes t.Dims axis (if axis < start then start - 1 else start)) with
        | .error f => .error f
        | .ok r => .ok { t := r.t, retVal := .self, err := r.err } := by
  have h1 : (0 : Int) ≤ axis ∧ (axis : Int) < (t.Dims : Int) := ⟨by omega, by omega⟩
  have h2 : (0 : Int) ≤ start ∧ (start : Int) ≤ (t.Dims : Int) := ⟨by omega, by omega⟩
  have h3 : (if (axis : Int) < start then (start : Int) - 1 else start) =
      ((if axis < start then start - 1 else start : Nat) : Int) := by
    split_ifs <;> omega
  have h4 : ¬ ((axis : Int) = ((if axis < start then start - 1 else start : Nat) : Int)) := by
    intro h; exact hne (by exact_mod_cast h)
  simp only [Dense.RollAxis, h1, h2, h3, h4, Int.toNat_ofNat]
  simp

/-! ## RollAxis -/

/-- With axes that `AP.T` accepts, `T` returns no error, and the receiver afterwards either
reports the transformed access pattern or, when a transpose was pending, is the receiver with
the pending transpose undone. -/
theorem T_of_accepted [Inhabited α] (t : Dense α) (axes ax : List Nat) (tr : AP) (r : TOut α)
    (hT : t.AP.T axes = .ok (tr, ax)) (h : t.T axes = .ok r) :
    r.err = none ∧ (r.t.AP = tr ∨ (t.old ≠ none ∧ r.t = t.UT)) := by
  simp only [Dense.T, hT] at h
  cases ho : t.old with
  | none =>
    rw [ho] at h
    simp only [Except.ok.injEq] at h
    rw [← h]
    exact ⟨rfl, Or.inl rfl⟩
  | some o =>
    rw [ho] at h
    simp only at h
    by_cases hv : t.IsVector = true
    · simp only [hv, if_true, Except.ok.injEq] at h
      rw [← h]
      exact ⟨rfl, Or.inr ⟨by simp, rfl⟩⟩
    · simp only [hv] at h
      cases hr : isReversed t.oshape tr.shape with
      | none => rw [hr] at h; simp at h
      | some b =>
        rw [hr] at h
        cases b with
        | true =>
          simp only [Bool.false_eq_true, if_false, Except.ok.injEq] at h
          rw [← h]
          exact ⟨rfl, Or.inr ⟨by simp, rfl⟩⟩
        | false =>
          simp only [Bool.false_eq_true, if_false] at h
          cases hTr : t.Transpose with
          | error f => rw [hTr] at h; simp at h
          | ok t1 =>
            rw [hTr] at h
            simp only [Except.ok.injEq] at h
            rw [← h]
            exact ⟨rfl, Or.inl rfl⟩

/-- C9 as stated fails: the `1x1x5` array after `T(2,1,0)` is a vector of reported shape
`5x1x1` with a pending transpose.  `RollAxis(0, 2, false)` passes the axes `(1,0,2)` to `T`,
which on a pending vector only undoes the pending transpose: the shape afterwards is `1x1x5`,
not `1x5x1`, the shape with the original axis `0` at position `1`. -/
theorem RollAxis_pending_vector_shape :
    (exampleDense [1, 1, 5] [0, 1, 2, 3, 4]).T [2, 1, 0] =
      .ok { t := examplePendingVector, err := none, transposes := 0 } ∧
    examplePendingVector.Shape = [5, 1, 1] ∧
    (0 < examplePendingVector.Dims ∧ 2 ≤ examplePendingVector.Dims ∧
      (0 : Nat) ≠ (if 0 < 2 then 2 - 1 else 2)) ∧
    rollAxes examplePendingVector.Dims 0 1 = [1, 0, 2] ∧
    (examplePendingVector.Shape.eraseIdx 0).insertIdx 1
      (examplePendingVector.Shape.getD 0 0) = [1, 5, 1] ∧
    examplePendingVector.RollAxis 0 2 false =
      .ok { t := exampleDense [1, 1, 5] [0, 1, 2, 3, 4], retVal := .self, err := none } ∧
    (exampleDense [1, 1, 5] [0, 1, 2, 3, 4]).Shape = [1, 1, 5] ∧
    (exampleDense [1, 1, 5] [0, 1, 2, 3, 4]).Shape ≠
      (examplePendingVector.Shape.eraseIdx 0).insertIdx 1
        (examplePendingVector.Shape.getD 0 0) := by
  refine ⟨rfl, rfl, by decide, by decide, by decide, rfl, rfl, by decide⟩

/-- C9 amended: for `axis < dims`, `start ≤ dims` and `s` the adjusted start (`start-1` when
`axis < start`), if `axis ≠ s` the axes slice of `RollAxis` is `0..dims-1` with `axis`
removed and re-inserted at index `s`; it is a permutation of `0..dims-1` with
`axes[s] = axis`; the shape it produces is the original shape with dimension `axis` moved
to position `s` and the others in their order: that is the shape of the access pattern
`AP.T` builds from these axes and the shape of the fresh array `RollAxis` returns when
`safe`.  When not `safe`, every call that returns leaves the receiver with that shape, unless
a transpose was pending and `T` undid it instead (the receiver is then back at its
pre-transpose state); on a receiver without a pending transpose the call returns with that
shape and the buffer untouched. -/
theorem RollAxis_axes [Inhabited α] (t : Dense α) (axis start : Nat)
    (ha : axis < t.Dims) (hst : start ≤ t.Dims)
    (hne : axis ≠ (if axis < start then start - 1 else start)) :
    rollAxes t.Dims axis (if axis < start then start - 1 else start) =
      ((List.range t.Dims).eraseIdx axis).insertIdx
        (if axis < start then start - 1 else start) axis ∧
    isPermutation (rollAxes t.Dims axis (if axis < start then start - 1 else start))
      t.Dims = true ∧
    (rollAxes t.Dims axis (if axis < start then start - 1 else start))[
      (if axis < start then start - 1 else start)]? = some axis ∧
    (∃ tr, t.AP.T (rollAxes t.Dims axis (if axis < start then start - 1 else start)) =
        .ok (tr, rollAxes t.Dims axis (if axis < start then start - 1 else start)) ∧
      tr.shape = (t.Shape.eraseIdx axis).insertIdx
        (if axis < start then start - 1 else start) (t.Shape.getD axis 0)) ∧
    (∃ d, t.RollAxis axis start true = .ok { t := t, retVal := .fresh d, err := none } ∧
      d.data = t.data ∧
      d.Shape = (t.Shape.eraseIdx axis).insertIdx
        (if axis < start then start - 1 else start) (t.Shape.getD axis 0)) ∧
    (∀ out, t.RollAxis axis start false = .ok out →
      out.retVal = .self ∧ out.err = none ∧
      (out.t.Shape = (t.Shape.eraseIdx axis).insertIdx
          (if axis < start then start - 1 else start) (t.Shape.getD axis 0) ∨
        (t.old ≠ none ∧ out.t = t.UT))) ∧
    (t.old = none →
      ∃ t1, t.RollAxis axis start false = .ok { t := t1, retVal := .self, err := none } ∧
        t1.data = t.data ∧
        t1.Shape = (t.Shape.eraseIdx axis).insertIdx
          (if axis < start then start - 1 else start) (t.Shape.getD axis 0)) := by
  have hs : (if axis < start then start - 1 else start) < t.Dims := by
    split_ifs with h
    · omega
    · omega
  have hperm := rollAxes_perm t.Dims axis _ ha hs
  have hval := perm_isPermutation hperm
  have hnid := rollAxes_ne_range t.Dims axis _ ha hs hne
  have hshape := map_rollAxes t.AP.shape 0 axis _ ha hs
  have hAPT : t.AP.T (rollAxes t.Dims axis (if axis < start then start - 1 else start)) =
      .ok ({ shape := (rollAxes t.Dims axis (if axis < start then start - 1 else start)).map
               (fun a => t.AP.shape.getD a 0),
             strides := (rollAxes t.Dims axis (if axis < start then start - 1 else start)).map
               (fun a => t.AP.strides.getD a 0) },
           rollAxes t.Dims axis (if axis < start then start - 1 else start)) := by
    rw [AP_T_of_isPermutation t.AP _ hval, if_neg (by simpa [Dense.Dims] using hnid)]
  refine ⟨rollAxes_eq _ _ _ ha hs, hval, ?_, ?_, ?_, ?_, ?_⟩
  · rw [rollAxes_eq _ _ _ ha hs]
    have hE : ((List.range t.Dims).eraseIdx axis).length = t.Dims - 1 := by
      rw [List.length_eraseIdx_of_lt (by simpa using ha)]; simp
    have hT : (List.take (if axis < start then start - 1 else start)
        ((List.range t.Dims).eraseIdx axis)).length =
        (if axis < start then start - 1 else start) := by
      rw [List.length_take]; omega
    rw [insertIdx_eq_take_drop _ _ _ (by omega), List.getElem?_append_right (by omega), hT,
      Nat.sub_self]
    simp
  · rw [AP_T_of_isPermutation t.AP _ hval, if_neg (by simpa [Dense.Dims] using hnid)]
    exact ⟨_, rfl, hshape⟩
  · rw [RollAxis_in_range t axis start true ha hst hne, SafeT_of_valid t _ hval hnid]
    exact ⟨_, rfl, rfl, hshape⟩
  · intro out hout
    rw [RollAxis_in_range t axis start false ha hst hne] at hout
    simp only [Bool.false_eq_true, if_false] at hout
    cases hTr : t.T (rollAxes t.Dims axis (if axis < start then start - 1 else start)) with
    | error f => rw [hTr] at hout; cases hout
    | ok r =>
      rw [hTr] at hout
      simp only [Except.ok.injEq] at hout
      obtain ⟨he, hcase⟩ := T_of_accepted t _ _ _ r hAPT hTr
      rw [← hout]
      refine ⟨rfl, he, ?_⟩
      rcases hcase with h1 | h1
      · left
        simp only [Dense.Shape, h1]
        exact hshape
      · right
        exact h1
  · intro hold
    rw [RollAxis_in_range t axis start false ha hst hne, T_of_old_none t _ hold hval hnid]
    exact ⟨_, rfl, rfl, hshape⟩

/-- C9 amended, concrete check: rolling axis 2 of a `2x3x4` array to the front. -/
theorem RollAxis_axes_witness :
    rollAxes 3 2 0 = [2, 0, 1] ∧
    ∃ d, (exampleDense [2, 3, 4] (List.range 24)).RollAxis 2 0 true =
        .ok { t := exampleDense [2, 3, 4] (List.range 24), retVal := .fresh d, err := none } ∧
      d.data = List.range 24 ∧ d.Shape = [4, 2, 3] :=
  ⟨by decide,
    (RollAxis_axes (exampleDense [2, 3, 4] (List.range 24)) 2 0 (by decide) (by decide)
      (by decide)).2.2.2.2.1⟩

/-- C10: `RollAxis` fails with `InvalidAxis`, leaving the receiver as it was, when `axis` is
outside `[0,dims)` or `start` is outside `[0,dims]`; with both in range it returns no error;
and with both in range and `axis` equal to the adjusted start it returns the receiver itself,
unchanged, for either value of `safe`. -/
theorem RollAxis_invalid_or_noop [Inhabited α] (t : Dense α) (axis start : Int) (safe : Bool) :
    ((¬ (0 ≤ axis ∧ axis < t.Dims) ∨ ¬ (0 ≤ start ∧ start ≤ t.Dims)) →
      t.RollAxis axis start safe =
        .ok { t := t, retVal := .null, err := some Err.InvalidAxis }) ∧
    ((0 ≤ axis ∧ axis < t.Dims) → (0 ≤ start ∧ start ≤ t.Dims) →
      ∀ r, t.RollAxis axis start safe = .ok r → r.err = none) ∧
    ((0 ≤ axis ∧ axis < t.Dims) → (0 ≤ start ∧ start ≤ t.Dims) →
      axis = (if axis < start then start - 1 else start) →
      t.RollAxis axis start safe = .ok { t := t, retVal := .self, err := none }) := by
  refine ⟨?_, ?_, ?_⟩
  · intro h
    by_cases h1 : 0 ≤ axis ∧ axis < t.Dims
    · have h2 : ¬ (0 ≤ start ∧ start ≤ t.Dims) := by tauto
      simp only [Dense.RollAxis, h1, h2]
      simp
    · simp only [Dense.RollAxis, h1]
      simp
  · intro h1 h2 r hr
    by_cases h3 : axis = (if axis < start then start - 1 else start)
    · simp only [Dense.RollAxis, h1, h2] at hr
      rw [if_neg (by simp), if_neg (by simp), ← h3, if_pos rfl] at hr
      cases hr
      rfl
    · obtain ⟨a, rfl⟩ := Int.eq_ofNat_of_zero_le h1.1
      obtain ⟨s, rfl⟩ := Int.eq_ofNat_of_zero_le h2.1
      have ha : a < t.Dims := by omega
      have hst : s ≤ t.Dims := by omega
      have hne : a ≠ (if a < s then s - 1 else s) := by
        intro h
        apply h3
        split_ifs at h ⊢ <;> omega
      have hs : (if a < s then s - 1 else s) < t.Dims := by
        split_ifs with h <;> omega
      have hval := perm_isPermutation (rollAxes_perm t.Dims a _ ha hs)
      have hnid := rollAxes_ne_range t.Dims a _ ha hs hne
      rw [RollAxis_in_range t a s safe ha hst hne] at hr
      cases safe with
      | true =>
        rw [SafeT_of_valid t _ hval hnid] at hr
        simp at hr
        rw [← hr]
      | false =>
        simp only [Bool.false_eq_true, if_false] at hr
        cases hT : t.T (rollAxes t.Dims a (if a < s then s - 1 else s)) with
        | error f => rw [hT] at hr; cases hr
        | ok r1 =>
          rw [hT] at hr
          cases hr
          exact T_err_none t _ hval r1 hT
  · intro h1 h2 h3
    simp only [Dense.RollAxis, h1, h2]
    rw [if_neg (by simp), if_neg (by simp), ← h3, if_pos rfl]

/-- C10, concrete checks: `axis = 3` on a `2x3x4` array is refused, and so is `start = 4`;
`axis = 1, start = 2` adjusts to `start = 1` and returns the receiver. -/
theorem RollAxis_invalid_or_noop_witness :
    (exampleDense [2, 3, 4] (List.range 24)).RollAxis 3 0 false =
      .ok { t := exampleDense [2, 3, 4] (List.range 24), retVal := .null,
            err := some Err.InvalidAxis } ∧
    (exampleDense [2, 3, 4] (List.range 24)).RollAxis 1 2 true =
      .ok { t := exampleDense [2, 3, 4] (List.range 24), retVal := .self, err := none } :=
  ⟨(RollAxis_invalid_or_noop (exampleDense [2, 3, 4] (List.range 24)) 3 0 false).1
      (Or.inl (by decide)),
    (RollAxis_invalid_or_noop (exampleDense [2, 3, 4] (List.range 24)) 1 2 true).2.2
      (by decide) (by decide) (by decide)⟩

/-! ## Coordinates: row-major decoding and encoding -/

theorem CalcStrides_cons (d : Nat) (rest : List Nat) :
    CalcStrides (d :: rest) = rest.prod :: CalcStrides rest := by
  cases rest with
  | nil => rfl
  | cons d1 r =>
    induction r generalizing d d1 with
    | nil => simp [CalcStrides]
    | cons d2 r ih =>
      have h := ih d1 d2
      rw [CalcStrides, h]
      simp [Nat.mul_comm]

theorem CalcStrides_length (S : List Nat) : (CalcStrides S).length = S.length := by
  induction S with
  | nil => rfl
  | cons d rest ih => rw [CalcStrides_cons]; simp [ih]

/-- Decoding an offset below the total size with row-major strides succeeds, gives
coordinates inside the shape, and the dot product with the strides gives the offset back. -/
theorem Itol_rowMajor (S : List Nat) :
    ∀ i, i < S.prod → ∃ c, Itol i S (CalcStrides S) = some c ∧
      List.Forall₂ (fun x s => x < s) c S ∧ dot c (CalcStrides S) = i := by
  induction S with
  | nil =>
    intro i hi
    refine ⟨[], rfl, List.Forall₂.nil, ?_⟩
    simp at hi
    simp [dot, hi, CalcStrides]
  | cons d rest ih =>
    intro i hi
    rw [CalcStrides_cons]
    rw [List.prod_cons] at hi
    have hpos : 0 < rest.prod := by
      rcases Nat.eq_zero_or_pos rest.prod with h | h
      · rw [h] at hi; simp at hi
      · exact h
    have hdiv : i / rest.prod < d := by
      rw [Nat.div_lt_iff_lt_mul hpos]; exact hi
    obtain ⟨c, hc, hv, hd⟩ := ih (i % rest.prod) (Nat.mod_lt _ hpos)
    refine ⟨i / rest.prod :: c, ?_, List.Forall₂.cons hdiv hv, ?_⟩
    · simp [Itol, Nat.pos_iff_ne_zero.1 hpos, Nat.not_le.2 hdiv, hc]
    · simp only [dot, hd]
      exact Nat.div_add_mod' i rest.prod

/-- The dot product of in-range coordinates with row-major strides stays below the total
size. -/
theorem dot_lt_prod : ∀ (c S : List Nat), List.Forall₂ (fun x s => x < s) c S →
    dot c (CalcStrides S) < S.prod
  | _, _, List.Forall₂.nil => by simp [dot, CalcStrides]
  | _, _, @List.Forall₂.cons _ _ _ x d c rest hx hv => by
    rw [CalcStrides_cons, List.prod_cons]
    simp only [dot]
    have ih := dot_lt_prod c rest hv
    calc x * rest.prod + dot c (CalcStrides rest)
        < x * rest.prod + rest.prod := by omega
      _ = (x + 1) * rest.prod := by ring
      _ ≤ d * rest.prod := Nat.mul_le_mul_right _ hx

/-- Decoding the dot product of in-range coordinates gives the coordinates back. -/
theorem Itol_dot : ∀ (c S : List Nat), List.Forall₂ (fun x s => x < s) c S →
    Itol (dot c (CalcStrides S)) S (CalcStrides S) = some c
  | _, _, List.Forall₂.nil => by simp [Itol, CalcStrides]
  | _, _, @List.Forall₂.cons _ _ _ x d c rest hx hv => by
    rw [CalcStrides_cons]
    have hlt := dot_lt_prod c rest hv
    have hpos : 0 < rest.prod := by omega
    have ih := Itol_dot c rest hv
    have hdiv : (x * rest.prod + dot c (CalcStrides rest)) / rest.prod = x := by
      rw [Nat.mul_comm, Nat.mul_add_div hpos, Nat.div_eq_of_lt hlt, Nat.add_zero]
    have hmod : (x * rest.prod + dot c (CalcStrides rest)) % rest.prod =
        dot c (CalcStrides rest) := by
      rw [Nat.mul_comm, Nat.mul_add_mod, Nat.mod_eq_of_lt hlt]
    simp only [dot, Itol, hdiv, hmod, ih, Nat.pos_iff_ne_zero.1 hpos, Nat.not_le.2 hx]
    simp

theorem Forall₂_getD_lt : ∀ (c S : List Nat), List.Forall₂ (fun x s => x < s) c S →
    ∀ a, a < S.length → c.getD a 0 < S.getD a 0
  | _, _, List.Forall₂.nil => by intro a h; simp at h
  | _, _, @List.Forall₂.cons _ _ _ x d c rest hx hv => by
    intro a h
    cases a with
    | zero => simpa using hx
    | succ a =>
      have := Forall₂_getD_lt c rest hv a (by simpa using h)
      simpa using this

theorem Forall₂_map_map {β : Type} (R : Nat → Nat → Prop) (f g : β → Nat) :
    ∀ (P : List β), (∀ a ∈ P, R (f a) (g a)) → List.Forall₂ R (P.map f) (P.map g)
  | [], _ => List.Forall₂.nil
  | a :: P, h => List.Forall₂.cons (h a (List.mem_cons_self _ _))
      (Forall₂_map_map R f g P (fun b hb => h b (List.mem_cons_of_mem _ hb)))

theorem dot_map_map (f g : Nat → Nat) :
    ∀ (P : List Nat), dot (P.map f) (P.map g) = (P.map (fun a => f a * g a)).sum
  | [] => rfl
  | a :: P => by simp [dot, dot_map_map f g P]

theorem dot_eq_sum_range : ∀ (c st : List Nat), c.length = st.length →
    dot c st = ((List.range c.length).map (fun a => c.getD a 0 * st.getD a 0)).sum
  | [], [], _ => rfl
  | [], _ :: _, h => by simp at h
  | _ :: _, [], h => by simp at h
  | x :: c, s :: st, h => by
    have ih := dot_eq_sum_range c st (by simpa using h)
    simp only [dot, List.length_cons, List.range_succ_eq_map, List.map_cons, List.sum_cons,
      List.map_map, ih]
    simp [Function.comp_def]

/-- The dot product is unchanged when coordinates and strides are permuted together. -/
theorem dot_permuted (c st P : List Nat) (hl : c.length = st.length)
    (hP : isPermutation P c.length = true) :
    dot (P.map (fun a => c.getD a 0)) (P.map (fun a => st.getD a 0)) = dot c st := by
  rw [dot_map_map, dot_eq_sum_range c st hl]
  exact ((isPermutation_perm hP).map _).sum_eq

theorem Forall₂_length_eq {c S : List Nat} (h : List.Forall₂ (fun x s => x < s) c S) :
    c.length = S.length := h.length_eq

/-! ## itol and at -/

/-- What a successful `AP.T` returns: resolved axes that are a valid, non-identity
permutation, and the access pattern permuted by them. -/
theorem AP_T_ok (ap : AP) (axes : List Nat) (tr : AP) (ax : List Nat)
    (h : ap.T axes = .ok (tr, ax)) :
    isPermutation ax ap.shape.length = true ∧ ax ≠ List.range ap.shape.length ∧
      tr = { shape := ax.map (fun a => ap.shape.getD a 0),
             strides := ax.map (fun a => ap.strides.getD a 0) } := by
  simp only [AP.T] at h
  generalize (if axes.isEmpty = true then (List.range ap.shape.length).reverse else axes) =
    ax1 at h
  split_ifs at h with h1 h2 h3
  simp only [Except.ok.injEq, Prod.mk.injEq] at h
  obtain ⟨htr, hax⟩ := h
  rw [hax] at h2 h3 htr
  exact ⟨by simpa using h2, h3, htr.symm⟩

/-- Coordinates of an offset in an array whose pre-transpose access pattern is row-major:
`itol` succeeds, the coordinates lie inside the reported shape and `at` gives the offset
back. -/
theorem itol_at_of_rowMajor (S st : List Nat) (P : List Nat) (o : Nat)
    (hst : st = CalcStrides S) (hP : isPermutation P S.length = true) (ho : o < S.prod)
    (t : Dense α) (hold : t.old = some { shape := S, strides := st })
    (htw : t.transposeWith = some P)
    (hAP : t.AP = { shape := P.map (fun a => S.getD a 0),
                    strides := P.map (fun a => st.getD a 0) }) :
    ∃ c, t.itol o = (some c, none) ∧ List.Forall₂ (fun x s => x < s) c t.Shape ∧
      t.at_ c = .ok o := by
  obtain ⟨c, hc, hv, hd⟩ := Itol_rowMajor S o ho
  obtain ⟨hPl, hPr, -⟩ := (isPermutation_iff P _).1 hP
  have hcl : c.length = S.length := hv.length_eq
  have hall : (P.all fun a => decide (a < c.length)) = true := by
    rw [List.all_eq_true]
    intro a ha
    simpa [hcl] using hPr a ha
  refine ⟨P.map (fun a => c.getD a 0), ?_, ?_, ?_⟩
  · simp [Dense.itol, Dense.oshape, Dense.ostrides, hold, htw, hst, hc, Permute, hall]
  · rw [Dense.Shape, hAP]
    exact Forall₂_map_map _ _ _ P (fun a ha => Forall₂_getD_lt c S hv a (hPr a ha))
  · have hlen : c.length = st.length := by rw [hcl, hst, CalcStrides_length]
    simp only [Dense.at_, Ltoi, Dense.Shape, Dense.Strides, hAP, List.length_map,
      ne_eq, not_true_eq_false, if_false]
    rw [dot_permuted c st P hlen (by rw [hcl]; exact hP), hst, hd]

/-- C4: `itol` is the inverse of `at`.  For a row-major array in the Identity state, and for
the array that any `T(axes)` call leaves behind from it, every offset below the total size is
decoded by `itol` without error into coordinates inside the reported shape, and `at` of those
coordinates is the offset. -/
theorem itol_at_inverse [Inhabited α] (t : Dense α) (axes : List Nat) (o : Nat)
    (hid : t.IsIdentity) (hrm : t.AP.strides = CalcStrides t.AP.shape)
    (ho : o < TotalSize t.AP.shape) :
    (∃ c, t.itol o = (some c, none) ∧ List.Forall₂ (fun x s => x < s) c t.Shape ∧
      t.at_ c = .ok o) ∧
    (∃ r, t.T axes = .ok r ∧ TotalSize r.t.Shape = TotalSize t.Shape ∧
      ∃ c, r.t.itol o = (some c, none) ∧ List.Forall₂ (fun x s => x < s) c r.t.Shape ∧
        r.t.at_ c = .ok o) := by
  obtain ⟨hold, htw⟩ := hid
  have hbase : ∃ c, t.itol o = (some c, none) ∧
      List.Forall₂ (fun x s => x < s) c t.Shape ∧ t.at_ c = .ok o := by
    obtain ⟨c, hc, hv, hd⟩ := Itol_rowMajor t.AP.shape o ho
    refine ⟨c, ?_, hv, ?_⟩
    · simp [Dense.itol, Dense.oshape, Dense.ostrides, hold, htw, hrm, hc]
    · simp [Dense.at_, Ltoi, Dense.Shape, Dense.Strides, hv.length_eq, hrm, hd]
  refine ⟨hbase, ?_⟩
  cases hT : t.AP.T axes with
  | error e =>
    by_cases he : e = Err.NoOp
    · exact ⟨{ t := t, err := none, transposes := 0 }, by simp [Dense.T, hT, he], rfl, hbase⟩
    · exact ⟨{ t := t, err := some e, transposes := 0 }, by simp [Dense.T, hT, he], rfl, hbase⟩
  | ok p =>
    obtain ⟨tr, ax⟩ := p
    obtain ⟨hP, -, htr⟩ := AP_T_ok t.AP axes tr ax hT
    refine ⟨{ t := { t with old := some t.AP, transposeWith := some ax, AP := tr },
              err := none, transposes := 0 }, by simp only [Dense.T, hT, hold], ?_, ?_⟩
    · simp only [Dense.Shape, htr, TotalSize]
      have := ((isPermutation_perm hP).map (fun a => t.AP.shape.getD a 0)).prod_eq
      rw [this, map_getD_range]
    · exact itol_at_of_rowMajor t.AP.shape t.AP.strides ax o hrm hP ho _ rfl rfl htr

/-- C4, concrete check: offset 7 of a `2x3x4` array after `T(1,2,0)`. -/
theorem itol_at_inverse_witness :
    ∃ r, (exampleDense [2, 3, 4] (List.range 24)).T [1, 2, 0] = .ok r ∧
      TotalSize r.t.Shape = TotalSize (exampleDense [2, 3, 4] (List.range 24)).Shape ∧
      ∃ c, r.t.itol 7 = (some c, none) ∧ List.Forall₂ (fun x s => x < s) c r.t.Shape ∧
        r.t.at_ c = .ok 7 :=
  (itol_at_inverse (exampleDense [2, 3, 4] (List.range 24)) [1, 2, 0] 7 ⟨rfl, rfl⟩ rfl
    (by decide)).2

/-! ## The bitmap and the buffer accessors -/

theorem Settled_lt {track : List Bool} {j : Nat} (h : Settled track j) : j < track.length := by
  unfold Settled at h
  by_contra hc
  rw [List.getElem?_eq_none (by omega)] at h
  cases h

theorem Settled_set (track : List Bool) (i k : Nat) (hi : i < track.length) :
    Settled (track.set i true) k ↔ Settled track k ∨ k = i := by
  unfold Settled
  rw [List.getElem?_set]
  by_cases h : i = k
  · subst h; simp [hi]
  · have h2 : ¬ k = i := fun h3 => h h3.symm
    simp [h, h2]

theorem count_false_set (track : List Bool) :
    ∀ i, track[i]? = some false → (track.set i true).count false + 1 = track.count false := by
  induction track with
  | nil => intro i h; simp at h
  | cons b tr ih =>
    intro i h
    cases i with
    | zero =>
      simp at h
      subst h
      simp
    | succ i =>
      have := ih i (by simpa using h)
      cases b <;> simp [List.count_cons] <;> omega

theorem count_false_pos (track : List Bool) (i : Nat) (h : track[i]? = some false) :
    0 < track.count false := by
  have := count_false_set track i h
  omega

/-- The scan `for i < size && track.IsSet(i) { i++ }` stops at the first unmarked index at or
after `i`, or at `size`. -/
theorem skipSet_spec (track : List Bool) (n : Nat) (hl : track.length = n) :
    ∀ k i, n - i ≤ k →
      i ≤ skipSet track n k i ∧
      (∀ m, i ≤ m → m < skipSet track n k i → Settled track m) ∧
      (n ≤ skipSet track n k i ∨
        (skipSet track n k i < n ∧ track[skipSet track n k i]? = some false)) := by
  intro k
  induction k with
  | zero =>
    intro i h
    simp only [skipSet]
    exact ⟨le_refl _, fun m h1 h2 => by omega, Or.inl (by omega)⟩
  | succ k ih =>
    intro i h
    simp only [skipSet]
    by_cases hc : i < n ∧ track.getD i false = true
    · rw [if_pos hc]
      obtain ⟨h1, h2, h3⟩ := ih (i + 1) (by omega)
      refine ⟨by omega, ?_, h3⟩
      intro m hm1 hm2
      rcases Nat.eq_or_lt_of_le hm1 with h4 | h4
      · subst h4
        have := hc.2
        unfold Settled
        rw [List.getD_eq_getElem?_getD] at this
        rw [List.getElem?_eq_getElem (by omega)] at this ⊢
        simpa using this
      · exact h2 m (by omega) hm2
    · rw [if_neg hc]
      refine ⟨le_refl _, fun m h1 h2 => by omega, ?_⟩
      by_cases hn : i < n
      · right
        refine ⟨hn, ?_⟩
        have hg : ¬ track.getD i false = true := fun h => hc ⟨hn, h⟩
        rw [List.getD_eq_getElem?_getD] at hg
        rw [List.getElem?_eq_getElem (by omega)] at hg ⊢
        simpa using hg
      · left; omega

theorem dataSet_spec (data : List α) (i : Nat) (saved : Option α) (hi : i < data.length) :
    ∃ data1, dataSet data i saved = some data1 ∧ data1.length = data.length ∧
      (∀ k, k ≠ i → data1[k]? = data[k]?) ∧ (∀ x, saved = some x → data1[i]? = some x) := by
  cases saved with
  | none =>
    exact ⟨data, by simp [dataSet, hi], rfl, fun _ _ => rfl, fun x h => by cases h⟩
  | some x =>
    refine ⟨data.set i x, by simp [dataSet, hi], by simp, ?_, ?_⟩
    · intro k hk
      rw [List.getElem?_set]
      simp [Ne.symm hk]
    · intro y hy
      cases hy
      rw [List.getElem?_set]
      simp [hi]

/-! ## One iteration of the cycle-following loop -/

theorem not_Settled_of_false {track : List Bool} {i : Nat} (h : track[i]? = some false) :
    ¬ Settled track i := by
  unfold Settled; rw [h]; simp

/-- Starting a cycle at the unmarked index `i`. -/
theorem idle_step (n : Nat) (dst : Nat → Nat) (old : List α)
    (hrange : ∀ i, i < n → dst i < n) (i : Nat) (saved : Option α) (track : List Bool)
    (data : List α) (hI : IdleInv n dst old i track data) :
    ∃ tmp data1, bmSet track i = some (track.set i true) ∧ dataGet data i = some tmp ∧
      dataSet data i saved = some data1 ∧
      MidInv n dst old i i (dst i) (some tmp) (track.set i true) data1 := by
  obtain ⟨htl, hdl, hin, hif, hbelow, hclosed, hpred, hun⟩ := hI
  have hns := not_Settled_of_false hif
  obtain ⟨data1, hset, hl1, hne1, -⟩ := dataSet_spec data i saved (by omega)
  have hid : i < data.length := by omega
  have hget : data[i]? = some data[i] := List.getElem?_eq_getElem hid
  have hS := fun k => Settled_set track i k (by omega)
  refine ⟨data[i], data1, by simp [bmSet, htl, hin], hget, hset, ?_⟩
  refine ⟨by simpa using htl, by omega, hrange i hin, (hS i).2 (Or.inr rfl),
    (hS i).2 (Or.inr rfl), rfl, ?_, ?_, ?_, ?_, ?_⟩
  · rw [← hget]; exact hun i hin hns
  · intro j hj; exact (hS j).2 (Or.inl (hbelow j hj))
  · intro j hj hji
    have hj0 : Settled track j := by
      rcases (hS j).1 hj with h | h
      · exact h
      · exact absurd h hji
    obtain ⟨h1, h2⟩ := hclosed j hj0
    have hd : dst j ≠ i := fun h => hns (h ▸ h1)
    exact ⟨(hS _).2 (Or.inl h1), hd, by rw [hne1 _ hd]; exact h2⟩
  · intro j hj hji
    have hj0 : Settled track j := by
      rcases (hS j).1 hj with h | h
      · exact h
      · exact absurd h hji
    obtain ⟨k, hk1, hk2⟩ := hpred j hj0
    exact ⟨k, (hS k).2 (Or.inl hk1), fun h => hns (h ▸ hk1), hk2⟩
  · intro j hjn hj
    have h1 : ¬ Settled track j := fun h => hj ((hS j).2 (Or.inl h))
    have h2 : j ≠ i := fun h => hj ((hS j).2 (Or.inr h))
    rw [hne1 _ h2]; exact hun j hjn h1

/-- Inside a cycle, at an unmarked index: mark it, store the carried element, carry its old
element on to the destination. -/
theorem mid_step_unset (n : Nat) (dst : Nat → Nat) (old : List α)
    (hrange : ∀ i, i < n → dst i < n) (hold : old.length = n)
    (a p i : Nat) (saved : Option α) (track : List Bool)
    (data : List α) (hM : MidInv n dst old a p i saved track data)
    (hif : track[i]? = some false) :
    ∃ tmp data1, bmSet track i = some (track.set i true) ∧ dataGet data i = some tmp ∧
      dataSet data i saved = some data1 ∧
      MidInv n dst old a i (dst i) (some tmp) (track.set i true) data1 := by
  obtain ⟨htl, hdl, hin, ha, hp, hpi, hsaved, hbelow, hfwd, hpred, hun⟩ := hM
  have hns := not_Settled_of_false hif
  have hpn : p < n := htl ▸ Settled_lt hp
  obtain ⟨data1, hset, hl1, hne1, heq1⟩ := dataSet_spec data i saved (by omega)
  have hpo : p < old.length := by omega
  have hsv : saved = some old[p] := by
    rw [hsaved]; exact List.getElem?_eq_getElem hpo
  have hid : i < data.length := by omega
  have hget : data[i]? = some data[i] := List.getElem?_eq_getElem hid
  have hS := fun k => Settled_set track i k (by omega)
  refine ⟨data[i], data1, by simp [bmSet, htl, hin], hget, hset, ?_⟩
  refine ⟨by simpa using htl, by omega, hrange i hin, (hS a).2 (Or.inl ha),
    (hS i).2 (Or.inr rfl), rfl, ?_, ?_, ?_, ?_, ?_⟩
  · rw [← hget]; exact hun i hin hns
  · intro j hj; exact (hS j).2 (Or.inl (hbelow j hj))
  · intro j hj hji
    have hj0 : Settled track j := by
      rcases (hS j).1 hj with h | h
      · exact h
      · exact absurd h hji
    by_cases hjp : j = p
    · subst hjp
      refine ⟨(hS _).2 (Or.inr hpi), fun h => hns (by rw [← hpi, h]; exact ha), ?_⟩
      rw [hpi, heq1 _ hsv, List.getElem?_eq_getElem (by omega)]
    · obtain ⟨h1, h2, h3⟩ := hfwd j hj0 hjp
      have hd : dst j ≠ i := fun h => hns (h ▸ h1)
      exact ⟨(hS _).2 (Or.inl h1), h2, by rw [hne1 _ hd]; exact h3⟩
  · intro j hj hja
    rcases (hS j).1 hj with h | h
    · obtain ⟨k, hk1, hk2, hk3⟩ := hpred j h hja
      exact ⟨k, (hS k).2 (Or.inl hk1), fun hki => hns (hki ▸ hk1), hk3⟩
    · subst h
      exact ⟨p, (hS p).2 (Or.inl hp), fun hpj => hns (hpj ▸ hp), hpi⟩
  · intro j hjn hj
    have h1 : ¬ Settled track j := fun h => hj ((hS j).2 (Or.inl h))
    have h2 : j ≠ i := fun h => hj ((hS j).2 (Or.inr h))
    rw [hne1 _ h2]; exact hun j hjn h1

/-- Inside a cycle, back at a marked index: it is the start of the cycle, its destination is
marked, and writing the carried element closes the cycle. -/
theorem mid_step_set (n : Nat) (dst : Nat → Nat) (old : List α)
    (hinj : ∀ i j, i < n → j < n → dst i = dst j → i = j) (hold : old.length = n)
    (a p i : Nat) (saved : Option α) (track : List Bool)
    (data : List α) (hM : MidInv n dst old a p i saved track data)
    (hit : track[i]? = some true) :
    i = a ∧ Settled track (dst i) ∧
    ∃ data1, dataSet data i saved = some data1 ∧ data1.length = n ∧
      (∀ j, Settled track j → Settled track (dst j) ∧ data1[dst j]? = old[j]?) ∧
      (∀ j, Settled track j → ∃ k, Settled track k ∧ dst k = j) ∧
      (∀ j, j < n → ¬ Settled track j → data1[j]? = old[j]?) := by
  obtain ⟨htl, hdl, hin, ha, hp, hpi, hsaved, hbelow, hfwd, hpred, hun⟩ := hM
  have hpn : p < n := htl ▸ Settled_lt hp
  have hia : i = a := by
    by_contra hne
    obtain ⟨k, hk1, hk2, hk3⟩ := hpred i hit hne
    have hkn : k < n := htl ▸ Settled_lt hk1
    exact hk2 (hinj k p hkn hpn (by rw [hk3, hpi]))
  subst hia
  have hda : Settled track (dst i) := by
    by_cases h : i = p
    · rw [h, hpi]; exact hit
    · exact (hfwd i hit h).1
  obtain ⟨data1, hset, hl1, hne1, heq1⟩ := dataSet_spec data i saved (by omega)
  have hpo : p < old.length := by omega
  have hsv : saved = some old[p] := by
    rw [hsaved]; exact List.getElem?_eq_getElem hpo
  refine ⟨rfl, hda, data1, hset, by omega, ?_, ?_, ?_⟩
  · intro j hj
    by_cases hjp : j = p
    · subst hjp
      refine ⟨by rw [hpi]; exact hit, ?_⟩
      rw [hpi, heq1 _ hsv, List.getElem?_eq_getElem (by omega)]
    · obtain ⟨h1, h2, h3⟩ := hfwd j hj hjp
      exact ⟨h1, by rw [hne1 _ h2]; exact h3⟩
  · intro j hj
    by_cases hja : j = i
    · subst hja; exact ⟨p, hp, hpi⟩
    · obtain ⟨k, hk1, -, hk3⟩ := hpred j hj hja
      exact ⟨k, hk1, hk3⟩
  · intro j hjn hj
    have h2 : j ≠ i := fun h => hj (h ▸ hit)
    rw [hne1 _ h2]; exact hun j hjn hj

/-! ## The cycle-following loop -/

/-- The cycle-following loop terminates within `2 * (unmarked indices) + 1` iterations and
leaves every element at its destination, for any destination map that is injective on
`[0, n)` and maps it into itself. -/
theorem transposeLoop_correct (n : Nat) (dst : Nat → Nat) (dest : Nat → Option Nat) (zero : α)
    (old : List α)
    (hdest : ∀ i, i < n → dest i = some (dst i))
    (hrange : ∀ i, i < n → dst i < n)
    (hinj : ∀ i j, i < n → j < n → dst i = dst j → i = j)
    (hold : old.length = n) :
    ∀ fuel,
      (∀ a p i saved track data, MidInv n dst old a p i saved track data →
        2 * track.count false + 1 ≤ fuel →
        ∃ ex, transposeLoop dest zero n fuel i saved track data = .ok ex ∧
          LoopPost n dst old ex) ∧
      (∀ i saved track data, IdleInv n dst old i track data →
        2 * track.count false ≤ fuel →
        ∃ ex, transposeLoop dest zero n fuel i saved track data = .ok ex ∧
          LoopPost n dst old ex) := by
  intro fuel
  induction fuel with
  | zero =>
    refine ⟨fun a p i saved track data _ h => by omega, ?_⟩
    intro i saved track data hI h
    have := count_false_pos track i hI.2.2.2.1
    omega
  | succ fuel ih =>
    obtain ⟨ihM, ihI⟩ := ih
    refine ⟨?_, ?_⟩
    · intro a p i saved track data hM hfuel
      have htl : track.length = n := hM.1
      have hin : i < n := hM.2.2.1
      have hbelow := hM.2.2.2.2.2.2.2.1
      have hit : i < track.length := by omega
      have hti : track[i]? = some track[i] := List.getElem?_eq_getElem hit
      cases hb : track[i] with
      | false =>
        rw [hb] at hti
        obtain ⟨tmp, data1, h1, h2, h3, hM1⟩ :=
          mid_step_unset n dst old hrange hold a p i saved track data hM hti
        have hc := count_false_set track i hti
        obtain ⟨ex, hex, hpost⟩ := ihM a i (dst i) (some tmp) (track.set i true) data1 hM1
          (by omega)
        refine ⟨ex, ?_, hpost⟩
        simp only [transposeLoop, hdest i hin, bmIsSet, hti, h1, h2, h3]
        simpa using hex
      | true =>
        rw [hb] at hti
        obtain ⟨hia, hda, data1, h3, hl1, hclosed, hpred, hun⟩ :=
          mid_step_set n dst old hinj hold a p i saved track data hM hti
        subst hia
        obtain ⟨hs1, hs2, hs3⟩ := skipSet_spec track n htl n i (by omega)
        have hall : ∀ m, m < skipSet track n n i → Settled track m := by
          intro m hm
          by_cases h : m < i
          · exact hbelow m h
          · exact hs2 m (by omega) hm
        by_cases hdone : n ≤ skipSet track n n i
        · refine ⟨{ i := skipSet track n n i, track := track, data := data1 }, ?_,
            hl1, htl, hdone, fun j hj => hall j (by omega),
            fun j hj => (hclosed j (hall j (by omega))).2⟩
          simp only [transposeLoop, hdest i hin, bmIsSet, hti, hda, h3]
          simp [hdone, show track[dst i]? = some true from hda]
        · rcases hs3 with h | ⟨hj, hjf⟩
          · exact absurd h hdone
          · have hI : IdleInv n dst old (skipSet track n n i) track data1 :=
              ⟨htl, hl1, hj, hjf, hall, hclosed, hpred, hun⟩
            obtain ⟨ex, hex, hpost⟩ := ihI (skipSet track n n i) (some zero) track data1 hI
              (by omega)
            refine ⟨ex, ?_, hpost⟩
            simp only [transposeLoop, hdest i hin, bmIsSet, hti, h3]
            simp [hdone, show track[dst i]? = some true from hda]
            simpa using hex
    · intro i saved track data hI hfuel
      have hin : i < n := hI.2.2.1
      have hti : track[i]? = some false := hI.2.2.2.1
      obtain ⟨tmp, data1, h1, h2, h3, hM1⟩ := idle_step n dst old hrange i saved track data hI
      have hc := count_false_set track i hti
      obtain ⟨ex, hex, hpost⟩ := ihM i i (dst i) (some tmp) (track.set i true) data1 hM1
        (by omega)
      refine ⟨ex, ?_, hpost⟩
      simp only [transposeLoop, hdest i hin, bmIsSet, hti, h1, h2, h3]
      simpa using hex

/-! ## The destination map of Transpose -/

theorem transposeSum_eq (c : List Nat) :
    ∀ (P sts : List Nat), (∀ a ∈ P, a < c.length) → P.length ≤ sts.length →
      transposeSum c P sts = some (dot (P.map (fun a => c.getD a 0)) sts)
  | [], _, _, _ => by simp [transposeSum, dot]
  | _ :: _, [], _, h => by simp at h
  | a :: P, s :: sts, hr, hl => by
    have ha : a < c.length := hr a (List.mem_cons_self _ _)
    have ih := transposeSum_eq c P sts (fun b hb => hr b (List.mem_cons_of_mem _ hb))
      (by simpa using hl)
    simp [transposeSum, dot, ih, List.getElem?_eq_getElem ha, List.getD_eq_getElem?_getD]

theorem dot_zero : ∀ (c s : List Nat), (∀ x ∈ c, x = 0) → dot c s = 0
  | [], _, _ => by simp [dot]
  | _ :: _, [], _ => by simp [dot]
  | x :: c, s :: ss, h => by
    have hx : x = 0 := h x (List.mem_cons_self _ _)
    have ih := dot_zero c ss (fun y hy => h y (List.mem_cons_of_mem _ hy))
    simp [dot, hx, ih]

theorem dot_max : ∀ (S : List Nat), (∀ d ∈ S, 0 < d) →
    dot (S.map (fun d => d - 1)) (CalcStrides S) + 1 = S.prod
  | [], _ => by simp [dot, CalcStrides]
  | d :: rest, h => by
    have hd : 0 < d := h d (List.mem_cons_self _ _)
    have ih := dot_max rest (fun y hy => h y (List.mem_cons_of_mem _ hy))
    rw [CalcStrides_cons, List.prod_cons]
    simp only [List.map_cons, dot]
    obtain ⟨e, rfl⟩ : ∃ e, d = e + 1 := ⟨d - 1, by omega⟩
    rw [Nat.add_sub_cancel, Nat.add_assoc, ih]
    ring

theorem Forall₂_zero_lt : ∀ (S : List Nat), (∀ d ∈ S, 0 < d) →
    List.Forall₂ (fun x s => x < s) (S.map (fun _ => 0)) S
  | [], _ => List.Forall₂.nil
  | d :: rest, h => List.Forall₂.cons (h d (List.mem_cons_self _ _))
      (Forall₂_zero_lt rest (fun y hy => h y (List.mem_cons_of_mem _ hy)))

theorem Forall₂_pred_lt : ∀ (S : List Nat), (∀ d ∈ S, 0 < d) →
    List.Forall₂ (fun x s => x < s) (S.map (fun d => d - 1)) S
  | [], _ => List.Forall₂.nil
  | d :: rest, h => List.Forall₂.cons
      (Nat.sub_lt (h d (List.mem_cons_self _ _)) Nat.one_pos)
      (Forall₂_pred_lt rest (fun y hy => h y (List.mem_cons_of_mem _ hy)))

theorem prod_pos_of_pos : ∀ (S : List Nat), (∀ d ∈ S, 0 < d) → 0 < S.prod
  | [], _ => by simp
  | d :: rest, h => by
    rw [List.prod_cons]
    exact Nat.mul_pos (h d (List.mem_cons_self _ _))
      (prod_pos_of_pos rest (fun y hy => h y (List.mem_cons_of_mem _ hy)))

theorem two_le_prod_of_nonunit : ∀ (S : List Nat), (∀ d ∈ S, 0 < d) →
    1 ≤ (S.filter (fun d => d != 1)).length → 2 ≤ S.prod
  | [], _, h => by simp at h
  | d :: rest, hp, h => by
    have hd : 0 < d := hp d (List.mem_cons_self _ _)
    have hr := prod_pos_of_pos rest (fun y hy => hp y (List.mem_cons_of_mem _ hy))
    rw [List.prod_cons]
    by_cases h1 : d = 1
    · subst h1
      have := two_le_prod_of_nonunit rest (fun y hy => hp y (List.mem_cons_of_mem _ hy))
        (by simpa using h)
      omega
    · have : 2 ≤ d := by omega
      calc 2 ≤ d := this
        _ = d * 1 := (Nat.mul_one d).symm
        _ ≤ d * rest.prod := Nat.mul_le_mul_left _ hr

theorem four_le_prod_of_nonunit : ∀ (S : List Nat), (∀ d ∈ S, 0 < d) →
    2 ≤ (S.filter (fun d => d != 1)).length → 4 ≤ S.prod
  | [], _, h => by simp at h
  | d :: rest, hp, h => by
    have hd : 0 < d := hp d (List.mem_cons_self _ _)
    have hpr := fun y hy => hp y (List.mem_cons_of_mem d hy)
    rw [List.prod_cons]
    by_cases h1 : d = 1
    · subst h1
      have := four_le_prod_of_nonunit rest hpr (by simpa using h)
      omega
    · have h2 : 2 ≤ d := by omega
      have h3 : 2 ≤ rest.prod := two_le_prod_of_nonunit rest hpr (by
        simp [List.filter_cons, h1] at h; omega)
      calc 4 = 2 * 2 := rfl
        _ ≤ d * rest.prod := Nat.mul_le_mul h2 h3

/-- Coordinates of equal length that agree on every axis of a permutation are equal. -/
theorem eq_of_map_getD_eq (c1 c2 P : List Nat) (n : Nat) (h1 : c1.length = n)
    (h2 : c2.length = n) (hP : isPermutation P n = true)
    (h : P.map (fun a => c1.getD a 0) = P.map (fun a => c2.getD a 0)) : c1 = c2 := by
  have hperm := isPermutation_perm hP
  apply List.ext_getElem (by omega)
  intro k hk1 hk2
  have hk : k ∈ P := hperm.mem_iff.2 (List.mem_range.2 (by omega))
  have := List.map_inj_left.1 h k hk
  simpa [List.getD_eq_getElem?_getD, List.getElem?_eq_getElem hk1,
    List.getElem?_eq_getElem hk2] using this

theorem prod_map_getD_perm (S P : List Nat) (hP : isPermutation P S.length = true) :
    (P.map (fun a => S.getD a 0)).prod = S.prod := by
  have := ((isPermutation_perm hP).map (fun a => S.getD a 0)).prod_eq
  rw [this, map_getD_range]

theorem pos_map_getD_perm (S P : List Nat) (hP : isPermutation P S.length = true)
    (hpos : ∀ d ∈ S, 0 < d) : ∀ d ∈ P.map (fun a => S.getD a 0), 0 < d := by
  intro d hd
  have := ((isPermutation_perm hP).map (fun a => S.getD a 0)).mem_iff.1 hd
  rw [map_getD_range] at this
  exact hpos d this

/-- What `transposeIndex` computes on an array whose pre-transpose access pattern is row-major
over the shape `S`: the offset `i` decoded in `S`, permuted by `P`, re-encoded with the given
strides. -/
theorem transposeIndex_eq (S P sts : List Nat) (t : Dense α)
    (hold : t.old = some { shape := S, strides := CalcStrides S })
    (hP : isPermutation P S.length = true) (hl : P.length ≤ sts.length)
    (i : Nat) (hi : i < S.prod) :
    ∃ c, Itol i S (CalcStrides S) = some c ∧ List.Forall₂ (fun x s => x < s) c S ∧
      dot c (CalcStrides S) = i ∧
      t.transposeIndex i P sts = some (dot (P.map (fun a => c.getD a 0)) sts) := by
  obtain ⟨c, hc, hv, hd⟩ := Itol_rowMajor S i hi
  obtain ⟨-, hPr, -⟩ := (isPermutation_iff P _).1 hP
  refine ⟨c, hc, hv, hd, ?_⟩
  simp only [Dense.transposeIndex, Dense.oshape, Dense.ostrides, hold, hc]
  exact transposeSum_eq c P sts (fun a ha => by rw [hv.length_eq]; exact hPr a ha) hl

/-- The destination map of `Transpose` is injective on `[0, n)`, maps it into itself, and
fixes `0` and `n - 1`. -/
theorem transposeIndex_bij (S P : List Nat) (t : Dense α)
    (hold : t.old = some { shape := S, strides := CalcStrides S })
    (hP : isPermutation P S.length = true) (hpos : ∀ d ∈ S, 0 < d) :
    ∃ dst : Nat → Nat,
      (∀ i, i < S.prod →
        t.transposeIndex i P (CalcStrides (P.map (fun a => S.getD a 0))) = some (dst i)) ∧
      (∀ i, i < S.prod → dst i < S.prod) ∧
      (∀ i j, i < S.prod → j < S.prod → dst i = dst j → i = j) ∧
      dst 0 = 0 ∧ dst (S.prod - 1) = S.prod - 1 := by
  obtain ⟨hPl, hPr, -⟩ := (isPermutation_iff P _).1 hP
  have hl : P.length ≤ (CalcStrides (P.map (fun a => S.getD a 0))).length := by
    rw [CalcStrides_length]; simp
  have hprod := prod_map_getD_perm S P hP
  have hpos1 := pos_map_getD_perm S P hP hpos
  have hnpos := prod_pos_of_pos S hpos
  have hvalid : ∀ c, List.Forall₂ (fun x s => x < s) c S →
      List.Forall₂ (fun x s => x < s) (P.map (fun a => c.getD a 0))
        (P.map (fun a => S.getD a 0)) := fun c hv =>
    Forall₂_map_map _ _ _ P (fun a ha => Forall₂_getD_lt c S hv a (hPr a ha))
  refine ⟨fun i => (t.transposeIndex i P (CalcStrides (P.map (fun a => S.getD a 0)))).getD 0,
    ?_, ?_, ?_, ?_, ?_⟩
  · intro i hi
    obtain ⟨c, -, -, -, h⟩ := transposeIndex_eq S P _ t hold hP hl i hi
    simp only [h, Option.getD_some]
  · intro i hi
    obtain ⟨c, -, hv, -, h⟩ := transposeIndex_eq S P _ t hold hP hl i hi
    simp only [h, Option.getD_some]
    rw [← hprod]
    exact dot_lt_prod _ _ (hvalid c hv)
  · intro i j hi hj hij
    obtain ⟨c1, -, hv1, hd1, h1⟩ := transposeIndex_eq S P _ t hold hP hl i hi
    obtain ⟨c2, -, hv2, hd2, h2⟩ := transposeIndex_eq S P _ t hold hP hl j hj
    simp only [h1, h2, Option.getD_some] at hij
    have e1 := Itol_dot _ _ (hvalid c1 hv1)
    have e2 := Itol_dot _ _ (hvalid c2 hv2)
    rw [hij, e2] at e1
    have hc : c1 = c2 :=
      eq_of_map_getD_eq c1 c2 P S.length hv1.length_eq hv2.length_eq hP
        (Option.some.inj e1).symm
    rw [← hd1, ← hd2, hc]
  · obtain ⟨c, hc, -, -, h⟩ := transposeIndex_eq S P _ t hold hP hl 0 hnpos
    have hz := Itol_dot _ _ (Forall₂_zero_lt S hpos)
    rw [dot_zero _ _ (by simp), hc] at hz
    simp only [h, Option.getD_some]
    apply dot_zero
    intro x hx
    obtain ⟨a, -, rfl⟩ := List.mem_map.1 hx
    rw [Option.some.inj hz]
    simp [List.getD_eq_getElem?_getD, List.getElem?_map]
  · obtain ⟨c, hc, -, -, h⟩ := transposeIndex_eq S P _ t hold hP hl (S.prod - 1) (by omega)
    have hm := Itol_dot _ _ (Forall₂_pred_lt S hpos)
    have hmax := dot_max S hpos
    rw [show dot (S.map (fun d => d - 1)) (CalcStrides S) = S.prod - 1 by omega, hc] at hm
    simp only [h, Option.getD_some]
    have hmax1 := dot_max _ hpos1
    have hmap : P.map (fun a => c.getD a 0) =
        (P.map (fun a => S.getD a 0)).map (fun d => d - 1) := by
      rw [Option.some.inj hm, List.map_map]
      apply List.map_congr_left
      intro a _
      simp [List.getD_eq_getElem?_getD, List.getElem?_map]
      cases S[a]? <;> simp
    rw [hmap]
    omega

/-! ## Transpose -/

theorem initTrack_eq (n : Nat) (hn : 3 ≤ n) :
    initTrack n = some (((NewBitMap n).set 0 true).set (n - 1) true) := by
  have h0 : n ≠ 0 := by omega
  have h1 : 0 < n := by omega
  have h2 : n - 1 < n := by omega
  simp [initTrack, h0, bmSet, NewBitMap, h1, h2]

theorem Settled_initTrack (n : Nat) (hn : 3 ≤ n) (k : Nat) :
    Settled (((NewBitMap n).set 0 true).set (n - 1) true) k ↔ k = 0 ∨ k = n - 1 := by
  rw [Settled_set _ _ _ (by simp [NewBitMap]; omega), Settled_set _ _ _ (by simp [NewBitMap]; omega)]
  have : ¬ Settled (NewBitMap n) k := by
    unfold Settled NewBitMap
    by_cases hk : k < n
    · rw [List.getElem?_eq_getElem (by simpa using hk)]; simp
    · rw [List.getElem?_eq_none (by simpa using hk)]; simp
  simp [this]

/-- The state in which `Transpose` enters its loop satisfies the between-cycles invariant. -/
theorem IdleInv_init (n : Nat) (dst : Nat → Nat) (old : List α) (hn : 3 ≤ n)
    (hold : old.length = n) (h0 : dst 0 = 0) (hlast : dst (n - 1) = n - 1) :
    IdleInv n dst old 1 (((NewBitMap n).set 0 true).set (n - 1) true) old := by
  have hS := Settled_initTrack n hn
  refine ⟨by simp [NewBitMap], hold, by omega, ?_, ?_, ?_, ?_, fun _ _ _ => rfl⟩
  · rw [List.getElem?_set, List.getElem?_set]
    have h1 : ¬ (n - 1 = 1) := by omega
    simp only [h1, NewBitMap, if_false]
    rw [List.getElem?_eq_getElem (by simp; omega)]
    simp
  · intro j hj
    exact (hS j).2 (Or.inl (by omega))
  · intro j hj
    rcases (hS j).1 hj with h | h
    · subst h; rw [h0]; exact ⟨hj, rfl⟩
    · subst h; rw [hlast]; exact ⟨hj, rfl⟩
  · intro j hj
    rcases (hS j).1 hj with h | h
    · subst h; exact ⟨0, hj, h0⟩
    · subst h; exact ⟨n - 1, hj, hlast⟩

/-- Materialization of a pending transpose of an array with at least two non-unit dimensions
whose pre-transpose access pattern is row-major over the whole buffer: `Transpose` returns,
the loop exits with every index marked, and every element sits at its destination. -/
theorem Transpose_spec [Inhabited α] (S P : List Nat) (t : Dense α)
    (hold : t.old = some { shape := S, strides := CalcStrides S })
    (htw : t.transposeWith = some P)
    (hshape : t.AP.shape = P.map (fun a => S.getD a 0))
    (hP : isPermutation P S.length = true) (hpos : ∀ d ∈ S, 0 < d)
    (hsc : t.IsScalar = false) (hvec : t.IsVector = false)
    (hlen : t.data.length = S.prod) :
    ∃ (dst : Nat → Nat) (ex : LoopExit α),
      (∀ i, i < S.prod → t.transposeIndex i P (CalcStrides t.AP.shape) = some (dst i)) ∧
      (∀ i, i < S.prod → dst i < S.prod) ∧
      (∀ i j, i < S.prod → j < S.prod → dst i = dst j → i = j) ∧
      transposeLoop (fun i => t.transposeIndex i P (CalcStrides t.AP.shape)) default S.prod
        (2 * S.prod + 2) 1 none (((NewBitMap S.prod).set 0 true).set (S.prod - 1) true)
        t.data = .ok ex ∧
      LoopPost S.prod dst t.data ex ∧
      t.Transpose = .ok { AP := { shape := t.AP.shape, strides := CalcStrides t.AP.shape },
                          old := none, transposeWith := none, data := ex.data,
                          viewOf := t.viewOf } := by
  have hprod := prod_map_getD_perm S P hP
  have hpos1 := pos_map_getD_perm S P hP hpos
  have hn4 : 4 ≤ S.prod := by
    rw [← hprod, ← hshape]
    apply four_le_prod_of_nonunit _ (by rw [hshape]; exact hpos1)
    simp only [Dense.IsScalar, Dense.IsVector, IsScalarShape, IsVectorShape] at hsc hvec
    have h0 : (List.filter (fun d => d != 1) t.AP.shape).length ≠ 0 := by
      intro h; rw [h] at hsc; simp at hsc
    have h1 : (List.filter (fun d => d != 1) t.AP.shape).length ≠ 1 := by
      intro h; rw [h] at hvec; simp at hvec
    omega
  obtain ⟨dst, hd1, hd2, hd3, hd4, hd5⟩ := transposeIndex_bij S P t hold hP hpos
  rw [← hshape] at hd1
  have hI := IdleInv_init S.prod dst t.data (by omega) hlen hd4 hd5
  have hcount : (((NewBitMap S.prod).set 0 true).set (S.prod - 1) true).count false ≤ S.prod := by
    refine le_trans (List.count_le_length _ _) ?_
    simp [NewBitMap]
  obtain ⟨ex, hex, hpost⟩ :=
    (transposeLoop_correct S.prod dst
      (fun i => t.transposeIndex i P (CalcStrides t.AP.shape)) default t.data
      hd1 hd2 hd3 hlen (2 * S.prod + 2)).2 1 none _ t.data hI (by omega)
  refine ⟨dst, ex, hd1, hd2, hd3, hex, hpost, ?_⟩
  simp only [Dense.Transpose, hold, hsc, hvec, htw, Option.getD_some, hlen,
    initTrack_eq S.prod (by omega), Dense.Shape, hex, Dense.setShape]
  simp

/-- Every coordinate of the permuted shape is the permutation of a coordinate of the original
shape. -/
theorem exists_unpermuted (S P c1 : List Nat) (hP : isPermutation P S.length = true)
    (hv : List.Forall₂ (fun x s => x < s) c1 (P.map (fun a => S.getD a 0))) :
    ∃ c, List.Forall₂ (fun x s => x < s) c S ∧ P.map (fun a => c.getD a 0) = c1 := by
  obtain ⟨hPl, hPr, hnd⟩ := (isPermutation_iff P _).1 hP
  have hperm := isPermutation_perm hP
  have hc1l : c1.length = P.length := by simpa using hv.length_eq
  refine ⟨(List.range S.length).map (fun a => c1.getD (P.indexOf a) 0), ?_, ?_⟩
  · have hS : List.Forall₂ (fun x s => x < s)
        ((List.range S.length).map (fun a => c1.getD (P.indexOf a) 0))
        ((List.range S.length).map (fun a => S.getD a 0)) := by
      apply Forall₂_map_map
      intro a ha
      have haP : a ∈ P := hperm.mem_iff.2 ha
      have hidx : P.indexOf a < P.length := List.indexOf_lt_length.2 haP
      have := Forall₂_getD_lt _ _ hv (P.indexOf a) (by simpa using hidx)
      rw [getD_map_of_lt P _ _ 0 hidx, List.getD_eq_getElem _ _ hidx,
        List.getElem_indexOf hidx] at this
      exact this
    rwa [map_getD_range] at hS
  · apply List.ext_getElem (by simp [hc1l])
    intro k hk1 hk2
    have hk : k < P.length := by simpa using hk1
    have hpk : P[k] < (List.range S.length).length := by
      simpa using hPr _ (List.getElem_mem hk)
    simp only [List.getElem_map]
    rw [getD_map_of_lt (List.range S.length) _ _ 0 hpk, List.getD_eq_getElem _ _ hpk,
      List.getElem_range, List.indexOf_getElem hnd k hk, List.getD_eq_getElem _ _ hk2]

/-- C1: `Transpose` on a Pending array that is neither a scalar nor a vector, whose
pre-transpose AP is row-major over the whole buffer and whose pending axes `P` are a
permutation, returns an Identity array with the target shape and row-major strides whose
buffer satisfies `new[dest i] = old[i]` for every physical index `i`, where
`dest i = transposeIndex(i, P, rowMajorStrides(targetShape))`; equivalently, every coordinate
of the target shape addresses the same element after the call (row-major strides) as before
it (pending strides). -/
theorem Transpose_materializes [Inhabited α] (t : Dense α) (o : AP) (P : List Nat)
    (hold : t.old = some o) (htw : t.transposeWith = some P)
    (hrm : o.strides = CalcStrides o.shape) (hlen : t.data.length = TotalSize o.shape)
    (hpos : ∀ d ∈ o.shape, 0 < d)
    (hP : isPermutation P o.shape.length = true)
    (hshape : t.Shape = P.map (fun a => o.shape.getD a 0))
    (hstrides : t.Strides = P.map (fun a => o.strides.getD a 0))
    (hsc : t.IsScalar = false) (hvec : t.IsVector = false) :
    ∃ t1, t.Transpose = .ok t1 ∧ t1.Shape = t.Shape ∧ t1.Strides = CalcStrides t.Shape ∧
      t1.IsIdentity ∧ t1.data.length = t.data.length ∧
      (∀ i, i < t.data.length →
        ∃ d, t.transposeIndex i P (CalcStrides t.Shape) = some d ∧ d < t.data.length ∧
          t1.data[d]? = t.data[i]?) ∧
      (∀ c, List.Forall₂ (fun x s => x < s) c t.Shape →
        ∃ i d, t.at_ c = .ok i ∧ t1.at_ c = .ok d ∧ i < t.data.length ∧
          d < t.data.length ∧ t1.data[d]? = t.data[i]?) := by
  obtain ⟨S, st⟩ := o
  simp only at hrm hlen hpos hP hshape hstrides
  subst hrm
  simp only [TotalSize] at hlen
  simp only [Dense.Shape] at hshape
  obtain ⟨dst, ex, hd1, hd2, hd3, -, hpost, hT⟩ :=
    Transpose_spec S P t hold htw hshape hP hpos hsc hvec hlen
  obtain ⟨hl1, -, -, -, hmove⟩ := hpost
  refine ⟨_, hT, rfl, rfl, ⟨rfl, rfl⟩, by simp [hl1, hlen], ?_, ?_⟩
  · intro i hi
    rw [hlen] at hi
    exact ⟨dst i, hd1 i hi, by rw [hlen]; exact hd2 i hi, hmove i hi⟩
  · intro c1 hv
    simp only [Dense.Shape, hshape] at hv
    obtain ⟨c, hcv, hc1⟩ := exists_unpermuted S P c1 hP hv
    have hi : dot c (CalcStrides S) < S.prod := dot_lt_prod c S hcv
    have hl : P.length ≤ (CalcStrides t.AP.shape).length := by
      rw [CalcStrides_length, hshape]; simp
    obtain ⟨c2, hc2, -, -, hti⟩ := transposeIndex_eq S P (CalcStrides t.AP.shape) t hold hP hl
      _ hi
    rw [Itol_dot c S hcv] at hc2
    rw [← Option.some.inj hc2, hc1, hd1 _ hi] at hti
    have hc1l : c1.length = t.AP.shape.length := by rw [hshape]; exact hv.length_eq
    refine ⟨dot c (CalcStrides S), dst (dot c (CalcStrides S)), ?_, ?_,
      by rw [hlen]; exact hi, by rw [hlen]; exact hd2 _ hi, hmove _ hi⟩
    · simp only [Dense.at_, Ltoi, Dense.Shape, hc1l, ne_eq, not_true_eq_false, if_false,
        hstrides]
      rw [← hc1, dot_permuted c (CalcStrides S) P
        (by rw [hcv.length_eq, CalcStrides_length]) (by rw [hcv.length_eq]; exact hP)]
    · simp only [Dense.at_, Ltoi, Dense.Shape, Dense.Strides, hc1l, ne_eq, not_true_eq_false,
        if_false]
      rw [Option.some.inj hti]

/-- C1, concrete check: a `2x3` array with the pending transpose `(1,0)` becomes the `3x2`
array with buffer `[0,3,1,4,2,5]`. -/
theorem Transpose_materializes_witness :
    ∃ t1, examplePending.Transpose = .ok t1 ∧ t1.Shape = [3, 2] ∧ t1.Strides = [2, 1] ∧
      t1.data = [0, 3, 1, 4, 2, 5] := by
  obtain ⟨t1, h1, h2, h3, -⟩ := Transpose_materializes examplePending
    { shape := [2, 3], strides := [3, 1] } [1, 0] rfl rfl (by decide) (by decide) (by decide)
    (by decide) (by decide) (by decide) (by decide) (by decide)
  refine ⟨t1, h1, h2, h3, ?_⟩
  have h4 : examplePending.Transpose = .ok (exampleDense [3, 2] [0, 3, 1, 4, 2, 5]) := by
    rfl
  rw [h4] at h1
  cases h1
  rfl

/-! ## Materialized round trip -/

theorem perm_map_getD (S P : List Nat) (hP : isPermutation P S.length = true) :
    (P.map (fun a => S.getD a 0)).Perm S := by
  have := (isPermutation_perm hP).map (fun a => S.getD a 0)
  rwa [map_getD_range] at this

theorem nonunit_count_perm (S P : List Nat) (hP : isPermutation P S.length = true) :
    ((P.map (fun a => S.getD a 0)).filter (fun d => d != 1)).length =
      (S.filter (fun d => d != 1)).length :=
  ((perm_map_getD S P hP).filter _).length_eq

theorem not_scalar_vector_of_two (S : List Nat)
    (h : 2 ≤ (S.filter (fun d => d != 1)).length) :
    IsScalarShape S = false ∧ IsVectorShape S = false := by
  constructor
  · simp only [IsScalarShape]
    have : (S.filter (fun d => d != 1)).length ≠ 0 := by omega
    simpa using this
  · simp only [IsVectorShape]
    have : (S.filter (fun d => d != 1)).length ≠ 1 := by omega
    simpa using this

/-- Materializing `P` and then its inverse `Q` sends every physical index back to itself. -/
theorem transposeIndex_inverse (S P Q : List Nat) (t1 t3 : Dense α)
    (hold1 : t1.old = some { shape := S, strides := CalcStrides S })
    (hold3 : t3.old = some { shape := P.map (fun a => S.getD a 0),
                             strides := CalcStrides (P.map (fun a => S.getD a 0)) })
    (hP : isPermutation P S.length = true) (hQ : isPermutation Q S.length = true)
    (hinv : ∀ k, k < S.length → P.getD (Q.getD k 0) 0 = k)
    (i : Nat) (hi : i < S.prod) :
    ∃ d, t1.transposeIndex i P (CalcStrides (P.map (fun a => S.getD a 0))) = some d ∧
      t3.transposeIndex d Q (CalcStrides S) = some i := by
  obtain ⟨hPl, hPr, -⟩ := (isPermutation_iff P _).1 hP
  obtain ⟨hQl, -, -⟩ := (isPermutation_iff Q _).1 hQ
  have hl1 : P.length ≤ (CalcStrides (P.map (fun a => S.getD a 0))).length := by
    rw [CalcStrides_length]; simp
  obtain ⟨c, -, hv, hd, h1⟩ := transposeIndex_eq S P _ t1 hold1 hP hl1 i hi
  have hv1 : List.Forall₂ (fun x s => x < s) (P.map (fun a => c.getD a 0))
      (P.map (fun a => S.getD a 0)) :=
    Forall₂_map_map _ _ _ P (fun a ha => Forall₂_getD_lt c S hv a (hPr a ha))
  refine ⟨_, h1, ?_⟩
  have hQ1 : isPermutation Q (P.map (fun a => S.getD a 0)).length = true := by
    simpa [hPl] using hQ
  have hl3 : Q.length ≤ (CalcStrides S).length := by rw [CalcStrides_length]; omega
  have hlt : dot (P.map (fun a => c.getD a 0)) (CalcStrides (P.map (fun a => S.getD a 0))) <
      (P.map (fun a => S.getD a 0)).prod := dot_lt_prod _ _ hv1
  obtain ⟨c2, hc2, -, -, h3⟩ := transposeIndex_eq _ Q (CalcStrides S) t3 hold3 hQ1 hl3 _ hlt
  rw [Itol_dot _ _ hv1] at hc2
  rw [h3, ← Option.some.inj hc2]
  have hcl : c.length = S.length := hv.length_eq
  rw [map_getD_inverse c 0 P Q (by rw [hcl]; exact hP) (by rw [hcl]; exact hQ)
    (by rw [hcl]; exact hinv), hd]

/-- C3: materialized round trip.  From a row-major Identity array with at least two non-unit
dimensions, `T(P); Transpose(); T(Q); Transpose()` with `Q` the inverse of the non-identity
permutation `P` runs without error and ends in the array it started from: Identity state,
the original shape and strides, and a buffer equal element for element. -/
theorem materialized_round_trip [Inhabited α] (t : Dense α) (P Q : List Nat)
    (hid : t.IsIdentity) (hrm : t.RowMajor) (hpos : ∀ d ∈ t.Shape, 0 < d)
    (h2 : 2 ≤ (t.Shape.filter (fun d => d != 1)).length)
    (hP : isPermutation P t.Dims = true) (hne : P ≠ List.range t.Dims)
    (hQ : isPermutation Q t.Dims = true)
    (hinv : ∀ k, k < t.Dims → P.getD (Q.getD k 0) 0 = k) :
    ∃ r1 t2 r3 t4, t.T P = .ok r1 ∧ r1.err = none ∧ r1.t.Transpose = .ok t2 ∧
      t2.T Q = .ok r3 ∧ r3.err = none ∧ r3.t.Transpose = .ok t4 ∧
      t4.IsIdentity ∧ t4.Shape = t.Shape ∧ t4.Strides = t.Strides ∧ t4.data = t.data ∧
      t4 = t := by
  obtain ⟨hold, htw⟩ := hid
  obtain ⟨hst, hlen⟩ := hrm
  obtain ⟨⟨S, st⟩, o, tw, data, vw⟩ := t
  simp only [Dense.Shape, Dense.Dims, TotalSize] at *
  subst hold htw hst
  obtain ⟨hPl, -, -⟩ := (isPermutation_iff P _).1 hP
  obtain ⟨hQl, -, -⟩ := (isPermutation_iff Q _).1 hQ
  have hQne := inverse_ne_identity P Q S.length hP hne hinv
  have hcnt := nonunit_count_perm S P hP
  have hpos1 := pos_map_getD_perm S P hP hpos
  have hprod := prod_map_getD_perm S P hP
  have hback : Q.map (fun a => (P.map (fun b => S.getD b 0)).getD a 0) = S :=
    map_getD_inverse S 0 P Q hP hQ hinv
  let t0 : Dense α :=
    ⟨⟨S, CalcStrides S⟩, none, none, data, vw⟩
  let t1 : Dense α :=
    ⟨⟨P.map (fun a => S.getD a 0), P.map (fun a => (CalcStrides S).getD a 0)⟩,
      some ⟨S, CalcStrides S⟩, some P, data, vw⟩
  -- first transpose request
  have e1 : t0.T P = .ok { t := t1, err := none, transposes := 0 } :=
    T_of_old_none t0 P rfl hP hne
  -- first materialization
  obtain ⟨hs1, hv1⟩ := not_scalar_vector_of_two (P.map (fun a => S.getD a 0))
    (by rw [hcnt]; exact h2)
  obtain ⟨dst1, ex1, hd1, hr1, -, -, hpost1, e2⟩ := Transpose_spec S P t1 rfl rfl rfl hP hpos
    hs1 hv1 hlen
  obtain ⟨hl1, -, -, -, hmove1⟩ := hpost1
  let t2 : Dense α :=
    ⟨⟨P.map (fun a => S.getD a 0), CalcStrides (P.map (fun a => S.getD a 0))⟩,
      none, none, ex1.data, vw⟩
  let t3 : Dense α :=
    ⟨⟨Q.map (fun a => (P.map (fun b => S.getD b 0)).getD a 0),
        Q.map (fun a => (CalcStrides (P.map (fun b => S.getD b 0))).getD a 0)⟩,
      some ⟨P.map (fun a => S.getD a 0), CalcStrides (P.map (fun a => S.getD a 0))⟩,
      some Q, ex1.data, vw⟩
  -- second transpose request
  have e3 : t2.T Q = .ok { t := t3, err := none, transposes := 0 } :=
    T_of_old_none t2 Q rfl
      (by simpa [t2, Dense.Dims, hPl] using hQ) (by simpa [t2, Dense.Dims, hPl] using hQne)
  -- second materialization
  obtain ⟨hs3, hv3⟩ := not_scalar_vector_of_two
    (Q.map (fun a => (P.map (fun b => S.getD b 0)).getD a 0)) (by rw [hback]; exact h2)
  obtain ⟨dst3, ex3, hd3, -, -, -, hpost3, e4⟩ := Transpose_spec
    (P.map (fun a => S.getD a 0)) Q t3
    rfl rfl rfl (by simpa [hPl] using hQ) hpos1 hs3 hv3 (by simp only [t3]; rw [hl1, hprod])
  obtain ⟨hl3, -, -, -, hmove3⟩ := hpost3
  have hdata : ex3.data = data := by
    apply List.ext_getElem?
    intro i
    by_cases hi : i < S.prod
    · obtain ⟨d, hda, hdb⟩ := transposeIndex_inverse S P Q t1 t3 rfl rfl hP hQ hinv i hi
      have hd1i := hd1 i hi
      rw [show t1.AP.shape = P.map (fun a => S.getD a 0) from rfl, hda] at hd1i
      have hdlt : d < (P.map (fun a => S.getD a 0)).prod := by
        rw [hprod, Option.some.inj hd1i]
        exact hr1 i hi
      have hd3d := hd3 d hdlt
      rw [show t3.AP.shape = Q.map (fun a => (P.map (fun b => S.getD b 0)).getD a 0) from rfl,
        hback, hdb] at hd3d
      have m1 := hmove1 i hi
      have m3 := hmove3 d hdlt
      rw [← Option.some.inj hd3d] at m3
      rw [← Option.some.inj hd1i] at m1
      rw [m3]
      exact m1
    · rw [List.getElem?_eq_none (by omega), List.getElem?_eq_none (by omega)]
  refine ⟨{ t := t1, err := none, transposes := 0 }, t2, { t := t3, err := none, transposes := 0 },
    _, e1, rfl, e2, e3, rfl, e4, ⟨rfl, rfl⟩, hback, ?_, hdata, ?_⟩
  · simp only [Dense.Strides, t3, hback]
  · simp only [t3, hback, hdata]
/-- C3, concrete check: a `2x3x4` array, `T(1,2,0); Transpose(); T(2,0,1); Transpose()`. -/
theorem materialized_round_trip_witness :
    ∃ r1 t2 r3 t4, (exampleDense [2, 3, 4] (List.range 24)).T [1, 2, 0] = .ok r1 ∧
      r1.err = none ∧ r1.t.Transpose = .ok t2 ∧ t2.T [2, 0, 1] = .ok r3 ∧ r3.err = none ∧
      r3.t.Transpose = .ok t4 ∧ t4.IsIdentity ∧
      t4.Shape = (exampleDense [2, 3, 4] (List.range 24)).Shape ∧
      t4.Strides = (exampleDense [2, 3, 4] (List.range 24)).Strides ∧
      t4.data = (exampleDense [2, 3, 4] (List.range 24)).data ∧
      t4 = exampleDense [2, 3, 4] (List.range 24) :=
  materialized_round_trip (exampleDense [2, 3, 4] (List.range 24)) [1, 2, 0] [2, 0, 1]
    ⟨rfl, rfl⟩ ⟨rfl, rfl⟩ (by decide) (by decide) (by decide) (by decide) (by decide)
    (by decide)

/-! ## Case analysis of T and Transpose -/

/-- `T` answers either with the receiver untouched (no-op or error from `AP.T`), or with the
thunk installed (no pending transpose), or with `UT` (vector, or cancellation), or after one
`Transpose`. -/
theorem T_cases [Inhabited α] (t : Dense α) (axes : List Nat) (r : TOut α)
    (h : t.T axes = .ok r) :
    (r.t = t ∧ r.transposes = 0) ∨
    (∃ tr ax, t.AP.T axes = .ok (tr, ax) ∧ t.old = none ∧ r.err = none ∧ r.transposes = 0 ∧
      r.t = { t with old := some t.AP, transposeWith := some ax, AP := tr }) ∨
    (∃ tr ax, t.AP.T axes = .ok (tr, ax) ∧ t.old ≠ none ∧ r.err = none ∧ r.transposes = 0 ∧
      r.t = t.UT ∧ (t.IsVector = true ∨ isReversed t.oshape tr.shape = some true)) ∨
    (∃ tr ax t1, t.AP.T axes = .ok (tr, ax) ∧ t.old ≠ none ∧ t.IsVector = false ∧
      isReversed t.oshape tr.shape = some false ∧ t.Transpose = .ok t1 ∧ r.err = none ∧
      r.transposes = 1 ∧
      r.t = { t1 with old := some t1.AP, transposeWith := some ax, AP := tr }) := by
  simp only [Dense.T] at h
  cases hT : t.AP.T axes with
  | error e =>
    rw [hT] at h
    left
    by_cases he : e = Err.NoOp
    · simp [he] at h; rw [← h]; exact ⟨rfl, rfl⟩
    · simp [he] at h; rw [← h]; exact ⟨rfl, rfl⟩
  | ok p =>
    obtain ⟨tr, ax⟩ := p
    rw [hT] at h
    simp only at h
    cases ho : t.old with
    | none =>
      rw [ho] at h
      right; left
      simp only [Except.ok.injEq] at h
      exact ⟨tr, ax, rfl, rfl, by rw [← h], by rw [← h], by rw [← h]⟩
    | some o =>
      rw [ho] at h
      simp only at h
      by_cases hv : t.IsVector = true
      · right; right; left
        simp only [hv, if_true, Except.ok.injEq] at h
        exact ⟨tr, ax, rfl, by simp, by rw [← h], by rw [← h], by rw [← h], Or.inl hv⟩
      · simp only [hv] at h
        cases hr : isReversed t.oshape tr.shape with
        | none => rw [hr] at h; simp at h
        | some b =>
          rw [hr] at h
          cases b with
          | true =>
            right; right; left
            simp only [Bool.false_eq_true, if_false, Except.ok.injEq] at h
            exact ⟨tr, ax, rfl, by simp, by rw [← h], by rw [← h], by rw [← h], Or.inr hr⟩
          | false =>
            right; right; right
            simp only [Bool.false_eq_true, if_false] at h
            cases hTr : t.Transpose with
            | error f => rw [hTr] at h; simp at h
            | ok t1 =>
              rw [hTr] at h
              simp only [Except.ok.injEq] at h
              exact ⟨tr, ax, t1, rfl, by simp, by simpa using hv, hr, rfl, by rw [← h],
                by rw [← h], by rw [← h]⟩

/-- `Transpose` answers either with the receiver untouched (nothing pending, or a scalar), or
with an array whose `old` and `transposeWith` are both cleared. -/
theorem Transpose_cases [Inhabited α] (t t1 : Dense α) (h : t.Transpose = .ok t1) :
    t1 = t ∨ (t1.old = none ∧ t1.transposeWith = none ∧ t1.Shape = t.Shape) := by
  simp only [Dense.Transpose] at h
  cases ho : t.old with
  | none => rw [ho] at h; simp at h; exact Or.inl h.symm
  | some o =>
    rw [ho] at h
    simp only at h
    by_cases hs : t.IsScalar = true
    · rw [if_pos hs] at h
      exact Or.inl (Except.ok.inj h).symm
    · rw [if_neg hs] at h
      by_cases hv : t.IsVector = true
      · simp only [hv, if_true, Except.ok.injEq] at h
        rw [← h]
        exact Or.inr ⟨rfl, rfl, rfl⟩
      · simp only [hv] at h
        cases hi : initTrack t.data.length with
        | none => rw [hi] at h; simp at h
        | some tr =>
          rw [hi] at h
          simp only at h
          cases hl : transposeLoop
              (fun i => t.transposeIndex i (t.transposeWith.getD []) (CalcStrides t.Shape))
              default t.data.length (2 * t.data.length + 2) 1 none tr t.data with
          | error f => rw [hl] at h; simp at h
          | ok ex =>
            rw [hl] at h
            simp only [Bool.false_eq_true, if_false, Except.ok.injEq] at h
            rw [← h]
            exact Or.inr ⟨rfl, rfl, rfl⟩

/-! ## The pending fields are nil together -/

theorem UT_pending_iff (t : Dense α) (hinv : t.old ≠ none ↔ t.transposeWith ≠ none) :
    t.UT.old ≠ none ↔ t.UT.transposeWith ≠ none := by
  cases h : t.old with
  | none => simpa [Dense.UT, h] using hinv
  | some o => simp [Dense.UT, h]

theorem UT_fields (t : Dense α) (ho : t.old ≠ none) :
    t.UT.old = none ∧ t.UT.transposeWith = none := by
  cases h : t.old with
  | none => exact absurd h ho
  | some o => simp [Dense.UT, h]

/-- One call keeps `old` and `transposeWith` nil together. -/
theorem step_pending_iff [Inhabited α] (t t1 : Dense α) (op : Op)
    (hinv : t.old ≠ none ↔ t.transposeWith ≠ none) (h : t.step op = .ok t1) :
    t1.old ≠ none ↔ t1.transposeWith ≠ none := by
  cases op with
  | T axes =>
    simp only [Dense.step] at h
    cases hT : t.T axes with
    | error f => rw [hT] at h; simp at h
    | ok r =>
      rw [hT] at h
      simp only [Except.ok.injEq] at h
      subst h
      rcases T_cases t axes r hT with ⟨h1, -⟩ | ⟨tr, ax, -, -, -, -, h1⟩ |
        ⟨tr, ax, -, ho, -, -, h1, -⟩ | ⟨tr, ax, t2, -, -, -, -, -, -, -, h1⟩
      · rw [h1]; exact hinv
      · rw [h1]; simp
      · rw [h1]; exact UT_pending_iff t hinv
      · rw [h1]; simp
  | UT =>
    simp only [Dense.step, Except.ok.injEq] at h
    subst h
    exact UT_pending_iff t hinv
  | Transpose =>
    simp only [Dense.step] at h
    rcases Transpose_cases t t1 h with h1 | ⟨h1, h2, -⟩
    · rw [h1]; exact hinv
    · simp [h1, h2]

theorem run_pending_iff [Inhabited α] (ops : List Op) :
    ∀ (t t1 : Dense α), (t.old ≠ none ↔ t.transposeWith ≠ none) → t.run ops = .ok t1 →
      (t1.old ≠ none ↔ t1.transposeWith ≠ none) := by
  induction ops with
  | nil =>
    intro t t1 hinv h
    simp only [Dense.run, Except.ok.injEq] at h
    subst h; exact hinv
  | cons op ops ih =>
    intro t t1 hinv h
    simp only [Dense.run] at h
    cases hs : t.step op with
    | error f => rw [hs] at h; simp at h
    | ok t2 =>
      rw [hs] at h
      exact ih t2 t1 (step_pending_iff t t2 op hinv hs) h

/-- With axes that are not a permutation `T` returns an error and leaves the receiver. -/
theorem T_of_invalid [Inhabited α] (t : Dense α) (axes : List Nat) (hne : axes ≠ [])
    (hbad : isPermutation axes t.Dims = false) :
    ∃ e, e ≠ Err.NoOp ∧ t.T axes = .ok { t := t, err := some e, transposes := 0 } := by
  have hax : (if axes.isEmpty then (List.range t.AP.shape.length).reverse else axes) = axes := by
    cases axes with
    | nil => exact absurd rfl hne
    | cons a as => simp
  have hbad1 : isPermutation axes t.AP.shape.length = false := hbad
  by_cases hl : axes.length = t.AP.shape.length
  · have hT : t.AP.T axes = .error Err.InvalidAxis := by
      simp only [AP.T, hax, hl, hbad1]
      simp
    refine ⟨Err.InvalidAxis, by decide, ?_⟩
    simp only [Dense.T, hT]
    simp
  · have hT : t.AP.T axes = .error Err.DimMismatch := by
      simp only [AP.T, hax]
      simp [hl]
    refine ⟨Err.DimMismatch, by decide, ?_⟩
    simp only [Dense.T, hT]
    simp

/-- C19: starting from an array with `old = nil` and `transposeWith = nil`, after every finite
sequence of `T` (any arguments), `UT` and `Transpose` calls `old` is non-nil exactly when
`transposeWith` is; the same holds for every array `SafeT` returns.  `T` with the identity
permutation returns nil and `T` with axes that are not a permutation returns the error, both
leaving the receiver (AP, `old`, `transposeWith`, buffer) as it was, in every state. -/
theorem pending_iff_axes [Inhabited α] (t : Dense α) (hid : t.IsIdentity) :
    (∀ ops t1, t.run ops = .ok t1 → (t1.old ≠ none ↔ t1.transposeWith ≠ none)) ∧
    (∀ (s : Dense α) axes d, (s.SafeT axes).retVal = some d →
      (d.old ≠ none ↔ d.transposeWith ≠ none)) ∧
    (∀ (s : Dense α),
      s.T (List.range s.Dims) = .ok { t := s, err := none, transposes := 0 }) ∧
    (∀ (s : Dense α) axes, axes ≠ [] → isPermutation axes s.Dims = false →
      ∃ e, e ≠ Err.NoOp ∧ s.T axes = .ok { t := s, err := some e, transposes := 0 }) := by
  refine ⟨?_, ?_, ?_, ?_⟩
  · intro ops t1 h
    exact run_pending_iff ops t t1 (by simp [hid.1, hid.2]) h
  · intro s axes d h
    simp only [Dense.SafeT] at h
    cases hT : s.AP.T axes with
    | error e =>
      rw [hT] at h
      by_cases he : e = Err.NoOp <;> simp [he] at h
    | ok p =>
      obtain ⟨tr, ax⟩ := p
      rw [hT] at h
      simp only [Option.some.injEq] at h
      rw [← h]
      simp
  · intro s
    exact T_of_identity_axes s _ rfl
  · intro s axes hne hbad
    exact T_of_invalid s axes hne hbad

/-- C19, concrete check: six calls on a `2x3x4` array, one of them materializing, and `T`
with the axes `(0,0,1)`, which are not a permutation. -/
theorem pending_iff_axes_witness :
    (exampleDense [2, 3, 4] (List.range 24)).IsIdentity ∧
    (∀ t1, (exampleDense [2, 3, 4] (List.range 24)).run
        [.T [1, 2, 0], .T [0, 2, 1], .Transpose, .T [], .T [0, 0, 1], .UT] = .ok t1 →
      (t1.old ≠ none ↔ t1.transposeWith ≠ none)) ∧
    (∃ e, e ≠ Err.NoOp ∧ (exampleDense [2, 3, 4] (List.range 24)).T [0, 0, 1] =
      .ok { t := exampleDense [2, 3, 4] (List.range 24), err := some e, transposes := 0 }) :=
  ⟨⟨rfl, rfl⟩,
    (pending_iff_axes (exampleDense [2, 3, 4] (List.range 24)) ⟨rfl, rfl⟩).1 _,
    (pending_iff_axes (exampleDense [2, 3, 4] (List.range 24)) ⟨rfl, rfl⟩).2.2.2
      (exampleDense [2, 3, 4] (List.range 24)) [0, 0, 1] (by decide) (by decide)⟩

/-! ## Vectors -/

theorem IsVectorShape_perm (S P : List Nat) (hP : isPermutation P S.length = true) :
    IsVectorShape (P.map (fun a => S.getD a 0)) = IsVectorShape S := by
  simp only [IsVectorShape, nonunit_count_perm S P hP]

/-- A vector in the transpose engine: the reported shape is a vector and so is the stored
pre-transpose shape, if there is one. -/
theorem vector_T [Inhabited α] (t : Dense α) (axes : List Nat) (hv : t.IsVector = true)
    (hov : ∀ o, t.old = some o → IsVectorShape o.shape = true) :
    ∃ r, t.T axes = .ok r ∧ r.transposes = 0 ∧ r.t.data = t.data ∧ r.t.IsVector = true ∧
      (∀ o, r.t.old = some o → IsVectorShape o.shape = true) ∧
      (t.old ≠ none →
        (r.t = t.UT ∧ ∃ p, t.AP.T axes = .ok p) ∨ (r.t = t ∧ ∃ e, t.AP.T axes = .error e)) := by
  cases hT : t.AP.T axes with
  | error e =>
    refine ⟨{ t := t, err := if e = Err.NoOp then none else some e, transposes := 0 }, ?_,
      rfl, rfl, hv, hov, fun _ => Or.inr ⟨rfl, e, rfl⟩⟩
    simp only [Dense.T, hT]
    by_cases he : e = Err.NoOp <;> simp [he]
  | ok p =>
    obtain ⟨tr, ax⟩ := p
    obtain ⟨hP, -, htr⟩ := AP_T_ok t.AP axes tr ax hT
    cases ho : t.old with
    | none =>
      refine ⟨{ t := { t with old := some t.AP, transposeWith := some ax, AP := tr },
                err := none, transposes := 0 }, ?_, rfl, rfl, ?_, ?_, fun h => absurd rfl h⟩
      · simp only [Dense.T, hT, ho]
      · simp only [Dense.IsVector, htr]
        rw [IsVectorShape_perm _ _ hP]; exact hv
      · intro o h
        simp only [Option.some.injEq] at h
        rw [← h]; exact hv
    | some o =>
      refine ⟨{ t := t.UT, err := none, transposes := 0 }, ?_, rfl, ?_, ?_, ?_,
        fun _ => Or.inl ⟨rfl, (tr, ax), rfl⟩⟩
      · simp only [Dense.T, hT, ho, hv, if_true]
      · simp [Dense.UT, ho]
      · simp only [Dense.UT, ho, Dense.IsVector]
        exact hov o ho
      · intro o1 h
        simp [Dense.UT, ho] at h

theorem vector_Transpose [Inhabited α] (t : Dense α) (hv : t.IsVector = true) :
    ∃ t1, t.Transpose = .ok t1 ∧ t1.data = t.data ∧ t1.Shape = t.Shape ∧
      (t.old = none → t1 = t) ∧
      (t.old ≠ none → t1 = { t with AP := { shape := t.Shape, strides := CalcStrides t.Shape },
                                    old := none, transposeWith := none }) := by
  have hs : t.IsScalar = false := by
    simp only [Dense.IsVector, IsVectorShape, beq_iff_eq] at hv
    simp [Dense.IsScalar, IsScalarShape, hv]
  cases ho : t.old with
  | none =>
    exact ⟨t, by simp [Dense.Transpose, ho], rfl, rfl, fun _ => rfl, fun h => absurd rfl h⟩
  | some o =>
    refine ⟨{ t with AP := { shape := t.Shape, strides := CalcStrides t.Shape },
                     old := none, transposeWith := none }, ?_, rfl, rfl,
      fun h => Option.noConfusion h, fun _ => rfl⟩
    simp only [Dense.Transpose, ho, hs, hv, if_true, Bool.false_eq_true, if_false,
      Dense.setShape]

/-- A sequence of calls on a vector returns, with the buffer as it was. -/
theorem vector_run [Inhabited α] (ops : List Op) :
    ∀ (t : Dense α), t.IsVector = true →
      (∀ o, t.old = some o → IsVectorShape o.shape = true) →
      ∃ t1, t.run ops = .ok t1 ∧ t1.data = t.data ∧ t1.IsVector = true := by
  induction ops with
  | nil => intro t hv _; exact ⟨t, rfl, rfl, hv⟩
  | cons op ops ih =>
    intro t hv hov
    have hstep : ∃ t2, t.step op = .ok t2 ∧ t2.data = t.data ∧ t2.IsVector = true ∧
        (∀ o, t2.old = some o → IsVectorShape o.shape = true) := by
      cases op with
      | T axes =>
        obtain ⟨r, h1, -, h3, h4, h5, -⟩ := vector_T t axes hv hov
        exact ⟨r.t, by simp [Dense.step, h1], h3, h4, h5⟩
      | UT =>
        refine ⟨t.UT, rfl, ?_, ?_, ?_⟩
        · cases ho : t.old <;> simp [Dense.UT, ho]
        · cases ho : t.old with
          | none => simpa [Dense.UT, ho] using hv
          | some o => simpa [Dense.UT, ho, Dense.IsVector] using hov o ho
        · intro o h
          cases ho : t.old with
          | none => rw [show t.UT = t by simp [Dense.UT, ho], ho] at h; cases h
          | some o1 => simp [Dense.UT, ho] at h
      | Transpose =>
        obtain ⟨t1, h1, h2, h3, h4, h5⟩ := vector_Transpose t hv
        have hv1 : t1.IsVector = true := by
          simp only [Dense.IsVector, Dense.Shape] at hv h3 ⊢
          rw [h3]; exact hv
        refine ⟨t1, h1, h2, hv1, ?_⟩
        intro o h
        by_cases ho : t.old = none
        · rw [h4 ho, ho] at h; cases h
        · rw [h5 ho] at h; cases h
    obtain ⟨t2, h1, h2, h3, h4⟩ := hstep
    obtain ⟨t1, h5, h6, h7⟩ := ih t2 h3 h4
    exact ⟨t1, by simp [Dense.run, h1, h5], by rw [h6, h2], h7⟩
/-- C16: vectors never move memory.  For an array whose reported shape is a vector (and whose
stored pre-transpose shape, if any, is one too), every finite sequence of `T`, `UT` and
`Transpose` calls returns and leaves the buffer exactly as it was.  `T` never calls
`Transpose`: on a pending vector it un-transposes (`UT`) whenever `AP.T` accepts the axes and
does nothing otherwise; `Transpose` on a pending vector only resets the shape to the target
shape and clears the pending fields. -/
theorem vector_never_moves [Inhabited α] (t : Dense α) (hv : t.IsVector = true)
    (hov : ∀ o, t.old = some o → IsVectorShape o.shape = true) :
    (∀ ops, ∃ t1, t.run ops = .ok t1 ∧ t1.data = t.data ∧ t1.IsVector = true) ∧
    (∀ axes, ∃ r, t.T axes = .ok r ∧ r.transposes = 0 ∧ r.t.data = t.data ∧
      (t.old ≠ none →
        (r.t = t.UT ∧ ∃ p, t.AP.T axes = .ok p) ∨ (r.t = t ∧ ∃ e, t.AP.T axes = .error e))) ∧
    (∃ t1, t.Transpose = .ok t1 ∧ t1.data = t.data ∧ t1.Shape = t.Shape ∧
      (t.old ≠ none →
        t1 = { t with AP := { shape := t.Shape, strides := CalcStrides t.Shape },
                      old := none, transposeWith := none })) := by
  refine ⟨fun ops => vector_run ops t hv hov, ?_, ?_⟩
  · intro axes
    obtain ⟨r, h1, h2, h3, -, -, h6⟩ := vector_T t axes hv hov
    exact ⟨r, h1, h2, h3, h6⟩
  · obtain ⟨t1, h1, h2, h3, -, h5⟩ := vector_Transpose t hv
    exact ⟨t1, h1, h2, h3, h5⟩

/-- C16, concrete check: a row vector `1x5`, transposed, re-transposed with the same axes,
transposed again and materialized. -/
theorem vector_never_moves_witness :
    ∃ t1, (exampleDense [1, 5] [0, 1, 2, 3, 4]).run
        [.T [1, 0], .T [1, 0], .T [], .Transpose, .T [0, 1]] = .ok t1 ∧
      t1.data = (exampleDense [1, 5] [0, 1, 2, 3, 4]).data ∧ t1.IsVector = true :=
  (vector_never_moves (exampleDense [1, 5] [0, 1, 2, 3, 4]) (by decide)
    (fun o h => Option.noConfusion h)).1 _

/-! ## Two successive transposes -/

/-- C17, the code at the failing input: a `2x3x4` array, `T(1,2,0)` then `T(0,2,1)`.  The
second call materializes the first transpose, but installs the access pattern it computed
before materializing: the reported strides `[4,12,1]` are not the `Q`-permutation `[8,1,2]`
of the stored row-major strides `[8,2,1]`, and `At(0,0,1)` returns the element `12` where the
array held `1` at the coordinate `a` with `a[P[Q[i]]] = c[i]`, that is `a = (0,0,1)`. -/
theorem T_after_materialize_stale_strides :
    ∃ r1 r2, (exampleDense [2, 3, 4] (List.range 24)).T [1, 2, 0] = .ok r1 ∧
      r1.t.T [0, 2, 1] = .ok r2 ∧ r2.err = none ∧ r2.transposes = 1 ∧
      r2.t.Shape = [3, 2, 4] ∧
      r2.t.old = some { shape := [3, 4, 2], strides := [8, 2, 1] } ∧
      r2.t.Strides = [4, 12, 1] ∧
      [0, 2, 1].map (fun a => [8, 2, 1].getD a 0) = [8, 1, 2] ∧
      r2.t.At [0, 0, 1] = .ok (some 12, none) ∧
      (exampleDense [2, 3, 4] (List.range 24)).At [0, 0, 1] = .ok (some 1, none) :=
  ⟨_, _, rfl, rfl, rfl, rfl, rfl, rfl, rfl, rfl, rfl, rfl⟩

/-- C18, the code at the failing input: a `2x2x2` array, `T(1,2,0)` twice.  The second request
has the target shape `[2,2,2]` of the pre-transpose array, so `T` cancels (`UT`, no
`Transpose`), although `Q = (1,2,0)` does not undo `P = (1,2,0)`: `P[Q[0]] = 2`.  The
restored view returns `1` at `(0,0,1)`, where applying `Q` to the pending view gives the
element `2` the array held at `(0,1,0)`. -/
theorem T_cancels_without_undo :
    ∃ r1 r2, (exampleDense [2, 2, 2] (List.range 8)).T [1, 2, 0] = .ok r1 ∧
      r1.t.IsVector = false ∧ r1.t.transposeWith = some [1, 2, 0] ∧
      r1.t.T [1, 2, 0] = .ok r2 ∧ r2.transposes = 0 ∧ r2.t = r1.t.UT ∧
      r2.t = exampleDense [2, 2, 2] (List.range 8) ∧
      [1, 2, 0].getD ([1, 2, 0].getD 0 0) 0 = 2 ∧
      r2.t.At [0, 0, 1] = .ok (some 1, none) ∧
      (exampleDense [2, 2, 2] (List.range 8)).At [0, 1, 0] = .ok (some 2, none) :=
  ⟨_, _, rfl, rfl, rfl, rfl, rfl, rfl, rfl, rfl, rfl, rfl⟩

/-! ## The logged loop -/

/-- Dropping the log gives the loop of `Transpose` back. -/
theorem transposeLoopLog_erase (dest : Nat → Option Nat) (zero : α) (size : Nat) :
    ∀ fuel i saved track data log,
      (transposeLoopLog dest zero size fuel i saved track data log).map Prod.fst =
        transposeLoop dest zero size fuel i saved track data := by
  intro fuel
  induction fuel with
  | zero => intro i saved track data log; rfl
  | succ fuel ih =>
    intro i saved track data log
    simp only [transposeLoopLog, transposeLoop]
    cases dest i with
    | none => rfl
    | some d =>
      simp only
      cases bmIsSet track i with
      | none => rfl
      | some bi =>
        simp only
        cases (if bi = true then bmIsSet track d else some false) with
        | none => rfl
        | some b =>
          cases b with
          | true =>
            simp only
            cases dataSet data i saved with
            | none => rfl
            | some data1 =>
              simp only
              split
              · rfl
              · exact ih _ _ _ _ _
          | false =>
            simp only
            cases bmSet track i with
            | none => rfl
            | some track1 =>
              cases dataGet data i with
              | none => rfl
              | some tmp =>
                simp only
                cases dataSet data i saved with
                | none => rfl
                | some data1 => exact ih _ _ _ _ _

/-- Whenever the logged loop returns, every logged index lies inside the bitmap. -/
theorem transposeLoopLog_lt (dest : Nat → Option Nat) (zero : α) (size n : Nat) :
    ∀ fuel i saved track data log r,
      transposeLoopLog dest zero size fuel i saved track data log = .ok r →
      track.length = n → (∀ x ∈ log, x < n ∨ x = i) → ∀ x ∈ r.2, x < n := by
  intro fuel
  induction fuel with
  | zero => intro i saved track data log r h; simp [transposeLoopLog] at h
  | succ fuel ih =>
    intro i saved track data log r h hl hlog
    simp only [transposeLoopLog] at h
    cases hd : dest i with
    | none => rw [hd] at h; simp at h
    | some d =>
      rw [hd] at h
      simp only at h
      cases hb : bmIsSet track i with
      | none => rw [hb] at h; simp at h
      | some bi =>
        rw [hb] at h
        simp only at h
        have hi : i < n := by
          simp only [bmIsSet] at hb
          by_contra hc
          rw [List.getElem?_eq_none (by omega)] at hb
          cases hb
        have hlog1 : ∀ x ∈ log, x < n := by
          intro x hx
          rcases hlog x hx with h1 | h1
          · exact h1
          · rw [h1]; exact hi
        cases bi with
        | true =>
          simp only [if_true] at h
          cases hbd : bmIsSet track d with
          | none => rw [hbd] at h; simp at h
          | some b =>
            have hdn : d < n := by
              simp only [bmIsSet] at hbd
              by_contra hc
              rw [List.getElem?_eq_none (by omega)] at hbd
              cases hbd
            have hlog2 : ∀ x ∈ log ++ [i, d], x < n := by
              intro x hx
              simp only [List.mem_append, List.mem_cons, List.mem_singleton,
                List.not_mem_nil, or_false] at hx
              rcases hx with h1 | h1 | h1
              · exact hlog1 x h1
              · rw [h1]; exact hi
              · rw [h1]; exact hdn
            rw [hbd] at h
            cases b with
            | true =>
              simp only at h
              cases hs : dataSet data i saved with
              | none => rw [hs] at h; simp at h
              | some data1 =>
                rw [hs] at h
                simp only at h
                split at h
                · simp only [Except.ok.injEq] at h
                  rw [← h]; exact hlog2
                · exact ih _ _ _ _ _ r h hl (fun x hx => Or.inl (hlog2 x hx))
            | false =>
              simp only at h
              cases hbs : bmSet track i with
              | none => rw [hbs] at h; simp at h
              | some track1 =>
                cases hg : dataGet data i with
                | none => rw [hbs, hg] at h; simp at h
                | some tmp =>
                  rw [hbs, hg] at h
                  simp only at h
                  cases hs : dataSet data i saved with
                  | none => rw [hs] at h; simp at h
                  | some data1 =>
                    rw [hs] at h
                    have hl1 : track1.length = n := by
                      simp only [bmSet] at hbs
                      split at hbs
                      · simp only [Option.some.injEq] at hbs
                        rw [← hbs]; simpa using hl
                      · cases hbs
                    exact ih _ _ _ _ _ r h hl1 (fun x hx => Or.inl (hlog2 x hx))
        | false =>
          simp only [Bool.false_eq_true, if_false] at h
          cases hbs : bmSet track i with
          | none => rw [hbs] at h; simp at h
          | some track1 =>
            cases hg : dataGet data i with
            | none => rw [hbs, hg] at h; simp at h
            | some tmp =>
              rw [hbs, hg] at h
              simp only at h
              cases hs : dataSet data i saved with
              | none => rw [hs] at h; simp at h
              | some data1 =>
                rw [hs] at h
                have hl1 : track1.length = n := by
                  simp only [bmSet] at hbs
                  split at hbs
                  · simp only [Option.some.injEq] at hbs
                    rw [← hbs]; simpa using hl
                  · cases hbs
                refine ih _ _ _ _ _ r h hl1 ?_
                intro x hx
                simp only [List.mem_append, List.mem_cons, List.mem_singleton,
                  List.not_mem_nil, or_false] at hx
                rcases hx with h1 | h1 | h1
                · exact Or.inl (hlog1 x h1)
                · exact Or.inl (by rw [h1]; exact hi)
                · exact Or.inr h1

/-! ## Totality of materialization -/

theorem pos_of_prod_pos : ∀ (S : List Nat), 0 < S.prod → ∀ d ∈ S, 0 < d
  | [], _, d, hd => by simp at hd
  | x :: rest, h, d, hd => by
    rw [List.prod_cons] at h
    have hx : 0 < x := Nat.pos_of_ne_zero (fun h0 => by rw [h0] at h; simp at h)
    have hr : 0 < rest.prod := Nat.pos_of_ne_zero (fun h0 => by rw [h0] at h; simp at h)
    rcases List.mem_cons.1 hd with h1 | h1
    · rw [h1]; exact hx
    · exact pos_of_prod_pos rest hr d h1

/-- C20: materialization is total over valid access patterns.  On a Pending array that is
neither a scalar nor a vector, whose pre-transpose AP is row-major over a buffer of
`n ≥ 1` elements and whose pending axes are a permutation, the cycle-following loop returns
within its `2n + 2` iterations without a panic; every index `i` and every destination it
passes to `Itol`, to the bitmap and to `data.Get`/`data.Set` is below `n`; `Itol` and
`transposeIndex` succeed on every index below `n`; the loop exits with `i ≥ n` and every
index marked; and `Transpose` returns. -/
theorem Transpose_total [Inhabited α] (t : Dense α) (o : AP) (P : List Nat)
    (hold : t.old = some o) (htw : t.transposeWith = some P)
    (hrm : o.strides = CalcStrides o.shape) (hlen : t.data.length = TotalSize o.shape)
    (hn : 1 ≤ t.data.length)
    (hP : isPermutation P o.shape.length = true)
    (hshape : t.Shape = P.map (fun a => o.shape.getD a 0))
    (hsc : t.IsScalar = false) (hvec : t.IsVector = false) :
    ∃ track ex log t1,
      initTrack t.data.length = some track ∧
      transposeLoopLog (fun i => t.transposeIndex i P (CalcStrides t.Shape)) default
        t.data.length (2 * t.data.length + 2) 1 none track t.data [] = .ok (ex, log) ∧
      transposeLoop (fun i => t.transposeIndex i P (CalcStrides t.Shape)) default
        t.data.length (2 * t.data.length + 2) 1 none track t.data = .ok ex ∧
      (∀ x ∈ log, x < t.data.length) ∧
      t.data.length ≤ ex.i ∧
      (∀ j, j < t.data.length → Settled ex.track j) ∧
      (∀ i, i < t.data.length →
        ∃ c d, Itol i t.oshape t.ostrides = some c ∧
          t.transposeIndex i P (CalcStrides t.Shape) = some d ∧ d < t.data.length) ∧
      t.Transpose = .ok t1 := by
  obtain ⟨S, st⟩ := o
  simp only at hrm hlen hP hshape
  subst hrm
  simp only [TotalSize] at hlen
  simp only [Dense.Shape] at hshape ⊢
  have hpos : ∀ d ∈ S, 0 < d := pos_of_prod_pos S (by omega)
  obtain ⟨dst, ex, hd1, hd2, -, hloop, hpost, hT⟩ :=
    Transpose_spec S P t hold htw hshape hP hpos hsc hvec hlen
  obtain ⟨-, -, hexit, hall, -⟩ := hpost
  have hn3 : 3 ≤ S.prod := by
    have h4 := four_le_prod_of_nonunit t.AP.shape
      (by rw [hshape]; exact pos_map_getD_perm S P hP hpos)
      (by
        simp only [Dense.IsScalar, Dense.IsVector, IsScalarShape, IsVectorShape] at hsc hvec
        have h0 : (List.filter (fun d => d != 1) t.AP.shape).length ≠ 0 := by
          intro h; rw [h] at hsc; simp at hsc
        have h1 : (List.filter (fun d => d != 1) t.AP.shape).length ≠ 1 := by
          intro h; rw [h] at hvec; simp at hvec
        omega)
    rw [hshape, prod_map_getD_perm S P hP] at h4
    omega
  have herase := transposeLoopLog_erase
    (fun i => t.transposeIndex i P (CalcStrides t.AP.shape)) (default : α) S.prod
    (2 * S.prod + 2) 1 none (((NewBitMap S.prod).set 0 true).set (S.prod - 1) true) t.data []
  rw [hloop] at herase
  cases hlog : transposeLoopLog (fun i => t.transposeIndex i P (CalcStrides t.AP.shape))
      (default : α) S.prod (2 * S.prod + 2) 1 none
      (((NewBitMap S.prod).set 0 true).set (S.prod - 1) true) t.data [] with
  | error f => rw [hlog] at herase; cases herase
  | ok r =>
    rw [hlog] at herase
    have hr1 : r.1 = ex := by
      simpa [Except.map] using herase
    have hlt := transposeLoopLog_lt _ (default : α) S.prod S.prod _ _ _ _ _ _ r hlog
      (by simp [NewBitMap]) (fun x hx => by simp at hx)
    refine ⟨_, ex, r.2, _, by rw [hlen]; exact initTrack_eq S.prod hn3, ?_, ?_, ?_, ?_, ?_, ?_,
      hT⟩
    · rw [hlen, hlog, ← hr1]
    · rw [hlen]; exact hloop
    · rw [hlen]; exact hlt
    · rw [hlen]; exact hexit
    · rw [hlen]; exact hall
    · intro i hi
      rw [hlen] at hi
      obtain ⟨c, hc, -, -, -⟩ := transposeIndex_eq S P (CalcStrides t.AP.shape) t hold hP
        (by rw [CalcStrides_length, hshape]; simp) i hi
      refine ⟨c, dst i, ?_, hd1 i hi, by rw [hlen]; exact hd2 i hi⟩
      simp only [Dense.oshape, Dense.ostrides, hold]
      exact hc

/-- C20, concrete check: the pending `2x3` array. -/
theorem Transpose_total_witness :
    ∃ track ex log t1,
      initTrack examplePending.data.length = some track ∧
      transposeLoopLog
        (fun i => examplePending.transposeIndex i [1, 0] (CalcStrides examplePending.Shape))
        default examplePending.data.length (2 * examplePending.data.length + 2) 1 none track
        examplePending.data [] = .ok (ex, log) ∧
      transposeLoop
        (fun i => examplePending.transposeIndex i [1, 0] (CalcStrides examplePending.Shape))
        default examplePending.data.length (2 * examplePending.data.length + 2) 1 none track
        examplePending.data = .ok ex ∧
      (∀ x ∈ log, x < examplePending.data.length) ∧
      examplePending.data.length ≤ ex.i ∧
      (∀ j, j < examplePending.data.length → Settled ex.track j) ∧
      (∀ i, i < examplePending.data.length →
        ∃ c d, Itol i examplePending.oshape examplePending.ostrides = some c ∧
          examplePending.transposeIndex i [1, 0] (CalcStrides examplePending.Shape) = some d ∧
          d < examplePending.data.length) ∧
      examplePending.Transpose = .ok t1 :=
  Transpose_total examplePending { shape := [2, 3], strides := [3, 1] } [1, 0] rfl rfl
    (by decide) (by decide) (by decide) (by decide) (by decide) (by decide) (by decide)

/-! ## The shape and the strides of a stack -/

theorem stackShapeLoop_after (axis : Nat) : ∀ (rest : List Nat) (i : Nat) (A Z : List Nat),
    axis < i → rest.length ≤ Z.length →
    stackShapeLoop axis rest i A.length (A ++ Z) = A ++ rest ++ Z.drop rest.length
  | [], _, A, Z, _, _ => by simp [stackShapeLoop]
  | s :: rest, i, A, Z, hi, hl => by
    cases Z with
    | nil => simp at hl
    | cons z Z =>
      have hne : i ≠ axis := by omega
      have h := stackShapeLoop_after axis rest (i + 1) (A ++ [s]) Z (by omega)
        (by simpa using hl)
      simp only [stackShapeLoop, if_neg hne]
      have hset : (A ++ z :: Z).set A.length s = (A ++ [s]) ++ Z := by
        simp [List.set_append]
      rw [hset]
      have hlen : A.length + 1 = (A ++ [s]).length := by simp
      rw [hlen, h]
      simp

theorem stackShapeLoop_before (axis : Nat) : ∀ (rest : List Nat) (i : Nat) (A Z1 Z2 : List Nat)
    (z : Nat), A.length = i → i + Z1.length = axis → Z1.length + Z2.length = rest.length →
    stackShapeLoop axis rest i i (A ++ Z1 ++ z :: Z2) =
      A ++ rest.take Z1.length ++ z :: rest.drop Z1.length
  | [], i, A, Z1, Z2, z, _, _, hl => by
    have hl0 : Z1.length + Z2.length = 0 := hl
    have h1 : Z1 = [] := List.length_eq_zero.1 (by omega)
    have h2 : Z2 = [] := List.length_eq_zero.1 (by omega)
    subst h1
    subst h2
    simp [stackShapeLoop]
  | s :: rest, i, A, Z1, Z2, z, hA, hi, hl => by
    cases Z1 with
    | nil =>
      have hax : i = axis := by simpa using hi
      cases Z2 with
      | nil => simp at hl
      | cons z2 Z2 =>
        simp only [stackShapeLoop, if_pos hax, List.append_nil]
        have hset : (A ++ z :: z2 :: Z2).set (i + 1) s = (A ++ [z, s]) ++ Z2 := by
          subst hA
          simp [List.set_append]
        rw [hset]
        have hlen : i + 1 + 1 = (A ++ [z, s]).length := by simp [hA]
        rw [hlen, stackShapeLoop_after axis rest (i + 1) (A ++ [z, s]) Z2 (by omega)
          (by simp at hl; omega)]
        have hd : Z2.drop rest.length = [] := by
          apply List.drop_eq_nil_of_le
          simp at hl; omega
        simp [hd]
    | cons z1 Z1 =>
      have hne : i ≠ axis := by simp at hi; omega
      simp only [stackShapeLoop, if_neg hne]
      have hset : (A ++ z1 :: Z1 ++ z :: Z2).set i s = (A ++ [s]) ++ Z1 ++ z :: Z2 := by
        subst hA
        simp [List.set_append]
      rw [hset]
      have h := stackShapeLoop_before axis rest (i + 1) (A ++ [s]) Z1 Z2 z (by simp [hA])
        (by simp at hi; omega) (by simp at hl; omega)
      rw [h]
      simp

/-- The shape built by `Stack` is the operand's shape with the count inserted at `axis`. -/
theorem stackShape_eq (S : List Nat) (axis k : Nat) (ha : axis ≤ S.length) :
    stackShape S axis k = S.take axis ++ k :: S.drop axis := by
  have hz : (List.replicate (S.length + 1) 0).set axis k =
      [] ++ List.replicate axis 0 ++ k :: List.replicate (S.length - axis) 0 := by
    apply List.ext_getElem?
    intro n
    rcases Nat.lt_trichotomy n axis with h | h | h
    · rw [List.getElem?_set_ne (by omega)]
      rw [List.nil_append, List.getElem?_append_left (by simpa using h)]
      simp [List.getElem?_replicate, h]
      omega
    · subst h
      rw [List.getElem?_set_self (by simp; omega)]
      rw [List.nil_append, List.getElem?_append_right (by simp)]
      simp
    · rw [List.getElem?_set_ne (by omega)]
      rw [List.nil_append, List.getElem?_append_right (by simp; omega)]
      simp only [List.length_replicate]
      obtain ⟨m, hm⟩ : ∃ m, n - axis = m + 1 := ⟨n - axis - 1, by omega⟩
      rw [hm]
      simp only [List.getElem?_cons_succ, List.getElem?_replicate]
      by_cases h1 : n < S.length + 1
      · rw [if_pos h1, if_pos (by omega)]
      · rw [if_neg h1, if_neg (by omega)]
  rw [stackShape, hz, stackShapeLoop_before axis S 0 [] (List.replicate axis 0)
    (List.replicate (S.length - axis) 0) k rfl (by simp) (by simp; omega)]
  simp

theorem CalcStrides_append (A B : List Nat) :
    CalcStrides (A ++ B) = (CalcStrides A).map (fun x => x * B.prod) ++ CalcStrides B := by
  induction A with
  | nil => simp [CalcStrides]
  | cons d A ih =>
    rw [List.cons_append, CalcStrides_cons, CalcStrides_cons, ih]
    simp

theorem dot_append : ∀ (c1 s1 c2 s2 : List Nat), c1.length = s1.length →
    dot (c1 ++ c2) (s1 ++ s2) = dot c1 s1 + dot c2 s2
  | [], [], _, _, _ => by simp [dot]
  | [], _ :: _, _, _, h => by simp at h
  | _ :: _, [], _, _, h => by simp at h
  | x :: c1, s :: s1, c2, s2, h => by
    have ih := dot_append c1 s1 c2 s2 (by simpa using h)
    show x * s + dot (c1 ++ c2) (s1 ++ s2) = x * s + dot c1 s1 + dot c2 s2
    rw [ih]
    omega

theorem dot_map_mul : ∀ (c s : List Nat) (k : Nat),
    dot c (s.map (fun x => x * k)) = dot c s * k
  | [], _, _ => by simp [dot]
  | _ :: _, [], _ => by simp [dot]
  | x :: c, s :: ss, k => by
    simp only [List.map_cons, dot]
    rw [dot_map_mul c ss k]
    ring

theorem getElem?_flatMap_uniform {β γ : Type} (f : β → List γ) (n : Nat) :
    ∀ (L : List β), (∀ x ∈ L, (f x).length = n) → ∀ q r, r < n →
      (L.flatMap f)[q * n + r]? = (L[q]?).bind (fun x => (f x)[r]?)
  | [], _, q, r, _ => by simp
  | x :: L, h, 0, r, hr => by
    have hx := h x (List.mem_cons_self _ _)
    simp only [List.flatMap_cons, Nat.zero_mul, Nat.zero_add]
    rw [List.getElem?_append_left (by omega)]
    simp
  | x :: L, h, q + 1, r, hr => by
    have hx := h x (List.mem_cons_self _ _)
    simp only [List.flatMap_cons]
    rw [List.getElem?_append_right (by rw [hx]; nlinarith)]
    have he : (q + 1) * n + r - (f x).length = q * n + r := by
      rw [hx, Nat.add_mul]; omega
    rw [he, getElem?_flatMap_uniform f n L (fun y hy => h y (List.mem_cons_of_mem _ hy)) q r hr]
    simp

/-! ## The loops of simpleStack -/

theorem copySlicedArray_append (done tail src : List α) (start n : Nat)
    (hn : n ≤ tail.length) (hs : start + n ≤ src.length) :
    copySlicedArray (done ++ tail) done.length (done ++ tail).length src start (start + n) =
      (done ++ (src.drop start).take n ++ tail.drop n, none) := by
  have hc : done.length ≤ (done ++ tail).length ∧ (done ++ tail).length ≤ (done ++ tail).length ∧
      start ≤ start + n ∧ start + n ≤ src.length := ⟨by simp, le_refl _, by omega, hs⟩
  have hmin : min ((done ++ tail).length - done.length) (start + n - start) = n := by
    simp only [List.length_append]
    omega
  simp only [copySlicedArray, if_pos hc, hmin]
  simp

theorem simpleStackInner_eq (axisStride start : Nat) :
    ∀ (others : List (Dense α)) (done tail : List α) (destStart : Nat),
      done.length = destStart + axisStride → others.length * axisStride ≤ tail.length →
      (∀ ot ∈ others, start + axisStride ≤ ot.data.length) →
      simpleStackInner axisStride start (start + axisStride) others destStart (done ++ tail) =
        .ok (destStart + others.length * axisStride,
          done ++ others.flatMap (fun ot => (ot.data.drop start).take axisStride) ++
            tail.drop (others.length * axisStride))
  | [], done, tail, destStart, _, _, _ => by simp [simpleStackInner]
  | ot :: rest, done, tail, destStart, hd, ht, ho => by
    have ht1 : axisStride ≤ tail.length := by
      simp only [List.length_cons, Nat.add_mul, Nat.one_mul] at ht; omega
    have hc := copySlicedArray_append done tail ot.data start axisStride ht1
      (ho ot (List.mem_cons_self _ _))
    rw [hd] at hc
    simp only [simpleStackInner, hc]
    have ht2 : rest.length * axisStride ≤ (tail.drop axisStride).length := by
      simp only [List.length_cons, Nat.add_mul, Nat.one_mul] at ht
      simp only [List.length_drop]; omega
    have ih := simpleStackInner_eq axisStride start rest
      (done ++ (ot.data.drop start).take axisStride) (tail.drop axisStride)
      (destStart + axisStride)
      (by simp only [List.length_append, List.length_take, List.length_drop, hd]
          have := ho ot (List.mem_cons_self _ _)
          omega)
      ht2 (fun o ho1 => ho o (List.mem_cons_of_mem _ ho1))
    rw [ih]
    simp only [List.length_cons, List.flatMap_cons, List.drop_drop, List.append_assoc]
    have e1 : destStart + axisStride + rest.length * axisStride =
        destStart + (rest.length + 1) * axisStride := by rw [Nat.add_mul]; omega
    have e2 : axisStride + rest.length * axisStride = (rest.length + 1) * axisStride := by
      rw [Nat.add_mul]; omega
    have e3 : rest.length * axisStride + axisStride = (rest.length + 1) * axisStride := by
      rw [Nat.add_mul]; omega
    simp only [e1, e2, e3]

theorem simpleStackLoop_eq (tdata : List α) (others : List (Dense α)) (axisStride outer : Nat)
    (ht : outer * axisStride ≤ tdata.length)
    (ho : ∀ ot ∈ others, outer * axisStride ≤ ot.data.length) :
    ∀ (m fuel o : Nat) (done tail : List α), o + m = outer → m ≤ fuel →
      done.length = o * ((others.length + 1) * axisStride) →
      tail.length = m * ((others.length + 1) * axisStride) →
      simpleStackLoop tdata others axisStride (outer * (others.length + 1)) fuel
        (o * (others.length + 1)) done.length (o * axisStride) (o * axisStride + axisStride)
        (done ++ tail) =
        .ok (done ++ stackLayout axisStride (tdata :: others.map (fun ot => ot.data)) m o)
  | 0, fuel, o, done, tail, hom, _, _, htl => by
    have ho1 : o = outer := by omega
    have ht0 : tail = [] := List.length_eq_zero.1 (by simpa using htl)
    subst ho1
    subst ht0
    cases fuel <;> simp [simpleStackLoop, stackLayout]
  | m + 1, 0, _, _, _, _, hf, _, _ => by omega
  | m + 1, fuel + 1, o, done, tail, hom, hf, hd, htl => by
    have hlt : o * (others.length + 1) < outer * (others.length + 1) := by
      apply Nat.mul_lt_mul_of_pos_right (by omega) (by omega)
    have hbnd : (o + 1) * axisStride ≤ outer * axisStride :=
      Nat.mul_le_mul_right _ (by omega)
    have hsum : (m + 1) * ((others.length + 1) * axisStride) =
        axisStride + others.length * axisStride + m * ((others.length + 1) * axisStride) := by
      ring
    have ht1 : axisStride ≤ tail.length := by rw [htl, hsum]; omega
    have hsrc : o * axisStride + axisStride ≤ tdata.length := by
      rw [Nat.add_mul, Nat.one_mul] at hbnd; omega
    have hc := copySlicedArray_append done tail tdata (o * axisStride) axisStride ht1 hsrc
    have hin := simpleStackInner_eq axisStride (o * axisStride) others
      (done ++ (tdata.drop (o * axisStride)).take axisStride) (tail.drop axisStride)
      done.length
      (by simp only [List.length_append, List.length_take, List.length_drop]; omega)
      (by simp only [List.length_drop]; rw [htl, hsum]; omega)
      (fun ot hot => by
        have := ho ot hot
        rw [Nat.add_mul, Nat.one_mul] at hbnd; omega)
    simp only [simpleStackLoop, if_pos hlt, hc, hin]
    have hnext : o * (others.length + 1) + others.length + 1 = (o + 1) * (others.length + 1) := by
      ring
    have hstart : o * axisStride + axisStride = (o + 1) * axisStride := by ring
    have hdone : done.length + others.length * axisStride + axisStride =
        (done ++ (tdata.drop (o * axisStride)).take axisStride ++
          others.flatMap (fun ot => (ot.data.drop (o * axisStride)).take axisStride)).length := by
      have hfl : ∀ (L : List (Dense α)), (∀ ot ∈ L, o * axisStride + axisStride ≤ ot.data.length) →
          (L.flatMap (fun ot => (ot.data.drop (o * axisStride)).take axisStride)).length =
            L.length * axisStride := by
        intro L
        induction L with
        | nil => simp
        | cons a L ih =>
          intro h
          have ha := h a (List.mem_cons_self _ _)
          simp only [List.flatMap_cons, List.length_append, List.length_take, List.length_drop,
            List.length_cons, ih (fun ot hot => h ot (List.mem_cons_of_mem _ hot))]
          rw [Nat.add_mul, Nat.one_mul]
          omega
      simp only [List.length_append, List.length_take, List.length_drop]
      rw [hfl others (fun ot hot => by
        have := ho ot hot
        rw [Nat.add_mul, Nat.one_mul] at hbnd; omega)]
      omega
    rw [hnext, hstart, hdone]
    have ih := simpleStackLoop_eq tdata others axisStride outer ht ho m fuel (o + 1)
      (done ++ (tdata.drop (o * axisStride)).take axisStride ++
          others.flatMap (fun ot => (ot.data.drop (o * axisStride)).take axisStride))
      ((tail.drop axisStride).drop (others.length * axisStride))
      (by omega) (by omega)
      (by rw [← hdone, hd]; ring)
      (by simp only [List.length_drop]; rw [htl, hsum]; omega)
    rw [ih]
    simp [stackLayout, List.flatMap_map]

theorem simpleStackZero_eq (n : Nat) : ∀ (others : List (Dense α)) (done tail : List α),
    (∀ ot ∈ others, ot.data.length = n) → tail.length = others.length * n →
    simpleStackZero others done.length (done ++ tail) =
      .ok (done ++ others.flatMap (fun ot => ot.data))
  | [], done, tail, _, htl => by
    have ht0 : tail = [] := List.length_eq_zero.1 (by simpa using htl)
    subst ht0
    simp [simpleStackZero]
  | ot :: rest, done, tail, ho, htl => by
    have hot := ho ot (List.mem_cons_self _ _)
    have htl1 : tail.length = n + rest.length * n := by
      rw [htl, List.length_cons, Nat.add_mul]; omega
    have hc := copySlicedArray_append done tail ot.data 0 ot.data.length (by omega) (by omega)
    simp only [Nat.zero_add, List.drop_zero, List.take_length] at hc
    simp only [simpleStackZero, hc]
    have hlen : done.length + ot.data.length = (done ++ ot.data).length := by simp
    rw [hlen, simpleStackZero_eq n rest (done ++ ot.data) (tail.drop ot.data.length)
      (fun o h => ho o (List.mem_cons_of_mem _ h)) (by simp only [List.length_drop]; omega)]
    simp

theorem stackLayout_one (n : Nat) (datas : List (List α)) (h : ∀ d ∈ datas, d.length = n) :
    stackLayout n datas 1 0 = datas.flatMap id := by
  simp only [stackLayout, Nat.zero_mul, List.drop_zero, List.append_nil]
  induction datas with
  | nil => rfl
  | cons d ds ih =>
    simp only [List.flatMap_cons, id]
    rw [ih (fun x hx => h x (List.mem_cons_of_mem _ hx))]
    have hd := h d (List.mem_cons_self _ _)
    rw [← hd, List.take_length]

theorem stackStrides_axis (S : List Nat) (axis k : Nat) (ha : axis ≤ S.length) :
    (CalcStrides (S.take axis ++ k :: S.drop axis))[axis]? = some (S.drop axis).prod := by
  rw [CalcStrides_append, CalcStrides_cons]
  rw [List.getElem?_append_right (by simp [CalcStrides_length])]
  simp [CalcStrides_length, Nat.min_eq_left ha]

theorem stackShape_prod (S : List Nat) (axis k : Nat) :
    (S.take axis ++ k :: S.drop axis).prod = (S.take axis).prod * (k * (S.drop axis).prod) := by
  simp

theorem take_drop_prod (S : List Nat) (axis : Nat) :
    (S.take axis).prod * (S.drop axis).prod = S.prod := by
  rw [← List.prod_append, List.take_append_drop]

/-- On operands whose buffers hold one element per element of the shape `S`, `simpleStack`
returns the block layout. -/
theorem simpleStack_eq [Inhabited α] (S : List Nat) (axis : Nat) (t : Dense α)
    (others : List (Dense α)) (hpos : ∀ d ∈ S, 0 < d) (ha : axis ≤ S.length)
    (ht : t.data.length = S.prod) (ho : ∀ ot ∈ others, ot.data.length = S.prod) :
    t.simpleStack axis
        { shape := stackShape S axis (others.length + 1),
          strides := CalcStrides (stackShape S axis (others.length + 1)) } others =
      .ok (stackLayout (S.drop axis).prod (t.data :: others.map (fun ot => ot.data))
        (S.take axis).prod 0) := by
  rw [stackShape_eq S axis _ ha]
  have hsize : (List.replicate ((S.take axis ++ (others.length + 1) :: S.drop axis).prod)
      (default : α)).length = (S.take axis).prod * ((others.length + 1) * (S.drop axis).prod) := by
    rw [List.length_replicate, stackShape_prod]
  cases axis with
  | zero =>
    simp only [Dense.simpleStack, makeArray, AP.Size, TotalSize]
    simp only [List.take_zero, List.drop_zero, List.nil_append, List.prod_nil, Nat.one_mul,
      List.prod_cons] at hsize ⊢
    have hcopy : copyArray (List.replicate ((others.length + 1) * S.prod) (default : α)) t.data =
        t.data ++ List.replicate (others.length * S.prod) default := by
      have hle : t.data.length ≤ (others.length + 1) * S.prod := by
        rw [ht, Nat.add_mul]; omega
      rw [copyArray, copyInto_eq]
      simp only [List.length_replicate, Nat.sub_zero, List.take_zero, List.nil_append,
        Nat.zero_add, Nat.min_eq_right hle, List.take_length, List.drop_replicate]
      rw [ht, Nat.add_mul, Nat.one_mul, Nat.add_sub_cancel]
    rw [hcopy, simpleStackZero_eq S.prod others t.data _ ho (by simp)]
    rw [stackLayout_one S.prod _ (by
      intro d hd
      rcases List.mem_cons.1 hd with h | h
      · rw [h, ht]
      · obtain ⟨ot, hot, rfl⟩ := List.mem_map.1 h
        exact ho ot hot)]
    simp [List.flatMap_map]
  | succ a =>
    have hst := stackStrides_axis S (a + 1) (others.length + 1) ha
    have hB : 0 < (S.drop (a + 1)).prod :=
      prod_pos_of_pos _ (fun d hd => hpos d (List.mem_of_mem_drop hd))
    have hdiv : (S.take (a + 1)).prod * ((others.length + 1) * (S.drop (a + 1)).prod) /
        (S.drop (a + 1)).prod = (S.take (a + 1)).prod * (others.length + 1) := by
      rw [← Nat.mul_assoc]
      exact Nat.mul_div_cancel _ hB
    simp only [Dense.simpleStack, makeArray, AP.Size, TotalSize, hst,
      if_neg (Nat.pos_iff_ne_zero.1 hB), hsize, hdiv]
    have h := simpleStackLoop_eq t.data others (S.drop (a + 1)).prod (S.take (a + 1)).prod
      (by rw [take_drop_prod, ht]) (fun ot hot => by rw [take_drop_prod, ho ot hot])
      (S.take (a + 1)).prod ((S.take (a + 1)).prod * (others.length + 1)) 0 []
      (List.replicate ((S.take (a + 1) ++ (others.length + 1) :: S.drop (a + 1)).prod) default)
      (by omega) (Nat.le_mul_of_pos_right _ (by omega)) (by simp) hsize
    simp only [Nat.zero_mul, List.length_nil, List.nil_append, Nat.zero_add] at h ⊢
    rw [h]

/-! ## The layout of a stack -/

theorem stackRow_length (axisStride o : Nat) : ∀ (datas : List (List α)),
    (∀ d ∈ datas, (o + 1) * axisStride ≤ d.length) →
    (datas.flatMap (fun d => (d.drop (o * axisStride)).take axisStride)).length =
      datas.length * axisStride
  | [], _ => by simp
  | d :: ds, h => by
    have hd := h d (List.mem_cons_self _ _)
    rw [Nat.add_mul, Nat.one_mul] at hd
    simp only [List.flatMap_cons, List.length_append, List.length_take, List.length_drop,
      List.length_cons, stackRow_length axisStride o ds
        (fun x hx => h x (List.mem_cons_of_mem _ hx))]
    rw [Nat.add_mul, Nat.one_mul]
    omega

/-- Block `x` of the layout holds, for operand `j`, the elements `(o + x) * axisStride ..` of
its buffer. -/
theorem stackLayout_get (axisStride outer : Nat) (datas : List (List α))
    (hlen : ∀ d ∈ datas, d.length = outer * axisStride) :
    ∀ (m o : Nat), o + m = outer → ∀ x j r, x < m → j < datas.length → r < axisStride →
      (stackLayout axisStride datas m o)[(x * datas.length + j) * axisStride + r]? =
        (datas[j]?).bind (fun d => d[(o + x) * axisStride + r]?)
  | 0, _, _, x, _, _, hx, _, _ => by omega
  | m + 1, o, hom, x, j, r, hx, hj, hr => by
    have hrow := stackRow_length axisStride o datas (fun d hd => by
      rw [hlen d hd]; exact Nat.mul_le_mul_right _ (by omega))
    simp only [stackLayout]
    cases x with
    | zero =>
      have hlt : j * axisStride + r < datas.length * axisStride := by
        calc j * axisStride + r < j * axisStride + axisStride := by omega
          _ = (j + 1) * axisStride := by ring
          _ ≤ datas.length * axisStride := Nat.mul_le_mul_right _ hj
      simp only [Nat.zero_mul, Nat.zero_add, Nat.add_zero]
      rw [List.getElem?_append_left (by rw [hrow]; exact hlt)]
      rw [getElem?_flatMap_uniform _ axisStride datas (fun d hd => by
        have := hlen d hd
        have h2 : (o + 1) * axisStride ≤ outer * axisStride :=
          Nat.mul_le_mul_right _ (by omega)
        rw [Nat.add_mul, Nat.one_mul] at h2
        simp only [List.length_take, List.length_drop]; omega) j r hr]
      congr 1
      funext d
      rw [List.getElem?_take_of_lt hr, List.getElem?_drop]
    | succ x =>
      have hge : datas.length * axisStride ≤
          ((x + 1) * datas.length + j) * axisStride + r := by
        have : datas.length * axisStride ≤ ((x + 1) * datas.length + j) * axisStride :=
          Nat.mul_le_mul_right _ (by rw [Nat.add_mul]; omega)
        omega
      rw [List.getElem?_append_right (by rw [hrow]; exact hge), hrow]
      have he : ((x + 1) * datas.length + j) * axisStride + r - datas.length * axisStride =
          (x * datas.length + j) * axisStride + r := by
        have : ((x + 1) * datas.length + j) * axisStride =
            datas.length * axisStride + (x * datas.length + j) * axisStride := by ring
        omega
      rw [he, stackLayout_get axisStride outer datas hlen m (o + 1) (by omega) x j r (by omega)
        hj hr]
      have e2 : o + 1 + x = o + (x + 1) := by omega
      rw [e2]

theorem InShape_length {c S : List Nat} (h : InShape c S) : c.length = S.length :=
  List.Forall₂.length_eq h

/-- Offsets of a coordinate and of the coordinate with `j` inserted at `axis`, in the shape
with `k` inserted at `axis`: outer part, operand index, inner part. -/
theorem stack_offsets (S c : List Nat) (axis j k : Nat) (hc : InShape c S) :
    ∃ q r, q < (S.take axis).prod ∧ r < (S.drop axis).prod ∧
      dot c (CalcStrides S) = q * (S.drop axis).prod + r ∧
      dot (c.take axis ++ j :: c.drop axis) (CalcStrides (S.take axis ++ k :: S.drop axis)) =
        (q * k + j) * (S.drop axis).prod + r := by
  have hA : InShape (c.take axis) (S.take axis) := List.forall₂_take axis hc
  have hB : InShape (c.drop axis) (S.drop axis) := List.forall₂_drop axis hc
  have hlA : (c.take axis).length = (CalcStrides (S.take axis)).length := by
    rw [CalcStrides_length]; exact InShape_length hA
  refine ⟨dot (c.take axis) (CalcStrides (S.take axis)),
    dot (c.drop axis) (CalcStrides (S.drop axis)), dot_lt_prod _ _ hA, dot_lt_prod _ _ hB, ?_, ?_⟩
  · have h1 : dot c (CalcStrides S) =
        dot (c.take axis ++ c.drop axis) (CalcStrides (S.take axis ++ S.drop axis)) := by
      rw [List.take_append_drop, List.take_append_drop]
    rw [h1, CalcStrides_append, dot_append _ _ _ _ (by simpa using hlA), dot_map_mul]
  · rw [CalcStrides_append, dot_append _ _ _ _ (by simpa using hlA), dot_map_mul,
      CalcStrides_cons]
    simp only [dot, List.prod_cons]
    ring

/-! ## Stack on contiguous operands -/

theorem allNoMat_of_not_view : ∀ (others : List (Dense α)),
    (∀ ot ∈ others, ot.viewOf = false) →
    others.foldl (fun acc ot => if acc && ot.IsMaterializable then false else acc) true = true
  | [], _ => rfl
  | ot :: rest, h => by
    have h1 := h ot (List.mem_cons_self _ _)
    simp only [List.foldl_cons, Dense.IsMaterializable, h1, Bool.and_false]
    exact allNoMat_of_not_view rest (fun o ho => h o (List.mem_cons_of_mem _ ho))

/-- On contiguous operands of one shape `Stack` takes the `simpleStack` path and returns the
block layout under the stacked shape. -/
theorem Stack_contiguous [Inhabited α] (S : List Nat) (axis : Nat) (t : Dense α)
    (others : List (Dense α)) (hpos : ∀ d ∈ S, 0 < d) (ha : axis ≤ S.length)
    (ht : t.Contiguous S) (ho : ∀ ot ∈ others, ot.Contiguous S) :
    t.Stack axis others =
      .ok { retVal := some
              { AP := { shape := S.take axis ++ (others.length + 1) :: S.drop axis,
                        strides := CalcStrides
                          (S.take axis ++ (others.length + 1) :: S.drop axis) },
                old := none, transposeWith := none,
                data := stackLayout (S.drop axis).prod
                  (t.data :: others.map (fun ot => ot.data)) (S.take axis).prod 0,
                viewOf := false },
            err := none } := by
  obtain ⟨hv, hs, _, hl⟩ := ht
  have hnm := allNoMat_of_not_view others (fun ot hot => (ho ot hot).1)
  have hss := simpleStack_eq S axis t others hpos ha hl (fun ot hot => (ho ot hot).2.2.2)
  have hge : ¬ axis ≥ t.Dims + 1 := by
    simp only [Dense.Dims, hs]; omega
  simp only [Dense.IsMaterializable] at hnm
  simp only [Dense.Stack, if_neg hge, Dense.IsMaterializable, hv, Bool.not_false, Dense.Shape,
    hs, hnm, if_true, hss]
  rw [stackShape_eq S axis _ ha]

/-- Reading a contiguous operand at a coordinate inside its shape. -/
theorem At_contiguous (t : Dense α) (S c : List Nat) (hs : t.AP.shape = S)
    (hst : t.AP.strides = CalcStrides S) (hc : InShape c S) :
    t.At c = match dataGet t.data (dot c (CalcStrides S)) with
      | none => .error .panicked
      | some v => .ok (some v, none) := by
  have hl : ¬ c.length ≠ t.Dims := by
    simp only [Dense.Dims, hs, InShape_length hc, ne_eq, not_true_eq_false, not_false_eq_true]
  have hl2 : ¬ c.length ≠ S.length := by simp [InShape_length hc]
  simp only [Dense.At, if_neg hl, Dense.at_, Ltoi, Dense.Shape, Dense.Strides, hs, hst,
    if_neg hl2]

/-- For contiguous (non-view) operands of one shape `S` with positive dimensions and
`axis ≤ rank`, `Stack` returns the array `simpleStack` builds, and the element at coordinate
`c` of operand number `j` (the receiver is number `0`) is the element at
`c[:axis] ++ [j] ++ c[axis:]` of the result. -/
theorem Stack_contiguous_at [Inhabited α] (S : List Nat) (axis : Nat) (t : Dense α)
    (others : List (Dense α)) (hpos : ∀ d ∈ S, 0 < d) (ha : axis ≤ S.length)
    (ht : t.Contiguous S) (ho : ∀ ot ∈ others, ot.Contiguous S) :
    ∃ r, t.Stack axis others = .ok { retVal := some r, err := none } ∧
      t.simpleStack axis r.AP others = .ok r.data ∧
      ∀ j op, (t :: others)[j]? = some op → ∀ c, InShape c S →
        ∃ v, op.At c = .ok (some v, none) ∧
          r.At (c.take axis ++ j :: c.drop axis) = .ok (some v, none) := by
  refine ⟨_, Stack_contiguous S axis t others hpos ha ht ho, ?_, ?_⟩
  · have h := simpleStack_eq S axis t others hpos ha ht.2.2.2 (fun ot hot => (ho ot hot).2.2.2)
    rw [stackShape_eq S axis _ ha] at h
    exact h
  · intro j op hj c hc
    have hop : op.Contiguous S := by
      cases j with
      | zero => simp at hj; rw [← hj]; exact ht
      | succ j =>
        simp at hj
        exact ho op (List.mem_iff_getElem?.2 ⟨_, hj⟩)
    obtain ⟨_, hs, hst, hl⟩ := hop
    obtain ⟨q, r, hq, hr, e1, e2⟩ := stack_offsets S c axis j (others.length + 1) hc
    have hlt : dot c (CalcStrides S) < op.data.length := by
      rw [hl]; exact dot_lt_prod c S hc
    have hget : dataGet op.data (dot c (CalcStrides S)) =
        some (op.data[dot c (CalcStrides S)]) := by
      simp [dataGet, List.getElem?_eq_getElem hlt]
    refine ⟨op.data[dot c (CalcStrides S)], ?_, ?_⟩
    · rw [At_contiguous op S c hs hst hc, hget]
    · have hjl : j < (t.data :: others.map (fun ot => ot.data)).length := by
        have := (List.getElem?_eq_some_iff.1 hj).1
        simpa using this
      have hdatas : ∀ d ∈ t.data :: others.map (fun ot => ot.data),
          d.length = (S.take axis).prod * (S.drop axis).prod := by
        intro d hd
        rw [take_drop_prod]
        rcases List.mem_cons.1 hd with h | h
        · rw [h]; exact ht.2.2.2
        · obtain ⟨ot, hot, rfl⟩ := List.mem_map.1 h
          exact (ho ot hot).2.2.2
      have hlay := stackLayout_get (S.drop axis).prod (S.take axis).prod
        (t.data :: others.map (fun ot => ot.data)) hdatas (S.take axis).prod 0 (by omega)
        q j r hq hjl hr
      have hdj : (t.data :: others.map (fun ot => ot.data))[j]? = some op.data := by
        have h2 : (t.data :: others.map (fun ot => ot.data)) =
            (t :: others).map (fun ot => ot.data) := by simp
        rw [h2, List.getElem?_map, hj]; rfl
      have hlen1 : (t.data :: others.map (fun ot => ot.data)).length = others.length + 1 := by
        simp
      rw [hdj, hlen1, Nat.zero_add, ← e1, ← e2] at hlay
      have hl3 : ¬ (c.take axis ++ j :: c.drop axis).length ≠ S.length + 1 := by
        have := InShape_length hc
        simp only [List.length_append, List.length_take, List.length_cons, List.length_drop]
        omega
      have hdims : (S.take axis ++ (others.length + 1) :: S.drop axis).length = S.length + 1 := by
        simp only [List.length_append, List.length_take, List.length_cons, List.length_drop]
        omega
      simp only [Dense.At, Dense.Dims, Dense.at_, Ltoi, Dense.Shape, Dense.Strides, hdims,
        if_neg hl3, dataGet, hlay]
      simp only [Option.some_bind, List.getElem?_eq_getElem hlt]

/-! ## The loops of viewStack -/

theorem Forall₂_exists_of_mem {β γ : Type} {R : β → γ → Prop} :
    ∀ {vs : List β} {cs : List γ}, List.Forall₂ R vs cs → ∀ {v : β}, v ∈ vs → ∃ c, R v c
  | _, _, List.Forall₂.nil, _, hv => by simp at hv
  | _, _, List.Forall₂.cons h hrest, v, hv => by
    rcases List.mem_cons.1 hv with e | e
    · exact ⟨_, e ▸ h⟩
    · exact Forall₂_exists_of_mem hrest e

theorem viewStackPull_closed (data : List α) (j : Nat) (acc : List α) :
    viewStackPull data j [] acc = some ([], acc) := by
  cases j <;> rfl

theorem viewStackPull_eq (data : List α) : ∀ (ids : List Nat) (vals acc : List α)
    (ch : List Nat), ids.map (dataGet data) = vals.map some →
    viewStackPull data ids.length (ids ++ ch) acc = some (ch, acc ++ vals)
  | [], vals, acc, ch, h => by
    have hv : vals = [] := by
      cases vals with
      | nil => rfl
      | cons _ _ => simp at h
    subst hv
    simp [viewStackPull]
  | id :: ids, vals, acc, ch, h => by
    cases vals with
    | nil => simp at h
    | cons v vals =>
      simp only [List.map_cons, List.cons.injEq] at h
      have ih := viewStackPull_eq data ids vals (acc ++ [v]) ch h.2
      simp only [List.length_cons, List.cons_append, viewStackPull, h.1]
      show viewStackPull data ids.length (ids ++ ch) (acc ++ [v]) = _
      rw [ih]
      simp

/-- One batch pulled from a channel that still holds batch `o`. -/
theorem viewStackPull_block (data : List α) (offs : List Nat) (c : List α)
    (axisStride outer o : Nat) (h : offs.map (dataGet data) = c.map some)
    (hlen : c.length = outer * axisStride) (ho : o < outer) (acc : List α) :
    viewStackPull data axisStride (offs.drop (o * axisStride)) acc =
      some (offs.drop ((o + 1) * axisStride),
        acc ++ (c.drop (o * axisStride)).take axisStride) := by
  have hol : offs.length = outer * axisStride := by
    have := congrArg List.length h
    simpa [hlen] using this
  have hb : (o + 1) * axisStride ≤ outer * axisStride := Nat.mul_le_mul_right _ ho
  rw [Nat.add_mul, Nat.one_mul] at hb
  have hsplit : offs.drop (o * axisStride) =
      (offs.drop (o * axisStride)).take axisStride ++ offs.drop ((o + 1) * axisStride) := by
    have hdd : offs.drop ((o + 1) * axisStride) =
        (offs.drop (o * axisStride)).drop axisStride := by
      rw [List.drop_drop]; congr 1; ring
    rw [hdd, List.take_append_drop]
  have hl : ((offs.drop (o * axisStride)).take axisStride).length = axisStride := by
    simp only [List.length_take, List.length_drop]; omega
  have hm : ((offs.drop (o * axisStride)).take axisStride).map (dataGet data) =
      ((c.drop (o * axisStride)).take axisStride).map some := by
    rw [List.map_take, List.map_drop, h, List.map_take, List.map_drop]
  have hp := viewStackPull_eq data _ _ acc (offs.drop ((o + 1) * axisStride)) hm
  rw [hl, ← hsplit] at hp
  exact hp

theorem viewStackInner_closed (axisStride : Nat) : ∀ (L : List (List α × List Nat))
    (acc : List α), (∀ p ∈ L, p.2 = []) → viewStackInner axisStride L acc = some (L, acc)
  | [], _, _ => rfl
  | (d, ch) :: rest, acc, h => by
    have h1 : ch = [] := h (d, ch) (List.mem_cons_self _ _)
    subst h1
    simp only [viewStackInner, viewStackPull_closed,
      viewStackInner_closed axisStride rest acc (fun p hp => h p (List.mem_cons_of_mem _ hp))]

theorem viewStackLoop_closed (tdata : List α) (axisStride : Nat) :
    ∀ (b : Nat) (L : List (List α × List Nat)) (acc : List α), (∀ p ∈ L, p.2 = []) →
      viewStackLoop tdata axisStride b [] L acc = some acc
  | 0, _, _, _ => rfl
  | b + 1, L, acc, h => by
    simp only [viewStackLoop, viewStackPull_closed, viewStackInner_closed axisStride L acc h,
      viewStackLoop_closed tdata axisStride b L acc h]

/-- The loop of `viewStack` over operands with their channels and the buffers of the
contiguous operands holding the same elements. -/
theorem viewStackInner_eq (axisStride outer o : Nat) (ho : o < outer) :
    ∀ (vs : List (List α × List Nat)) (cs : List (List α)) (acc : List α),
      List.Forall₂ (fun v c => v.2.map (dataGet v.1) = c.map some ∧
        c.length = outer * axisStride) vs cs →
      viewStackInner axisStride (vs.map (fun v => (v.1, v.2.drop (o * axisStride)))) acc =
        some (vs.map (fun v => (v.1, v.2.drop ((o + 1) * axisStride))),
          acc ++ cs.flatMap (fun d => (d.drop (o * axisStride)).take axisStride))
  | _, _, acc, List.Forall₂.nil => by simp [viewStackInner]
  | _, _, acc, @List.Forall₂.cons _ _ _ v c vs cs hv hrest => by
    have hp := viewStackPull_block v.1 v.2 c axisStride outer o hv.1 hv.2 ho acc
    have ih := viewStackInner_eq axisStride outer o ho vs cs
      (acc ++ (c.drop (o * axisStride)).take axisStride) hrest
    simp only [List.map_cons, viewStackInner, hp, ih, List.flatMap_cons, List.append_assoc]

theorem viewStackLoop_eq (tdata : List α) (toffs : List Nat) (tc : List α)
    (axisStride outer : Nat) (vs : List (List α × List Nat)) (cs : List (List α))
    (ht : toffs.map (dataGet tdata) = tc.map some) (htl : tc.length = outer * axisStride)
    (hvs : List.Forall₂ (fun v c => v.2.map (dataGet v.1) = c.map some ∧
        c.length = outer * axisStride) vs cs) :
    ∀ (m b o : Nat) (acc : List α), o + m = outer → m ≤ b →
      viewStackLoop tdata axisStride b (toffs.drop (o * axisStride))
        (vs.map (fun v => (v.1, v.2.drop (o * axisStride)))) acc =
        some (acc ++ stackLayout axisStride (tc :: cs) m o)
  | 0, b, o, acc, hom, _ => by
    have ho : o = outer := by omega
    subst ho
    have hol : toffs.length = o * axisStride := by
      have := congrArg List.length ht
      simpa [htl] using this
    have hcl : ∀ p ∈ vs.map (fun v => (v.1, v.2.drop (o * axisStride))), p.2 = [] := by
      intro p hp
      obtain ⟨v, hv, rfl⟩ := List.mem_map.1 hp
      obtain ⟨c, hvc⟩ := Forall₂_exists_of_mem hvs hv
      have : v.2.length = o * axisStride := by
        have := congrArg List.length hvc.1
        simpa [hvc.2] using this
      exact List.drop_eq_nil_of_le (by omega)
    rw [List.drop_eq_nil_of_le (by omega), viewStackLoop_closed tdata axisStride b _ acc hcl]
    simp [stackLayout]
  | m + 1, 0, _, _, _, hb => by omega
  | m + 1, b + 1, o, acc, hom, hb => by
    have ho : o < outer := by omega
    have hp := viewStackPull_block tdata toffs tc axisStride outer o ht htl ho acc
    have hin := viewStackInner_eq axisStride outer o ho vs cs
      (acc ++ (tc.drop (o * axisStride)).take axisStride) hvs
    have ih := viewStackLoop_eq tdata toffs tc axisStride outer vs cs ht htl hvs m b (o + 1)
      (acc ++ (tc.drop (o * axisStride)).take axisStride ++
        cs.flatMap (fun d => (d.drop (o * axisStride)).take axisStride)) (by omega) (by omega)
    simp only [viewStackLoop, hp, hin]
    rw [ih]
    simp [stackLayout]

/-! ## The flat iterator and viewStack -/

theorem flatOffsets_length : ∀ (S st : List Nat), (flatOffsets S st).length = S.prod
  | [], _ => by simp [flatOffsets]
  | d :: S, st => by
    have hrow : ∀ (L : List Nat), (L.flatMap (fun c =>
        (flatOffsets S st.tail).map (fun off => c * st.headD 0 + off))).length =
          L.length * S.prod := by
      intro L
      induction L with
      | nil => simp
      | cons a L ih =>
        simp only [List.flatMap_cons, List.length_append, List.length_map, ih,
          flatOffsets_length S st.tail, List.length_cons]
        ring
    simp only [flatOffsets, hrow, List.length_range, List.prod_cons]

theorem dot_cons_strides (x : Nat) (c st : List Nat) :
    dot (x :: c) st = x * st.headD 0 + dot c st.tail := by
  cases st with
  | nil => cases c <;> simp [dot]
  | cons s st => simp [dot]

/-- The iterator yields, at the row-major position of a coordinate, the offset of that
coordinate under the strides of the access pattern. -/
theorem flatOffsets_get : ∀ (S st c : List Nat), InShape c S →
    (flatOffsets S st)[dot c (CalcStrides S)]? = some (dot c st)
  | _, st, _, List.Forall₂.nil => by simp [flatOffsets, dot]
  | _, st, _, @List.Forall₂.cons _ _ _ x d c S hx hc => by
    have hlt := dot_lt_prod c S hc
    rw [CalcStrides_cons]
    simp only [flatOffsets, dot]
    rw [getElem?_flatMap_uniform _ S.prod (List.range d)
      (fun y _ => by simp [flatOffsets_length]) x _ hlt]
    rw [List.getElem?_range hx]
    simp only [Option.some_bind, List.getElem?_map, flatOffsets_get S st.tail c hc,
      Option.map_some']
    rw [dot_cons_strides]

/-- The values the iterator of an operand addresses are, in order, the buffer of the
contiguous operand that holds the same elements. -/
theorem flat_of_sameElements (v c : Dense α) (S : List Nat) (hs : v.SameElements c S)
    (hc : c.Contiguous S) :
    (NewFlatIterator v.AP).map (dataGet v.data) = c.data.map some := by
  obtain ⟨hvs, hel⟩ := hs
  obtain ⟨_, hcs, hcst, hcl⟩ := hc
  apply List.ext_getElem?
  intro i
  simp only [NewFlatIterator, hvs, List.getElem?_map]
  by_cases hi : i < S.prod
  · obtain ⟨coords, _, hin, hd⟩ := Itol_rowMajor S i hi
    obtain ⟨x, hv, hcx⟩ := hel coords hin
    have hl : ¬ coords.length ≠ S.length := by simp [InShape_length hin]
    rw [← hd, flatOffsets_get S v.AP.strides coords hin]
    rw [At_contiguous c S coords hcs hcst hin] at hcx
    simp only [Dense.At, Dense.Dims, Dense.at_, Ltoi, Dense.Shape, Dense.Strides, hvs,
      if_neg hl] at hv
    simp only [dataGet] at hv hcx ⊢
    cases hg : v.data[dot coords v.AP.strides]? with
    | none => rw [hg] at hv; cases hv
    | some y =>
      rw [hg] at hv
      cases hg2 : c.data[dot coords (CalcStrides S)]? with
      | none => rw [hg2] at hcx; cases hcx
      | some z =>
        rw [hg2] at hcx
        injection hv with hv
        injection hcx with hcx
        injection hv with hv
        injection hcx with hcx
        injection hv with hv
        injection hcx with hcx
        simp [dataGet, hg, hg2, hv, hcx]
  · have h1 : (flatOffsets S v.AP.strides)[i]? = none :=
      List.getElem?_eq_none (by rw [flatOffsets_length]; omega)
    have h2 : c.data[i]? = none := List.getElem?_eq_none (by rw [hcl]; simp [TotalSize]; omega)
    simp [h1, h2]

/-- A contiguous operand holds its own elements. -/
theorem SameElements_self (t : Dense α) (S : List Nat) (h : t.Contiguous S) :
    t.SameElements t S := by
  refine ⟨h.2.1, ?_⟩
  intro coords hin
  have hlt : dot coords (CalcStrides S) < t.data.length := by
    rw [h.2.2.2]; exact dot_lt_prod coords S hin
  refine ⟨t.data[dot coords (CalcStrides S)], ?_, ?_⟩ <;>
  · rw [At_contiguous t S coords h.2.1 h.2.2.1 hin]
    simp [dataGet, List.getElem?_eq_getElem hlt]

/-- On operands that hold the elements of contiguous operands of shape `S`, `viewStack`
returns the block layout of the contiguous buffers. -/
theorem viewStack_eq (S : List Nat) (axis : Nat) (tv tc : Dense α)
    (othersv othersc : List (Dense α)) (hpos : ∀ d ∈ S, 0 < d) (ha : axis ≤ S.length)
    (ht : tv.SameElements tc S) (htc : tc.Contiguous S)
    (ho : List.Forall₂ (fun v c => v.SameElements c S ∧ c.Contiguous S) othersv othersc) :
    tv.viewStack axis
        { shape := S.take axis ++ (othersc.length + 1) :: S.drop axis,
          strides := CalcStrides (S.take axis ++ (othersc.length + 1) :: S.drop axis) }
        othersv =
      .ok (stackLayout (S.drop axis).prod (tc.data :: othersc.map (fun ot => ot.data))
        (S.take axis).prod 0) := by
  have hst := stackStrides_axis S axis (othersc.length + 1) ha
  have hB : 0 < (S.drop axis).prod :=
    prod_pos_of_pos _ (fun d hd => hpos d (List.mem_of_mem_drop hd))
  have hdiv : (S.take axis).prod * ((othersc.length + 1) * (S.drop axis).prod) /
      (S.drop axis).prod = (S.take axis).prod * (othersc.length + 1) := by
    rw [← Nat.mul_assoc]
    exact Nat.mul_div_cancel _ hB
  have hvs : List.Forall₂ (fun (v : List α × List Nat) (c : List α) =>
      v.2.map (dataGet v.1) = c.map some ∧ c.length = (S.take axis).prod * (S.drop axis).prod)
      (othersv.map (fun ot => (ot.data, NewFlatIterator ot.AP)))
      (othersc.map (fun ot => ot.data)) := by
    rw [List.forall₂_map_left_iff, List.forall₂_map_right_iff]
    refine List.Forall₂.imp ?_ ho
    intro v c hvc
    exact ⟨flat_of_sameElements v c S hvc.1 hvc.2, by rw [take_drop_prod]; exact hvc.2.2.2.2⟩
  have h := viewStackLoop_eq tv.data (NewFlatIterator tv.AP) tc.data (S.drop axis).prod
    (S.take axis).prod _ _ (flat_of_sameElements tv tc S ht htc)
    (by rw [take_drop_prod]; exact htc.2.2.2) hvs (S.take axis).prod
    ((S.take axis).prod * (othersc.length + 1)) 0 [] (by omega)
    (Nat.le_mul_of_pos_right _ (by omega))
  simp only [Nat.zero_mul, List.drop_zero, List.nil_append, List.map_map] at h
  have hmap : (othersv.map ((fun (v : List α × List Nat) => (v.1, v.2)) ∘
      fun ot => (ot.data, NewFlatIterator ot.AP))) =
      othersv.map (fun ot => (ot.data, NewFlatIterator ot.AP)) := by
    apply List.map_congr_left
    intro a _
    rfl
  rw [hmap] at h
  simp only [Dense.viewStack, hst, if_neg (Nat.pos_iff_ne_zero.1 hB), AP.Size, TotalSize,
    stackShape_prod, hdiv, h]

/-! ## The two strategies of Stack -/

theorem allNoMat_false : ∀ (others : List (Dense α)),
    others.foldl (fun acc ot => if acc && ot.IsMaterializable then false else acc) false = false
  | [] => rfl
  | _ :: rest => by
    simp only [List.foldl_cons, Bool.false_and]
    exact allNoMat_false rest

theorem allNoMat_of_view : ∀ (others : List (Dense α)) (b : Bool),
    (∃ ot ∈ others, ot.viewOf = true) →
    others.foldl (fun acc ot => if acc && ot.IsMaterializable then false else acc) b = false
  | [], _, h => by
    obtain ⟨_, hot, _⟩ := h
    simp at hot
  | ot :: rest, b, h => by
    simp only [List.foldl_cons]
    by_cases hv : ot.viewOf = true
    · cases b
      · simp only [Bool.false_and]
        exact allNoMat_false rest
      · simp only [Dense.IsMaterializable, hv, Bool.and_self, if_true]
        exact allNoMat_false rest
    · obtain ⟨o, ho, hov⟩ := h
      rcases List.mem_cons.1 ho with e | e
      · rw [e] at hov; exact absurd hov hv
      · exact allNoMat_of_view rest _ ⟨o, e, hov⟩

theorem Forall₂_right_of_mem {β γ : Type} {R : β → γ → Prop} :
    ∀ {vs : List β} {cs : List γ}, List.Forall₂ R vs cs → ∀ {c : γ}, c ∈ cs → ∃ v, R v c
  | _, _, List.Forall₂.nil, _, hc => by simp at hc
  | _, _, List.Forall₂.cons h hrest, c, hc => by
    rcases List.mem_cons.1 hc with e | e
    · exact ⟨_, e ▸ h⟩
    · exact Forall₂_right_of_mem hrest e

/-- When the operands of `viewStack` hold, coordinate by coordinate, the elements of
contiguous operands of one shape `S` (positive dimensions, `axis ≤ rank`), `viewStack`
returns exactly the buffer `simpleStack` returns on the contiguous operands; so `Stack` on
operands of which one is a view returns what it returns on the contiguous ones. -/
theorem viewStack_of_sameElements [Inhabited α] (S : List Nat) (axis : Nat) (tv tc : Dense α)
    (othersv othersc : List (Dense α)) (hpos : ∀ d ∈ S, 0 < d) (ha : axis ≤ S.length)
    (ht : tv.SameElements tc S) (htc : tc.Contiguous S)
    (ho : List.Forall₂ (fun v c => v.SameElements c S ∧ c.Contiguous S) othersv othersc) :
    (∃ data,
      tv.viewStack axis
        { shape := S.take axis ++ (othersc.length + 1) :: S.drop axis,
          strides := CalcStrides (S.take axis ++ (othersc.length + 1) :: S.drop axis) }
        othersv = .ok data ∧
      tc.simpleStack axis
        { shape := S.take axis ++ (othersc.length + 1) :: S.drop axis,
          strides := CalcStrides (S.take axis ++ (othersc.length + 1) :: S.drop axis) }
        othersc = .ok data) ∧
    ((tv.viewOf = true ∨ ∃ ot ∈ othersv, ot.viewOf = true) →
      ∃ r, tv.Stack axis othersv = .ok { retVal := some r, err := none } ∧
        tc.Stack axis othersc = .ok { retVal := some r, err := none }) := by
  have hoc : ∀ ot ∈ othersc, ot.Contiguous S := by
    intro ot hot
    obtain ⟨v, hv⟩ := Forall₂_right_of_mem ho hot
    exact hv.2
  have hv := viewStack_eq S axis tv tc othersv othersc hpos ha ht htc ho
  have hs := simpleStack_eq S axis tc othersc hpos ha htc.2.2.2 (fun ot hot => (hoc ot hot).2.2.2)
  rw [stackShape_eq S axis _ ha] at hs
  refine ⟨⟨_, hv, hs⟩, ?_⟩
  intro hview
  refine ⟨_, ?_, Stack_contiguous S axis tc othersc hpos ha htc hoc⟩
  have hlen : othersv.length = othersc.length := List.Forall₂.length_eq ho
  have hge : ¬ axis ≥ tv.Dims + 1 := by
    simp only [Dense.Dims, ht.1]; omega
  have hnm : othersv.foldl
      (fun acc ot => if acc && ot.IsMaterializable then false else acc)
      (!tv.IsMaterializable) = false := by
    rcases hview with h | h
    · simp only [Dense.IsMaterializable, h, Bool.not_true]
      exact allNoMat_false othersv
    · exact allNoMat_of_view othersv _ h
  simp only [Dense.Stack, if_neg hge, hnm, Dense.Shape, ht.1, stackShape_eq S axis _ ha, hlen,
    Bool.false_eq_true, if_false, hv]

/-! ## Repeat -/

/-- Claim C14 fails on the code: a contiguous `2x3` array repeated along axis `0` with the
counts `[0, 1]` must give the shape `1x3` holding row `1` of the source (`3, 4, 5`); `Repeat`
returns that shape holding `1, 2, 3`, because the new shape is a vector and the source
stride is then taken as `1` instead of `3`.  The input of the spec's own example (shape
`1x3`, axis `0`, counts `[2]`) gives the row twice. -/
theorem Repeat_zero_count_wrong_row :
    (∃ r, (exampleDense [2, 3] [0, 1, 2, 3, 4, 5]).Repeat 0 [0, 1] =
        .ok { retVal := some r, err := none } ∧
      ShapeRepeat [2, 3] 0 [0, 1] = .ok ([1, 3], [0, 1], 2) ∧
      r.Shape = [1, 3] ∧ r.data = [1, 2, 3] ∧
      r.At [0, 0] = .ok (some 1, none) ∧
      (exampleDense [2, 3] [0, 1, 2, 3, 4, 5]).At [1, 0] = .ok (some 3, none) ∧
      r.At [0, 0] ≠ (exampleDense [2, 3] [0, 1, 2, 3, 4, 5]).At [1, 0]) ∧
    (∃ r, (exampleDense [1, 3] [7, 8, 9]).Repeat 0 [2] =
        .ok { retVal := some r, err := none } ∧
      r.Shape = [2, 3] ∧ r.data = [7, 8, 9, 7, 8, 9]) := by
  refine ⟨⟨_, rfl, rfl, rfl, rfl, rfl, rfl, ?_⟩, ⟨_, rfl, rfl, rfl⟩⟩
  intro h
  have h2 : (exampleDense [2, 3] [0, 1, 2, 3, 4, 5]).At [1, 0] = .ok (some 3, none) := rfl
  rw [h2] at h
  injection h with h
  injection h with h
  injection h with h
  exact absurd h (by decide)

/-! ## The slice of Concat -/

theorem sliceLoop_full : ∀ (N R : List Nat) (slices : List (Option RS)) (a b : Nat),
    (∀ d ∈ N, 0 < d) → R.length = N.length → (∀ x ∈ slices, x = none) →
    sliceLoop N R slices a b = .ok (N, R, a, b)
  | [], R, _, a, b, _, hR, _ => by
    have : R = [] := List.length_eq_zero.1 hR
    subst this
    rfl
  | d :: N, [], _, _, _, _, hR, _ => by simp at hR
  | d :: N, st :: R, slices, a, b, hpos, hR, hs => by
    have hd : 0 < d := hpos d (List.mem_cons_self _ _)
    have hrs : (match slices.head? with
        | some (some rs) => rs
        | _ => makeRS 0 d) = makeRS 0 d := by
      cases slices with
      | nil => rfl
      | cons x xs =>
        have := hs x (List.mem_cons_self _ _)
        subst this
        rfl
    have hc : ¬ (d ≤ (makeRS 0 d).start ∨ (makeRS 0 d).stop < (makeRS 0 d).start ∨
        d < (makeRS 0 d).stop) := by
      simp only [makeRS]; omega
    have ih := sliceLoop_full N R slices.tail (a + (makeRS 0 d).start * st)
      (b - (d - (makeRS 0 d).stop) * st) (fun x hx => hpos x (List.mem_cons_of_mem _ hx))
      (by simpa using hR) (fun x hx => hs x (List.mem_of_mem_tail hx))
    simp only [sliceLoop, hrs, if_neg hc, List.headD_cons, List.tail_cons, ih]
    simp [makeRS]

/-- The slice list of `Concat`, `axis` nil slices and the range `[s, e)`, narrows axis `axis`
and moves the physical range by the stride of that axis. -/
theorem sliceLoop_axis : ∀ (axis : Nat) (N R : List Nat) (s e a b : Nat),
    (∀ d ∈ N, 0 < d) → R.length = N.length → axis < N.length →
    s < N.getD axis 0 → s ≤ e → e ≤ N.getD axis 0 →
    sliceLoop N R ((List.replicate (axis + 1) none).set axis (some (makeRS s e))) a b =
      .ok (N.set axis (e - s), R, a + s * R.getD axis 0,
        b - (N.getD axis 0 - e) * R.getD axis 0)
  | _, [], _, _, _, _, _, _, _, hax, _, _, _ => by simp at hax
  | _, d :: N, [], _, _, _, _, _, hR, _, _, _, _ => by simp at hR
  | 0, d :: N, st :: R, s, e, a, b, hpos, hR, _, hs, hse, he => by
    simp only [List.getD_cons_zero] at hs he
    have hc : ¬ (d ≤ (makeRS s e).start ∨ (makeRS s e).stop < (makeRS s e).start ∨
        d < (makeRS s e).stop) := by
      simp only [makeRS]; omega
    have ih := sliceLoop_full N R [] (a + s * st) (b - (d - e) * st)
      (fun x hx => hpos x (List.mem_cons_of_mem _ hx)) (by simpa using hR)
      (fun x hx => by simp at hx)
    simp only [makeRS] at hc
    simp only [sliceLoop, Nat.zero_add, List.replicate_one, List.set_cons_zero, List.head?_cons,
      makeRS, if_neg hc, List.headD_cons, List.tail_cons, ih, List.getD_cons_zero]
  | axis + 1, d :: N, st :: R, s, e, a, b, hpos, hR, hax, hs, hse, he => by
    simp only [List.getD_cons_succ] at hs he
    have hd : 0 < d := hpos d (List.mem_cons_self _ _)
    have hc : ¬ (d ≤ (makeRS 0 d).start ∨ (makeRS 0 d).stop < (makeRS 0 d).start ∨
        d < (makeRS 0 d).stop) := by
      simp only [makeRS]; omega
    have ih := sliceLoop_axis axis N R s e (a + 0 * st) (b - (d - d) * st)
      (fun x hx => hpos x (List.mem_cons_of_mem _ hx)) (by simpa using hR)
      (by simpa using hax) hs hse he
    simp only [makeRS] at hc
    have hrep : (List.replicate (axis + 1 + 1) (none : Option RS)).set (axis + 1)
        (some (makeRS s e)) =
        none :: (List.replicate (axis + 1) none).set axis (some (makeRS s e)) := by
      rw [List.replicate_succ, List.set_cons_succ]
    rw [hrep]
    simp only [sliceLoop, List.head?_cons, makeRS, if_neg hc, List.headD_cons, List.tail_cons]
    simp only [makeRS] at ih
    rw [ih]
    simp

/-! ## The stores of assignArray and shifted coordinates -/

/-- The stores of `assignArray` with pairwise different destination offsets inside the
buffer and readable source offsets: every pair is stored, everything else stays. -/
theorem assignLoop_spec (src : List α) : ∀ (pairs : List (Nat × Nat)) (d : List α),
    (∀ p ∈ pairs, p.1 < d.length) → (∀ p ∈ pairs, p.2 < src.length) →
    (pairs.map Prod.fst).Nodup →
    ∃ d1, assignLoop src pairs d = some d1 ∧ d1.length = d.length ∧
      (∀ p ∈ pairs, d1[p.1]? = src[p.2]?) ∧
      (∀ x, x ∉ pairs.map Prod.fst → d1[x]? = d[x]?)
  | [], d, _, _, _ => ⟨d, rfl, rfl, by simp, fun _ _ => rfl⟩
  | (doff, soff) :: rest, d, hd, hs, hn => by
    have hdo : doff < d.length := hd (doff, soff) (List.mem_cons_self _ _)
    have hso : soff < src.length := hs (doff, soff) (List.mem_cons_self _ _)
    simp only [List.map_cons, List.nodup_cons] at hn
    obtain ⟨d1, h1, hl1, hp1, hx1⟩ := assignLoop_spec src rest (d.set doff src[soff])
      (fun p hp => by
        rw [List.length_set]; exact hd p (List.mem_cons_of_mem _ hp))
      (fun p hp => hs p (List.mem_cons_of_mem _ hp)) hn.2
    refine ⟨d1, ?_, ?_, ?_, ?_⟩
    · simp only [assignLoop, dataGet, List.getElem?_eq_getElem hso, dataSet, if_pos hdo, h1]
    · rw [hl1, List.length_set]
    · intro p hp
      rcases List.mem_cons.1 hp with e | e
      · subst e
        rw [hx1 doff hn.1, List.getElem?_set_self hdo, List.getElem?_eq_getElem hso]
      · exact hp1 p e
    · intro x hx
      simp only [List.map_cons, List.mem_cons, not_or] at hx
      rw [hx1 x hx.2, List.getElem?_set_ne (Ne.symm hx.1)]

theorem dot_set_add : ∀ (axis : Nat) (c R : List Nat) (s : Nat), axis < c.length →
    c.length = R.length →
    dot (c.set axis (c.getD axis 0 + s)) R = dot c R + s * R.getD axis 0
  | _, [], _, _, h, _ => by simp at h
  | _, _ :: _, [], _, _, h => by simp at h
  | 0, x :: c, r :: R, s, _, _ => by
    simp only [List.set_cons_zero, dot, List.getD_cons_zero]
    ring
  | axis + 1, x :: c, r :: R, s, h, hl => by
    have ih := dot_set_add axis c R s (by simpa using h) (by simpa using hl)
    simp only [List.getD_cons_succ, List.set_cons_succ, dot, ih]
    ring

theorem InShape_set : ∀ (axis : Nat) (c N : List Nat) (x n : Nat), InShape c N → x < n →
    InShape (c.set axis x) (N.set axis n)
  | _, _, _, _, _, List.Forall₂.nil, _ => List.Forall₂.nil
  | 0, _, _, _, _, List.Forall₂.cons _ h, hx => List.Forall₂.cons hx h
  | axis + 1, _, _, x, n, List.Forall₂.cons h0 h, hx =>
    List.Forall₂.cons h0 (InShape_set axis _ _ x n h hx)

theorem InShape_getD {c N : List Nat} (h : InShape c N) (axis : Nat) (ha : axis < N.length) :
    c.getD axis 0 < N.getD axis 0 := Forall₂_getD_lt c N h axis ha

theorem set_getD_self : ∀ (axis : Nat) (c : List Nat), c.set axis (c.getD axis 0) = c
  | _, [] => by simp
  | 0, x :: c => by simp
  | axis + 1, x :: c => by
    simp only [List.getD_cons_succ, List.set_cons_succ, set_getD_self axis c]

theorem getD_set_self : ∀ (axis : Nat) (c : List Nat) (x : Nat), axis < c.length →
    (c.set axis x).getD axis 0 = x
  | _, [], _, h => by simp at h
  | 0, _ :: _, _, _ => by simp
  | axis + 1, _ :: c, x, h => by
    simp only [List.set_cons_succ, List.getD_cons_succ]
    exact getD_set_self axis c x (by simpa using h)

/-- Coordinates inside a shape are determined by their row-major offset. -/
theorem dot_injective (N c1 c2 : List Nat) (h1 : InShape c1 N) (h2 : InShape c2 N)
    (h : dot c1 (CalcStrides N) = dot c2 (CalcStrides N)) : c1 = c2 := by
  have e1 := Itol_dot c1 N h1
  have e2 := Itol_dot c2 N h2
  rw [h, e2] at e1
  injection e1 with e1
  exact e1.symm

theorem CalcStrides_getD (N : List Nat) (axis : Nat) (ha : axis < N.length) :
    (CalcStrides N).getD axis 0 = (N.drop (axis + 1)).prod := by
  induction N generalizing axis with
  | nil => simp at ha
  | cons d N ih =>
    rw [CalcStrides_cons]
    cases axis with
    | zero => simp
    | succ a =>
      simp only [List.getD_cons_succ, List.drop_succ_cons]
      exact ih a (by simpa using ha)

theorem prod_split_axis (N : List Nat) (axis : Nat) (ha : axis < N.length) :
    N.prod = (N.take axis).prod * (N.getD axis 0 * (N.drop (axis + 1)).prod) := by
  induction N generalizing axis with
  | nil => simp at ha
  | cons d N ih =>
    cases axis with
    | zero => simp
    | succ a =>
      simp only [List.take_succ_cons, List.prod_cons, List.getD_cons_succ, List.drop_succ_cons]
      rw [ih a (by simpa using ha)]
      ring

theorem InShape_set_le : ∀ (axis : Nat) (c N : List Nat) (n m : Nat),
    InShape c (N.set axis n) → n ≤ m → InShape c (N.set axis m)
  | _, c, [], _, _, h, _ => by simpa using h
  | 0, c, d :: N, n, m, h, hnm => by
    simp only [List.set_cons_zero] at h ⊢
    cases h with
    | cons hx hrest => exact List.Forall₂.cons (Nat.lt_of_lt_of_le hx hnm) hrest
  | axis + 1, c, d :: N, n, m, h, hnm => by
    simp only [List.set_cons_succ] at h ⊢
    cases h with
    | cons hx hrest => exact List.Forall₂.cons hx (InShape_set_le axis _ N n m hrest hnm)

theorem InShape_of_set (axis : Nat) (c N : List Nat) (n : Nat) (h : InShape c (N.set axis n))
    (hn : n ≤ N.getD axis 0) : InShape c N := by
  have := InShape_set_le axis c N n (N.getD axis 0) h hn
  rwa [set_getD_self] at this

/-- Every offset the iterator yields is the offset of a coordinate inside the shape. -/
theorem flatOffsets_index (S st : List Nat) (i : Nat) (hi : i < S.prod) :
    ∃ c, InShape c S ∧ dot c (CalcStrides S) = i ∧ (flatOffsets S st)[i]? = some (dot c st) := by
  obtain ⟨c, _, hin, hd⟩ := Itol_rowMajor S i hi
  refine ⟨c, hin, hd, ?_⟩
  rw [← hd]
  exact flatOffsets_get S st c hin

theorem mem_flatOffsets (S st : List Nat) (x : Nat) (h : x ∈ flatOffsets S st) :
    ∃ c, InShape c S ∧ x = dot c st := by
  obtain ⟨i, hi⟩ := List.mem_iff_getElem?.1 h
  have hlt : i < S.prod := by
    have := (List.getElem?_eq_some_iff.1 hi).1
    rwa [flatOffsets_length] at this
  obtain ⟨c, hin, _, hc⟩ := flatOffsets_index S st i hlt
  rw [hc] at hi
  injection hi with hi
  exact ⟨c, hin, hi.symm⟩

theorem mem_zip_flatOffsets (S st1 st2 : List Nat) (p : Nat × Nat)
    (h : p ∈ (flatOffsets S st1).zip (flatOffsets S st2)) :
    ∃ c, InShape c S ∧ p = (dot c st1, dot c st2) := by
  obtain ⟨i, hi⟩ := List.mem_iff_getElem?.1 h
  rw [List.getElem?_zip_eq_some] at hi
  have hlt : i < S.prod := by
    have := (List.getElem?_eq_some_iff.1 hi.1).1
    rwa [flatOffsets_length] at this
  obtain ⟨c, hin, hd, hc⟩ := flatOffsets_index S st1 i hlt
  have hc2 := flatOffsets_get S st2 c hin
  rw [hd] at hc2
  rw [hc] at hi
  rw [hc2] at hi
  obtain ⟨h1, h2⟩ := hi
  injection h1 with h1
  injection h2 with h2
  exact ⟨c, hin, Prod.ext h1.symm h2.symm⟩

theorem zip_flatOffsets_mem (S st1 st2 c : List Nat) (hin : InShape c S) :
    (dot c st1, dot c st2) ∈ (flatOffsets S st1).zip (flatOffsets S st2) := by
  apply List.mem_iff_getElem?.2
  refine ⟨dot c (CalcStrides S), ?_⟩
  rw [List.getElem?_zip_eq_some]
  exact ⟨flatOffsets_get S st1 c hin, flatOffsets_get S st2 c hin⟩

theorem flatOffsets_nodup (S st : List Nat)
    (hinj : ∀ c1 c2, InShape c1 S → InShape c2 S → dot c1 st = dot c2 st → c1 = c2) :
    (flatOffsets S st).Nodup := by
  rw [List.nodup_iff_getElem?_ne_getElem?]
  intro i j hij hj heq
  rw [flatOffsets_length] at hj
  obtain ⟨c1, h1, hd1, e1⟩ := flatOffsets_index S st i (by omega)
  obtain ⟨c2, h2, hd2, e2⟩ := flatOffsets_index S st j hj
  rw [e1, e2] at heq
  injection heq with heq
  have := hinj c1 c2 h1 h2 heq
  subst this
  omega

theorem copyInto_length {β : Type} (d v : List β) (off : Nat) (h : off + v.length ≤ d.length) :
    (copyInto d off v).length = d.length := by
  rw [copyInto_eq]
  have hm : min (d.length - off) v.length = v.length := by omega
  simp only [hm, List.length_append, List.length_take, List.length_drop]
  omega

theorem copyInto_get_inside {β : Type} (d v : List β) (off x : Nat)
    (h : off + v.length ≤ d.length) (hx : x < v.length) :
    (copyInto d off v)[off + x]? = v[x]? := by
  rw [copyInto_eq]
  have hm : min (d.length - off) v.length = v.length := by omega
  rw [hm, List.take_length, List.append_assoc]
  rw [List.getElem?_append_right (by simp only [List.length_take]; omega)]
  have ho : off + x - (d.take off).length = x := by
    simp only [List.length_take]; omega
  rw [ho, List.getElem?_append_left hx]

theorem copyInto_get_outside {β : Type} (d v : List β) (off p : Nat)
    (h : off + v.length ≤ d.length) (hp : p < off ∨ off + v.length ≤ p) :
    (copyInto d off v)[p]? = d[p]? := by
  rw [copyInto_eq]
  have hm : min (d.length - off) v.length = v.length := by omega
  rw [hm, List.take_length, List.append_assoc]
  rcases hp with hp | hp
  · rw [List.getElem?_append_left (by simp only [List.length_take]; omega)]
    rw [List.getElem?_take_of_lt hp]
  · rw [List.getElem?_append_right (by simp only [List.length_take]; omega)]
    rw [List.getElem?_append_right (by simp only [List.length_take]; omega)]
    rw [List.getElem?_drop]
    congr 1
    simp only [List.length_take]
    omega

/-! ## One operand of Concat -/

/-- Reading at a coordinate inside the shape goes to the offset of the coordinate. -/
theorem At_of_inShape (t : Dense α) (c : List Nat) (hc : InShape c t.AP.shape) :
    t.At c = match dataGet t.data (dot c t.AP.strides) with
      | none => .error .panicked
      | some v => .ok (some v, none) := by
  have hl : ¬ c.length ≠ t.Dims := by
    simp only [Dense.Dims, InShape_length hc, ne_eq, not_true_eq_false, not_false_eq_true]
  have hl2 : ¬ c.length ≠ t.AP.shape.length := by simp [InShape_length hc]
  simp only [Dense.At, if_neg hl, Dense.at_, Ltoi, Dense.Shape, Dense.Strides, if_neg hl2]

theorem Readable_get (t : Dense α) (h : t.Readable) (c : List Nat)
    (hc : InShape c t.AP.shape) :
    ∃ v, t.data[dot c t.AP.strides]? = some v ∧ t.At c = .ok (some v, none) := by
  obtain ⟨v, hv⟩ := h c hc
  have h1 := At_of_inShape t c hc
  rw [hv] at h1
  simp only [dataGet] at h1
  cases hg : t.data[dot c t.AP.strides]? with
  | none => rw [hg] at h1; cases h1
  | some x =>
    rw [hg] at h1
    injection h1 with h1
    injection h1 with h1
    injection h1 with h1
    subst h1
    exact ⟨v, rfl, hv⟩

/-- Shifting the coordinate of `axis` inside the narrowed shape by `k` stays inside the full
shape and moves the offset by `k` strides. -/
theorem shift_inShape (N c : List Nat) (axis n k : Nat) (hax : axis < N.length)
    (hc : InShape c (N.set axis n)) (hk : n + k ≤ N.getD axis 0) :
    InShape (c.set axis (c.getD axis 0 + k)) N ∧
      dot (c.set axis (c.getD axis 0 + k)) (CalcStrides N) =
        dot c (CalcStrides N) + k * (CalcStrides N).getD axis 0 ∧
      (c.set axis (c.getD axis 0 + k)).getD axis 0 = c.getD axis 0 + k ∧
      c.getD axis 0 < n := by
  have hcl : c.length = N.length := by
    have := InShape_length hc
    simpa using this
  have hcn : c.getD axis 0 < n := by
    have := InShape_getD hc axis (by simpa using hax)
    rwa [getD_set_self axis N n hax] at this
  have hcN : InShape c N := InShape_of_set axis c N n hc (by omega)
  have h1 := InShape_set axis c N (c.getD axis 0 + k) (N.getD axis 0) hcN (by omega)
  rw [set_getD_self] at h1
  refine ⟨h1, ?_, getD_set_self axis c _ (by omega), hcn⟩
  exact dot_set_add axis c (CalcStrides N) k (by omega) (by rw [CalcStrides_length, hcl])

/-- The view `Concat` takes of the destination for the range `[s, s + n)` of `axis`. -/
theorem Slice_concat (N : List Nat) (axis s n : Nat) (r : Dense α)
    (hpos : ∀ d ∈ N, 0 < d) (hax : axis < N.length)
    (hr : r.AP = { shape := N, strides := CalcStrides N }) (hlen : r.data.length = N.prod)
    (hn : 0 < n) (hsn : s + n ≤ N.getD axis 0) :
    s * (CalcStrides N).getD axis 0 + (N.getD axis 0 - (s + n)) * (CalcStrides N).getD axis 0 ≤
      N.prod ∧
    r.Slice ((List.replicate (axis + 1) none).set axis (some (makeRS s (s + n)))) =
      .ok { view := some
              { AP := { shape := N.set axis n, strides := CalcStrides N }, old := none,
                transposeWith := none,
                data := (r.data.drop (s * (CalcStrides N).getD axis 0)).take
                  (N.prod - (N.getD axis 0 - (s + n)) * (CalcStrides N).getD axis 0 -
                    s * (CalcStrides N).getD axis 0),
                viewOf := true },
            err := none, start := s * (CalcStrides N).getD axis 0 } := by
  have hB := CalcStrides_getD N axis hax
  have hsplit := prod_split_axis N axis hax
  have hA : 0 < (N.take axis).prod :=
    prod_pos_of_pos _ (fun d hd => hpos d (List.mem_of_mem_take hd))
  have hle : N.getD axis 0 * (CalcStrides N).getD axis 0 ≤ N.prod := by
    rw [hsplit, hB]
    exact Nat.le_mul_of_pos_left _ hA
  have hsum : s * (CalcStrides N).getD axis 0 +
      (N.getD axis 0 - (s + n)) * (CalcStrides N).getD axis 0 ≤
      N.getD axis 0 * (CalcStrides N).getD axis 0 := by
    rw [← Nat.add_mul]
    exact Nat.mul_le_mul_right _ (by omega)
  refine ⟨le_trans hsum hle, ?_⟩
  have hsl := sliceLoop_axis axis N (CalcStrides N) s (s + n) 0 N.prod hpos
    (CalcStrides_length N) hax (by omega) (by omega) hsn
  have hlen2 : ¬ ((List.replicate (axis + 1) (none : Option RS)).set axis
      (some (makeRS s (s + n)))).length > N.length := by
    simp only [List.length_set, List.length_replicate]; omega
  have hcond : s * (CalcStrides N).getD axis 0 ≤
      N.prod - (N.getD axis 0 - (s + n)) * (CalcStrides N).getD axis 0 ∧
      N.prod - (N.getD axis 0 - (s + n)) * (CalcStrides N).getD axis 0 ≤ r.data.length := by
    rw [hlen]
    constructor <;> omega
  simp only [Nat.zero_add, Nat.add_sub_cancel_left] at hsl
  simp only [Dense.Slice, hr, AP.S, if_neg hlen2, hlen, hsl, sliceArray]
  rw [hlen] at hcond
  simp only [hlen, if_pos hcond]

/-- Assigning an operand through the view of the range `[s, s + n)`: the buffer written back
holds the operand in that range and is unchanged elsewhere. -/
theorem assign_concat (N : List Nat) (axis s n : Nat) (data : List α) (op : Dense α)
    (hax : axis < N.length) (hlen : data.length = N.prod)
    (hop : op.AP.shape = N.set axis n) (hsn : s + n ≤ N.getD axis 0)
    (hread : op.Readable)
    (hle : s * (CalcStrides N).getD axis 0 +
      (N.getD axis 0 - (s + n)) * (CalcStrides N).getD axis 0 ≤ N.prod) :
    ∃ vdata,
      assignArray
        { AP := { shape := N.set axis n, strides := CalcStrides N }, old := none,
          transposeWith := none,
          data := (data.drop (s * (CalcStrides N).getD axis 0)).take
            (N.prod - (N.getD axis 0 - (s + n)) * (CalcStrides N).getD axis 0 -
              s * (CalcStrides N).getD axis 0),
          viewOf := true } op = .ok (vdata, none) ∧
      (copyInto data (s * (CalcStrides N).getD axis 0) vdata).length = N.prod ∧
      (∀ c, InShape c N → s ≤ c.getD axis 0 → c.getD axis 0 < s + n →
        ∃ x, (copyInto data (s * (CalcStrides N).getD axis 0) vdata)[dot c (CalcStrides N)]? =
            some x ∧
          op.At (c.set axis (c.getD axis 0 - s)) = .ok (some x, none)) ∧
      (∀ c, InShape c N → (c.getD axis 0 < s ∨ s + n ≤ c.getD axis 0) →
        (copyInto data (s * (CalcStrides N).getD axis 0) vdata)[dot c (CalcStrides N)]? =
          data[dot c (CalcStrides N)]?) := by
  -- abbreviations
  generalize hBdef : (CalcStrides N).getD axis 0 = B at hle ⊢
  generalize hTdef : N.getD axis 0 = T at hle hsn ⊢
  have hLdef : N.prod - (T - (s + n)) * B - s * B = N.prod - (T - n) * B := by
    have : (T - (s + n)) * B + s * B = (T - n) * B := by
      rw [← Nat.add_mul]; congr 1; omega
    omega
  rw [hLdef]
  have hLle : (T - n) * B ≤ N.prod := by
    have : (T - (s + n)) * B + s * B = (T - n) * B := by
      rw [← Nat.add_mul]; congr 1; omega
    omega
  have hwin : ((data.drop (s * B)).take (N.prod - (T - n) * B)).length =
      N.prod - (T - n) * B := by
    have : s * B + (T - (s + n)) * B = (T - n) * B := by
      rw [← Nat.add_mul]; congr 1; omega
    simp only [List.length_take, List.length_drop, hlen]
    omega
  -- offsets of the narrowed shape stay inside the window
  have hbound : ∀ c, InShape c (N.set axis n) →
      dot c (CalcStrides N) < N.prod - (T - n) * B := by
    intro c hc
    obtain ⟨h1, h2, _, _⟩ := shift_inShape N c axis n (T - n) hax hc (by rw [hTdef]; omega)
    have := dot_lt_prod _ N h1
    rw [h2, hBdef] at this
    omega
  have hinj : ∀ c1 c2, InShape c1 (N.set axis n) → InShape c2 (N.set axis n) →
      dot c1 (CalcStrides N) = dot c2 (CalcStrides N) → c1 = c2 := by
    intro c1 c2 h1 h2 h
    exact dot_injective N c1 c2 (InShape_of_set axis c1 N n h1 (by rw [hTdef]; omega))
      (InShape_of_set axis c2 N n h2 (by rw [hTdef]; omega)) h
  have hlens : (flatOffsets (N.set axis n) (CalcStrides N)).length ≤
      (flatOffsets (N.set axis n) op.AP.strides).length := by
    rw [flatOffsets_length, flatOffsets_length]
  obtain ⟨vdata, hv, hvl, hvp, hvx⟩ := assignLoop_spec op.data
    ((flatOffsets (N.set axis n) (CalcStrides N)).zip
      (flatOffsets (N.set axis n) op.AP.strides))
    ((data.drop (s * B)).take (N.prod - (T - n) * B))
    (by
      intro p hp
      obtain ⟨c, hc, rfl⟩ := mem_zip_flatOffsets _ _ _ p hp
      rw [hwin]
      exact hbound c hc)
    (by
      intro p hp
      obtain ⟨c, hc, rfl⟩ := mem_zip_flatOffsets _ _ _ p hp
      obtain ⟨v, hg, _⟩ := Readable_get op hread c (by rw [hop]; exact hc)
      exact (List.getElem?_eq_some_iff.1 hg).1)
    (by
      rw [List.map_fst_zip _ _ hlens]
      exact flatOffsets_nodup _ _ hinj)
  rw [List.map_fst_zip _ _ hlens] at hvx
  rw [hwin] at hvl
  have hfit : s * B + vdata.length ≤ data.length := by
    have : s * B + (T - (s + n)) * B = (T - n) * B := by
      rw [← Nat.add_mul]; congr 1; omega
    rw [hvl, hlen]; omega
  refine ⟨vdata, ?_, ?_, ?_, ?_⟩
  · have hsh : ¬ (N.set axis n ≠ N.set axis n) := by simp
    simp only [assignArray, Dense.Shape, NewFlatIterator, hop, hv, if_neg hsh]
  · rw [copyInto_length data vdata (s * B) hfit, hlen]
  · intro c hc hs1 hs2
    have hcl : c.length = N.length := InShape_length hc
    have hc1 : InShape (c.set axis (c.getD axis 0 - s)) (N.set axis n) :=
      InShape_set axis c N _ n hc (by omega)
    obtain ⟨_, h2, _, _⟩ :=
      shift_inShape N (c.set axis (c.getD axis 0 - s)) axis n s hax hc1 (by rw [hTdef]; omega)
    have hback : (c.set axis (c.getD axis 0 - s)).set axis
        ((c.set axis (c.getD axis 0 - s)).getD axis 0 + s) = c := by
      rw [getD_set_self axis c _ (by omega), List.set_set, Nat.sub_add_cancel hs1,
        set_getD_self]
    rw [hback, hBdef] at h2
    obtain ⟨v, hg, hat⟩ := Readable_get op hread (c.set axis (c.getD axis 0 - s))
      (by rw [hop]; exact hc1)
    refine ⟨v, ?_, hat⟩
    have hx := hbound _ hc1
    rw [h2, Nat.add_comm, copyInto_get_inside data vdata (s * B) _ hfit (by rw [hvl]; exact hx)]
    rw [hvp _ (zip_flatOffsets_mem (N.set axis n) (CalcStrides N) op.AP.strides _ hc1)]
    exact hg
  · intro c hc hout
    by_cases hp : dot c (CalcStrides N) < s * B ∨ s * B + vdata.length ≤ dot c (CalcStrides N)
    · exact copyInto_get_outside data vdata (s * B) _ hfit hp
    · have hp1 : s * B ≤ dot c (CalcStrides N) := by omega
      have hp2 : dot c (CalcStrides N) - s * B < vdata.length := by omega
      have hnot : dot c (CalcStrides N) - s * B ∉
          flatOffsets (N.set axis n) (CalcStrides N) := by
        intro hmem
        obtain ⟨c1, hc1, he⟩ := mem_flatOffsets _ _ _ hmem
        obtain ⟨h1, h2, h3, h4⟩ := shift_inShape N c1 axis n s hax hc1 (by rw [hTdef]; omega)
        have heq : dot c (CalcStrides N) =
            dot (c1.set axis (c1.getD axis 0 + s)) (CalcStrides N) := by
          rw [h2, hBdef]; omega
        have := dot_injective N _ _ hc h1 heq
        rw [this, h3] at hout
        omega
      have e : dot c (CalcStrides N) = s * B + (dot c (CalcStrides N) - s * B) := by omega
      rw [e, copyInto_get_inside data vdata (s * B) _ hfit hp2, hvx _ hnot]
      rw [List.getElem?_take_of_lt (by rw [← hvl]; exact hp2), List.getElem?_drop]

/-! ## The loop of Concat -/

/-- Dropping the log of the logged loop of `Concat` gives the loop of `Concat`. -/
theorem concatLoopLog_erase (axis : Nat) : ∀ (ops : List (Dense α)) (start stop : Nat)
    (r : Dense α) (log : List RS),
    (concatLoopLog axis ops start stop r log).map Prod.fst = concatLoop axis ops start stop r
  | [], _, _, _, _ => rfl
  | T :: rest, start, stop, r, log => by
    simp only [concatLoopLog, concatLoop]
    cases T.Shape[axis]? with
    | none => rfl
    | some n =>
      simp only
      cases r.Slice ((List.replicate (axis + 1) none).set axis
          (some (makeRS start (stop + n)))) with
      | error f => rfl
      | ok out =>
        obtain ⟨view, e, off⟩ := out
        cases view with
        | none => rfl
        | some v =>
          simp only
          cases assignArray v T with
          | error f => rfl
          | ok res =>
            obtain ⟨vdata, e1⟩ := res
            cases e1 with
            | some e2 => rfl
            | none => exact concatLoopLog_erase axis rest _ _ _ _

theorem concatStart_zero (axis : Nat) (ops : List (Dense α)) : concatStart axis ops 0 = 0 := by
  simp [concatStart]

theorem concatStart_cons (axis : Nat) (T : Dense α) (rest : List (Dense α)) (k : Nat) :
    concatStart axis (T :: rest) (k + 1) = T.axisLen axis + concatStart axis rest k := by
  simp [concatStart]

/-- On operands that fit the merged shape `N` the loop of `Concat` returns without an error,
uses the ranges laid end to end, keeps what lies before `s` and holds every operand in its
range. -/
theorem concatLoopLog_spec (N : List Nat) (axis : Nat) (hpos : ∀ d ∈ N, 0 < d)
    (hax : axis < N.length) :
    ∀ (rest : List (Dense α)) (s : Nat) (r : Dense α) (log : List RS),
      r.AP = { shape := N, strides := CalcStrides N } → r.data.length = N.prod →
      (∀ op ∈ rest, op.AP.shape = N.set axis (op.axisLen axis) ∧ 0 < op.axisLen axis ∧
        op.Readable) →
      s + concatStart axis rest rest.length ≤ N.getD axis 0 →
      ∃ r1, concatLoopLog axis rest s s r log =
          .ok ((r1, none), log ++ concatRanges axis rest s) ∧
        r1.AP = r.AP ∧ r1.old = r.old ∧ r1.transposeWith = r.transposeWith ∧
        r1.viewOf = r.viewOf ∧ r1.data.length = N.prod ∧
        (∀ c, InShape c N → c.getD axis 0 < s →
          r1.data[dot c (CalcStrides N)]? = r.data[dot c (CalcStrides N)]?) ∧
        (∀ k op, rest[k]? = some op → ∀ c, InShape c N →
          s + concatStart axis rest k ≤ c.getD axis 0 →
          c.getD axis 0 < s + concatStart axis rest (k + 1) →
          ∃ x, r1.data[dot c (CalcStrides N)]? = some x ∧
            op.At (c.set axis (c.getD axis 0 - (s + concatStart axis rest k))) =
              .ok (some x, none))
  | [], s, r, log, _, hlen, _, _ => by
    refine ⟨r, by simp [concatLoopLog, concatRanges], rfl, rfl, rfl, rfl, hlen,
      fun _ _ _ => rfl, ?_⟩
    intro k op hk
    simp at hk
  | op :: rest, s, r, log, hr, hlen, hops, hsum => by
    obtain ⟨hop, hn, hread⟩ := hops op (List.mem_cons_self _ _)
    rw [List.length_cons, concatStart_cons] at hsum
    have hsn : s + op.axisLen axis ≤ N.getD axis 0 := by omega
    have hshape : op.Shape[axis]? = some (op.axisLen axis) := by
      simp only [Dense.Shape]
      rw [hop, List.getElem?_set_self (by simpa using hax)]
    obtain ⟨hle, hslice⟩ := Slice_concat N axis s (op.axisLen axis) r hpos hax hr hlen hn hsn
    obtain ⟨vdata, hassign, hl2, hin, hout⟩ :=
      assign_concat N axis s (op.axisLen axis) r.data op hax hlen hop hsn hread hle
    obtain ⟨r1, hloop, hAP, hold, htw, hvo, hl1, hpres, hrest⟩ :=
      concatLoopLog_spec N axis hpos hax rest (s + op.axisLen axis)
        { r with data := copyInto r.data (s * (CalcStrides N).getD axis 0) vdata }
        (log ++ [makeRS s (s + op.axisLen axis)]) hr hl2
        (fun o ho => hops o (List.mem_cons_of_mem _ ho)) (by omega)
    refine ⟨r1, ?_, hAP, hold, htw, hvo, hl1, ?_, ?_⟩
    · simp only [concatLoopLog, hshape, hslice, hassign, hloop, concatRanges,
        List.append_assoc, List.singleton_append]
    · intro c hc hcs
      rw [hpres c hc (by omega)]
      exact hout c hc (Or.inl hcs)
    · intro k o hk c hc h1 h2
      cases k with
      | zero =>
        simp only [List.getElem?_cons_zero, Option.some.injEq] at hk
        subst hk
        rw [concatStart_zero] at h1 ⊢
        rw [concatStart_cons, concatStart_zero] at h2
        simp only [Nat.add_zero] at h1 h2 ⊢
        obtain ⟨x, hx, hat⟩ := hin c hc h1 h2
        refine ⟨x, ?_, hat⟩
        rw [hpres c hc h2]
        exact hx
      | succ k =>
        simp only [List.getElem?_cons_succ] at hk
        rw [concatStart_cons] at h1 ⊢
        rw [concatStart_cons] at h2
        have := hrest k o hk c hc (by omega) (by omega)
        rw [Nat.add_assoc] at this
        exact this

/-! ## Concat -/

theorem concatRanges_get (axis : Nat) : ∀ (ops : List (Dense α)) (s k : Nat) (op : Dense α),
    ops[k]? = some op →
    (concatRanges axis ops s)[k]? =
      some (makeRS (s + concatStart axis ops k)
        (s + concatStart axis ops k + op.axisLen axis))
  | [], _, _, _, h => by simp at h
  | T :: rest, s, 0, op, h => by
    simp only [List.getElem?_cons_zero, Option.some.injEq] at h
    subst h
    simp [concatRanges, concatStart_zero]
  | T :: rest, s, k + 1, op, h => by
    simp only [List.getElem?_cons_succ] at h
    simp only [concatRanges, List.getElem?_cons_succ, concatStart_cons]
    rw [concatRanges_get axis rest (s + T.axisLen axis) k op h, Nat.add_assoc]

theorem concatRanges_length (axis : Nat) : ∀ (ops : List (Dense α)) (s : Nat),
    (concatRanges axis ops s).length = ops.length
  | [], _ => rfl
  | _ :: rest, s => by simp [concatRanges, concatRanges_length axis rest]

theorem concatStart_length (axis : Nat) (ops : List (Dense α)) :
    concatStart axis ops ops.length = (ops.map (fun T => T.axisLen axis)).sum := by
  simp [concatStart]

theorem pos_of_set (S : List Nat) (axis m : Nat) (hpos : ∀ d ∈ S, 0 < d) (hm : 0 < m) :
    ∀ d ∈ S.set axis m, 0 < d := by
  intro d hd
  rcases List.mem_or_eq_of_mem_set hd with h | h
  · exact hpos d h
  · rw [h]; exact hm

theorem set_of_set_zero (S1 S2 : List Nat) (axis x : Nat)
    (h : S1.set axis 0 = S2.set axis 0) : S1.set axis x = S2.set axis x := by
  have h1 : (S1.set axis 0).set axis x = (S2.set axis 0).set axis x := by rw [h]
  simpa [List.set_set] using h1

theorem length_of_set_eq (S1 S2 : List Nat) (axis : Nat)
    (h : S1.set axis 0 = S2.set axis 0) : S1.length = S2.length := by
  have := congrArg List.length h
  simpa using this

theorem getD_pos_of_pos (S : List Nat) (axis : Nat) (hpos : ∀ d ∈ S, 0 < d)
    (hax : axis < S.length) : 0 < S.getD axis 0 := by
  rw [List.getD_eq_getElem _ _ hax]
  exact hpos _ (List.getElem_mem _)

/-- The shape-level check of `Concat` accepts operands that agree with the receiver off
`axis`. -/
theorem ShapeConcat_ok (S : List Nat) (axis : Nat) (Ts : List (Dense α))
    (hax : axis < S.length) (h : ∀ T ∈ Ts, T.AP.shape.set axis 0 = S.set axis 0) :
    ShapeConcat S axis (Ts.map (fun T => T.Shape)) =
      .ok (S.set axis (S.getD axis 0 + (Ts.map (fun T => T.axisLen axis)).sum)) := by
  have hge : ¬ axis ≥ S.length := by omega
  have hall : (Ts.map (fun T => T.Shape)).all
      (fun s1 => s1.length == S.length && s1.set axis 0 == S.set axis 0) = true := by
    rw [List.all_eq_true]
    intro s1 hs1
    obtain ⟨T, hT, rfl⟩ := List.mem_map.1 hs1
    have h1 := h T hT
    simp only [Dense.Shape, Bool.and_eq_true, beq_iff_eq]
    exact ⟨length_of_set_eq _ _ axis h1, h1⟩
  simp only [ShapeConcat, if_neg hge, hall, if_true, List.map_map]
  rfl

/-- A contiguous operand can be read at every coordinate inside its shape. -/
theorem Readable_of_contiguous (t : Dense α) (S : List Nat) (h : t.Contiguous S) :
    t.Readable := by
  intro c hc
  obtain ⟨x, hx, _⟩ := (SameElements_self t S h).2 c (by rw [← h.2.1]; exact hc)
  exact ⟨x, hx⟩

/-- Claim C15: for a receiver and others with positive dimensions, readable at every
coordinate, whose shapes agree off `axis` (`axis < rank`), `Concat` returns an array and no
error.  The ranges its loop builds are the ranges laid end to end from `0`: range `k` starts
at the sum of the lengths along `axis` of the operands before `k` and is as long as operand
`k`; together they cover `[0, newShape[axis])`.  The result has the receiver's shape with the
sum of the lengths at `axis`, row-major strides, and at every coordinate `c` whose `axis`
component lies in range `k` it holds the element of operand `k` at `c` with that component
reduced by the start of the range.  With no others the result has the receiver's shape and
elements. -/
theorem Concat_layout [Inhabited α] (t : Dense α) (axis : Nat) (Ts : List (Dense α))
    (hax : axis < t.Dims)
    (hops : ∀ op ∈ t :: Ts, (∀ d ∈ op.Shape, 0 < d) ∧ op.Readable ∧
      op.Shape.set axis 0 = t.Shape.set axis 0) :
    ∃ r log,
      t.Concat axis Ts = .ok { retVal := some r, err := none } ∧
      concatLoopLog axis (t :: Ts) 0 0
        { AP := r.AP, old := none, transposeWith := none,
          data := makeArray (TotalSize r.Shape), viewOf := false } [] =
          .ok ((r, none), log) ∧
      log = concatRanges axis (t :: Ts) 0 ∧ log.length = Ts.length + 1 ∧
      (∀ k op, (t :: Ts)[k]? = some op →
        log[k]? = some (makeRS (concatStart axis (t :: Ts) k)
          (concatStart axis (t :: Ts) k + op.axisLen axis))) ∧
      concatStart axis (t :: Ts) 0 = 0 ∧
      (∀ k op, (t :: Ts)[k]? = some op →
        concatStart axis (t :: Ts) (k + 1) = concatStart axis (t :: Ts) k + op.axisLen axis) ∧
      r.Shape.getD axis 0 = concatStart axis (t :: Ts) (Ts.length + 1) ∧
      r.Shape = t.Shape.set axis (concatStart axis (t :: Ts) (Ts.length + 1)) ∧
      r.Strides = CalcStrides r.Shape ∧ r.old = none ∧ r.transposeWith = none ∧
      (∀ k op, (t :: Ts)[k]? = some op → ∀ c, InShape c r.Shape →
        concatStart axis (t :: Ts) k ≤ c.getD axis 0 →
        c.getD axis 0 < concatStart axis (t :: Ts) k + op.axisLen axis →
        ∃ x, r.At c = .ok (some x, none) ∧
          op.At (c.set axis (c.getD axis 0 - concatStart axis (t :: Ts) k)) =
            .ok (some x, none)) ∧
      (Ts = [] → r.Shape = t.Shape ∧ ∀ c, InShape c t.Shape →
        ∃ x, r.At c = .ok (some x, none) ∧ t.At c = .ok (some x, none)) := by
  -- the merged shape
  have haxS : axis < t.AP.shape.length := hax
  obtain ⟨htpos, _, _⟩ := hops t (List.mem_cons_self _ _)
  have htlen : 0 < t.axisLen axis := getD_pos_of_pos _ axis htpos haxS
  have htotal : concatStart axis (t :: Ts) (Ts.length + 1) =
      t.AP.shape.getD axis 0 + (Ts.map (fun T => T.axisLen axis)).sum := by
    have := concatStart_length axis (t :: Ts)
    simpa [Dense.axisLen] using this
  have hshape := ShapeConcat_ok t.AP.shape axis Ts haxS
    (fun T hT => (hops T (List.mem_cons_of_mem _ hT)).2.2)
  rw [← htotal] at hshape
  generalize hNdef : t.AP.shape.set axis (concatStart axis (t :: Ts) (Ts.length + 1)) = N
    at hshape
  have hNlen : axis < N.length := by rw [← hNdef]; simpa using haxS
  have hNget : N.getD axis 0 = concatStart axis (t :: Ts) (Ts.length + 1) := by
    rw [← hNdef]; exact getD_set_self axis _ _ haxS
  have hNpos : ∀ d ∈ N, 0 < d := by
    rw [← hNdef]
    apply pos_of_set _ _ _ htpos
    rw [htotal]
    have : 0 < t.AP.shape.getD axis 0 := htlen
    omega
  have hgood : ∀ op ∈ t :: Ts, op.AP.shape = N.set axis (op.axisLen axis) ∧
      0 < op.axisLen axis ∧ op.Readable := by
    intro op hop
    obtain ⟨hp, hrd, hs⟩ := hops op hop
    have hl : op.AP.shape.length = t.AP.shape.length := length_of_set_eq _ _ axis hs
    refine ⟨?_, getD_pos_of_pos _ axis hp (by rw [hl]; exact haxS), hrd⟩
    have hs1 : op.AP.shape.set axis 0 = t.AP.shape.set axis 0 := hs
    rw [← hNdef, List.set_set, ← set_of_set_zero _ _ axis (op.axisLen axis) hs1]
    exact (set_getD_self axis op.AP.shape).symm
  obtain ⟨r, hloop, hAP, hold, htw, hvo, hl, _, hcontent⟩ :=
    concatLoopLog_spec N axis hNpos hNlen (t :: Ts) 0
      { AP := { shape := N, strides := CalcStrides N }, old := none, transposeWith := none,
        data := makeArray (TotalSize N), viewOf := false } [] rfl
      (by simp [makeArray, TotalSize]) hgood
      (by rw [Nat.zero_add, List.length_cons, hNget])
  simp only [Nat.zero_add, List.nil_append] at hloop hcontent
  have herase := concatLoopLog_erase axis (t :: Ts) 0 0
    { AP := { shape := N, strides := CalcStrides N }, old := none, transposeWith := none,
      data := makeArray (TotalSize N), viewOf := false } []
  rw [hloop] at herase
  have hrAP : r.AP = { shape := N, strides := CalcStrides N } := hAP
  have hrS : r.Shape = N := by simp only [Dense.Shape, hrAP]
  have hstep : ∀ k op, (t :: Ts)[k]? = some op →
      concatStart axis (t :: Ts) (k + 1) = concatStart axis (t :: Ts) k + op.axisLen axis := by
    intro k op hk
    simp only [concatStart]
    rw [List.take_succ, hk]
    simp
  refine ⟨r, concatRanges axis (t :: Ts) 0, ?_, ?_, rfl, ?_, ?_, concatStart_zero _ _, hstep,
    ?_, ?_, ?_, hold, htw, ?_, ?_⟩
  · simp only [Dense.Shape] at hshape
    simp only [Dense.Concat, Dense.Shape, hshape]
    rw [← herase]
    rfl
  · rw [hrAP, hrS]
    exact hloop
  · rw [concatRanges_length, List.length_cons]
  · intro k op hk
    have := concatRanges_get axis (t :: Ts) 0 k op hk
    simpa using this
  · rw [hrS, hNget]
  · rw [hrS, ← hNdef]
    rfl
  · simp only [Dense.Strides, Dense.Shape, hrAP]
  · intro k op hk c hc h1 h2
    rw [hrS] at hc
    obtain ⟨x, hx, hat⟩ := hcontent k op hk c hc h1 (by rw [hstep k op hk]; exact h2)
    refine ⟨x, ?_, hat⟩
    rw [At_contiguous r N c (by rw [hrAP]) (by rw [hrAP]) hc]
    simp only [dataGet, hx]
  · intro hTs
    subst hTs
    have hN : N = t.AP.shape := by
      rw [← hNdef, htotal]
      simp only [List.map_nil, List.sum_nil, Nat.add_zero]
      exact set_getD_self axis _
    refine ⟨by rw [hrS, hN]; rfl, ?_⟩
    intro c hc
    have hc1 : InShape c N := by rw [hN]; exact hc
    have hcl := InShape_getD hc axis haxS
    obtain ⟨x, hx, hat⟩ := hcontent 0 t rfl c hc1
      (by rw [concatStart_zero]; exact Nat.zero_le _)
      (by rw [concatStart_cons, concatStart_zero]; exact hcl)
    rw [concatStart_zero, Nat.sub_zero, set_getD_self] at hat
    refine ⟨x, ?_, hat⟩
    rw [At_contiguous r N c (by rw [hrAP]) (by rw [hrAP]) hc1]
    simp only [dataGet, hx]

/-- The claim C15 on two `2x3` operands along axis `0`: the shape is `4x3`, the buffer holds
the six elements of the first operand followed by the six of the second, and the ranges are
`[0, 2)` and `[2, 4)`. -/
theorem Concat_layout_witness :
    (0 : Nat) < (exampleDense [2, 3] [0, 1, 2, 3, 4, 5]).Dims ∧
    ∃ r log, (exampleDense [2, 3] [0, 1, 2, 3, 4, 5]).Concat 0
        [exampleDense [2, 3] [10, 11, 12, 13, 14, 15]] =
          .ok { retVal := some r, err := none } ∧
      log = [makeRS 0 2, makeRS 2 4] ∧
      r.Shape = [4, 3] ∧ r.data = [0, 1, 2, 3, 4, 5, 10, 11, 12, 13, 14, 15] := by
  refine ⟨by decide, ?_⟩
  obtain ⟨r, log, hr, _, hlog, _, _, _, _, _, hshape, _⟩ :=
    Concat_layout (exampleDense [2, 3] [0, 1, 2, 3, 4, 5]) 0
      [exampleDense [2, 3] [10, 11, 12, 13, 14, 15]] (by decide)
      (by
        intro op hop
        simp only [List.mem_cons, List.mem_singleton, List.not_mem_nil, or_false] at hop
        rcases hop with h | h <;> subst h <;>
          exact ⟨by decide, Readable_of_contiguous _ [2, 3] ⟨rfl, rfl, rfl, rfl⟩, rfl⟩)
  have heval : (exampleDense [2, 3] [0, 1, 2, 3, 4, 5]).Concat 0
      [exampleDense [2, 3] [10, 11, 12, 13, 14, 15]] =
      .ok { retVal := some (exampleDense [4, 3] [0, 1, 2, 3, 4, 5, 10, 11, 12, 13, 14, 15]),
            err := none } := rfl
  rw [heval] at hr
  injection hr with hr
  injection hr with hr
  injection hr with hr
  subst hr
  exact ⟨_, log, heval, hlog, rfl, rfl⟩

/-! ## The placement of simpleStack -/

/-- A coordinate of the stacked shape splits into a coordinate of the operands' shape and
the index along the new axis. -/
theorem InShape_stacked (S c : List Nat) (axis k : Nat) (ha : axis ≤ S.length)
    (hc : InShape c (S.take axis ++ k :: S.drop axis)) :
    InShape (c.eraseIdx axis) S ∧ c.getD axis 0 < k ∧
      (c.eraseIdx axis).take axis ++ c.getD axis 0 :: (c.eraseIdx axis).drop axis = c := by
  have hAl : (S.take axis).length = axis := by simp [Nat.min_eq_left ha]
  have h1 : InShape (c.take axis) (S.take axis) := by
    have := List.forall₂_take_append c (S.take axis) (k :: S.drop axis) hc
    rwa [hAl] at this
  have h2 : InShape (c.drop axis) (k :: S.drop axis) := by
    have := List.forall₂_drop_append c (S.take axis) (k :: S.drop axis) hc
    rwa [hAl] at this
  have hcl : (c.take axis).length = axis := by
    have := InShape_length h1
    rw [hAl] at this
    exact this
  cases hd : c.drop axis with
  | nil => rw [hd] at h2; cases h2
  | cons j c2 =>
    rw [hd] at h2
    cases h2 with
    | cons hj h3 =>
      have hsplit : c = c.take axis ++ j :: c2 := by
        rw [← hd, List.take_append_drop]
      have herase : c.eraseIdx axis = c.take axis ++ c2 := by
        rw [List.eraseIdx_eq_take_drop_succ]
        congr 1
        have : c.drop (axis + 1) = (c.drop axis).drop 1 := by
          rw [List.drop_drop, Nat.add_comm]
        rw [this, hd]
        rfl
      have hget : c.getD axis 0 = j := by
        rw [hsplit, List.getD_eq_getElem?_getD,
          List.getElem?_append_right (by rw [hcl]), hcl]
        simp
      refine ⟨?_, by rw [hget]; exact hj, ?_⟩
      · rw [herase]
        have h4 : InShape (c.take axis ++ c2) (S.take axis ++ S.drop axis) :=
          List.rel_append h1 h3
        rw [List.take_append_drop] at h4
        exact h4
      · rw [herase, hget, List.take_left' hcl, List.drop_left' hcl]
        exact hsplit.symm

theorem stackLayout_length (axisStride outer : Nat) (datas : List (List α))
    (hlen : ∀ d ∈ datas, d.length = outer * axisStride) :
    ∀ (m o : Nat), o + m = outer →
      (stackLayout axisStride datas m o).length = m * (datas.length * axisStride)
  | 0, _, _ => by simp [stackLayout]
  | m + 1, o, hom => by
    have hrow := stackRow_length axisStride o datas (fun d hd => by
      rw [hlen d hd]; exact Nat.mul_le_mul_right _ (by omega))
    simp only [stackLayout, List.length_append, hrow,
      stackLayout_length axisStride outer datas hlen m (o + 1) (by omega)]
    ring

/-- Claim C12: for contiguous row-major (non-view) operands of one shape `S` with positive
dimensions and every `axis ≤ rank`, `Stack` returns the buffer `simpleStack` builds, under the
stacked shape with row-major strides, and for every coordinate `c` of the stacked shape the
result holds at `c` the element of operand number `c[axis]` (the receiver is number `0`) at
`c` with index `axis` removed; for `axis = 0` the buffer is the operands' buffers one after
the other, and in general it is, for each outer index in turn, one block of `axisStride`
elements of every operand. -/
theorem simpleStack_placement [Inhabited α] (S : List Nat) (axis : Nat) (t : Dense α)
    (others : List (Dense α)) (hpos : ∀ d ∈ S, 0 < d) (ha : axis ≤ S.length)
    (ht : t.Contiguous S) (ho : ∀ ot ∈ others, ot.Contiguous S) :
    ∃ r, t.Stack axis others = .ok { retVal := some r, err := none } ∧
      t.simpleStack axis r.AP others = .ok r.data ∧
      r.Shape = S.take axis ++ (others.length + 1) :: S.drop axis ∧
      r.Strides = CalcStrides r.Shape ∧
      r.Strides[axis]? = some (S.drop axis).prod ∧
      (∀ c, InShape c r.Shape →
        ∃ op v, (t :: others)[c.getD axis 0]? = some op ∧
          op.At (c.eraseIdx axis) = .ok (some v, none) ∧ r.At c = .ok (some v, none)) ∧
      (axis = 0 → r.data = t.data ++ others.flatMap (fun ot => ot.data)) ∧
      r.data = stackLayout (S.drop axis).prod (t.data :: others.map (fun ot => ot.data))
        (S.take axis).prod 0 := by
  have hstack := Stack_contiguous S axis t others hpos ha ht ho
  obtain ⟨r1, hr1, hss, hat⟩ := Stack_contiguous_at S axis t others hpos ha ht ho
  rw [hstack] at hr1
  injection hr1 with hr1
  injection hr1 with hr1
  injection hr1 with hr1
  subst hr1
  refine ⟨_, hstack, hss, rfl, rfl, stackStrides_axis S axis _ ha, ?_, ?_, rfl⟩
  · intro c hc
    obtain ⟨hin, hj, hback⟩ := InShape_stacked S c axis (others.length + 1) ha hc
    have hjl : c.getD axis 0 < (t :: others).length := by simpa using hj
    obtain ⟨v, hv1, hv2⟩ := hat (c.getD axis 0) ((t :: others)[c.getD axis 0])
      (List.getElem?_eq_getElem hjl) (c.eraseIdx axis) hin
    rw [hback] at hv2
    exact ⟨_, v, List.getElem?_eq_getElem hjl, hv1, hv2⟩
  · intro h0
    subst h0
    simp only [List.drop_zero, List.take_zero, List.prod_nil]
    rw [stackLayout_one S.prod _ (by
      intro d hd
      rcases List.mem_cons.1 hd with h | h
      · rw [h]; exact ht.2.2.2
      · obtain ⟨ot, hot, rfl⟩ := List.mem_map.1 h
        exact (ho ot hot).2.2.2)]
    simp [List.flatMap_map]

/-- The claim C12 on a `2x3` receiver and two others, stacked along axis `1`. -/
theorem simpleStack_placement_witness :
    (∀ d ∈ [2, 3], 0 < d) ∧ 1 ≤ [2, 3].length ∧
    ∃ r, (exampleDense [2, 3] [0, 1, 2, 3, 4, 5]).Stack 1
        [exampleDense [2, 3] [10, 11, 12, 13, 14, 15],
         exampleDense [2, 3] [20, 21, 22, 23, 24, 25]] = .ok { retVal := some r, err := none } ∧
      r.Shape = [2, 3, 3] ∧
      r.data = [0, 1, 2, 10, 11, 12, 20, 21, 22, 3, 4, 5, 13, 14, 15, 23, 24, 25] ∧
      (∀ c, InShape c r.Shape →
        ∃ op v, (exampleDense [2, 3] [0, 1, 2, 3, 4, 5] ::
          [exampleDense [2, 3] [10, 11, 12, 13, 14, 15],
           exampleDense [2, 3] [20, 21, 22, 23, 24, 25]])[c.getD 1 0]? = some op ∧
          op.At (c.eraseIdx 1) = .ok (some v, none) ∧ r.At c = .ok (some v, none)) := by
  obtain ⟨r, h1, _, h3, _, _, h6, _, h8⟩ :=
    simpleStack_placement [2, 3] 1 (exampleDense [2, 3] [0, 1, 2, 3, 4, 5])
      [exampleDense [2, 3] [10, 11, 12, 13, 14, 15],
       exampleDense [2, 3] [20, 21, 22, 23, 24, 25]]
      (by decide) (by decide) ⟨rfl, rfl, rfl, rfl⟩
      (by
        intro ot hot
        simp only [List.mem_cons, List.mem_singleton, List.not_mem_nil, or_false] at hot
        rcases hot with h | h <;> subst h <;> exact ⟨rfl, rfl, rfl, rfl⟩)
  exact ⟨by decide, by decide, r, h1, h3, h8, h6⟩

/-! ## The two strategies of Stack agree -/

/-- For row-major strides the flat iterator yields the offsets `0, 1, .., n - 1`. -/
theorem flatOffsets_rowMajor (S : List Nat) :
    flatOffsets S (CalcStrides S) = List.range S.prod := by
  apply List.ext_getElem?
  intro i
  by_cases hi : i < S.prod
  · obtain ⟨c, _, _, hc⟩ := flatOffsets_index S (CalcStrides S) i hi
    obtain ⟨c1, _, hin, hd⟩ := Itol_rowMajor S i hi
    have h := flatOffsets_get S (CalcStrides S) c1 hin
    rw [hd] at h
    rw [h, List.getElem?_range hi]
  · rw [List.getElem?_eq_none (by rw [flatOffsets_length]; omega),
      List.getElem?_eq_none (by rw [List.length_range]; omega)]

theorem Forall₂_and_right {β γ : Type} {R : β → γ → Prop} {P : γ → Prop} :
    ∀ {vs : List β} {cs : List γ}, List.Forall₂ R vs cs → (∀ c ∈ cs, P c) →
      List.Forall₂ (fun v c => R v c ∧ P c) vs cs
  | _, _, List.Forall₂.nil, _ => List.Forall₂.nil
  | _, _, List.Forall₂.cons h hrest, hp =>
    List.Forall₂.cons ⟨h, hp _ (List.mem_cons_self _ _)⟩
      (Forall₂_and_right hrest (fun c hc => hp c (List.mem_cons_of_mem _ hc)))

theorem Forall₂_self {β : Type} {R : β → β → Prop} :
    ∀ (l : List β), (∀ x ∈ l, R x x) → List.Forall₂ R l l
  | [], _ => List.Forall₂.nil
  | x :: l, h =>
    List.Forall₂.cons (h x (List.mem_cons_self _ _))
      (Forall₂_self l (fun y hy => h y (List.mem_cons_of_mem _ hy)))

/-- Claim C13: for contiguous operands of one shape `S` (positive dimensions), whose flat
iterators yield the offsets `0, 1, .., n - 1`, and every `axis ≤ rank`, `viewStack` and
`simpleStack` both return, and return the same buffer, as long as the stacked shape.  The
same buffer is what `viewStack` returns on any operands that hold the same elements
coordinate by coordinate (views, other strides), and `Stack` with a view among such operands
returns the array it returns on the contiguous ones. -/
theorem viewStack_eq_simpleStack [Inhabited α] (S : List Nat) (axis : Nat) (t : Dense α)
    (others : List (Dense α)) (hpos : ∀ d ∈ S, 0 < d) (ha : axis ≤ S.length)
    (ht : t.Contiguous S) (ho : ∀ ot ∈ others, ot.Contiguous S) :
    NewFlatIterator t.AP = List.range S.prod ∧
    (∀ ot ∈ others, NewFlatIterator ot.AP = List.range S.prod) ∧
    ∃ data,
      t.viewStack axis
        { shape := S.take axis ++ (others.length + 1) :: S.drop axis,
          strides := CalcStrides (S.take axis ++ (others.length + 1) :: S.drop axis) }
        others = .ok data ∧
      t.simpleStack axis
        { shape := S.take axis ++ (others.length + 1) :: S.drop axis,
          strides := CalcStrides (S.take axis ++ (others.length + 1) :: S.drop axis) }
        others = .ok data ∧
      data.length = TotalSize (S.take axis ++ (others.length + 1) :: S.drop axis) ∧
      ∀ (tv : Dense α) (othersv : List (Dense α)), tv.SameElements t S →
        List.Forall₂ (fun v c => v.SameElements c S) othersv others →
        tv.viewStack axis
          { shape := S.take axis ++ (others.length + 1) :: S.drop axis,
            strides := CalcStrides (S.take axis ++ (others.length + 1) :: S.drop axis) }
          othersv = .ok data ∧
        ((tv.viewOf = true ∨ ∃ ot ∈ othersv, ot.viewOf = true) →
          tv.Stack axis othersv = t.Stack axis others) := by
  have hiter : ∀ op : Dense α, op.Contiguous S → NewFlatIterator op.AP = List.range S.prod := by
    intro op hop
    simp only [NewFlatIterator, hop.2.1, hop.2.2.1]
    exact flatOffsets_rowMajor S
  have hself : List.Forall₂ (fun v c => v.SameElements c S ∧ c.Contiguous S) others others :=
    Forall₂_self others (fun ot hot => ⟨SameElements_self ot S (ho ot hot), ho ot hot⟩)
  obtain ⟨⟨data, hv, hs⟩, _⟩ := viewStack_of_sameElements S axis t t others others hpos ha
    (SameElements_self t S ht) ht hself
  have hlay := simpleStack_eq S axis t others hpos ha ht.2.2.2
    (fun ot hot => (ho ot hot).2.2.2)
  rw [stackShape_eq S axis _ ha, hs] at hlay
  injection hlay with hlay
  refine ⟨hiter t ht, fun ot hot => hiter ot (ho ot hot), data, hv, hs, ?_, ?_⟩
  · rw [hlay, stackLayout_length (S.drop axis).prod (S.take axis).prod _ (by
      intro d hd
      rw [take_drop_prod]
      rcases List.mem_cons.1 hd with h | h
      · rw [h]; exact ht.2.2.2
      · obtain ⟨ot, hot, rfl⟩ := List.mem_map.1 h
        exact (ho ot hot).2.2.2) _ 0 (by omega)]
    simp only [TotalSize, stackShape_prod, List.length_cons, List.length_map]
  · intro tv othersv htv hov
    obtain ⟨⟨data1, hv1, hs1⟩, hstack⟩ := viewStack_of_sameElements S axis tv t othersv others
      hpos ha htv ht (Forall₂_and_right hov ho)
    rw [hs] at hs1
    injection hs1 with hs1
    subst hs1
    refine ⟨hv1, ?_⟩
    intro hview
    obtain ⟨r, h1, h2⟩ := hstack hview
    rw [h1, h2]

/-- The claim C13 on contiguous `2x2` operands stacked along axis `1`, and on the
column-major view that holds the receiver's elements. -/
theorem viewStack_eq_simpleStack_witness :
    (∀ d ∈ [2, 2], 0 < d) ∧
    (exampleDense [2, 2] [0, 1, 2, 3]).viewStack 1
        { shape := [2, 2, 2], strides := [4, 2, 1] } [exampleDense [2, 2] [4, 5, 6, 7]] =
      (exampleDense [2, 2] [0, 1, 2, 3]).simpleStack 1
        { shape := [2, 2, 2], strides := [4, 2, 1] } [exampleDense [2, 2] [4, 5, 6, 7]] ∧
    exampleView.viewStack 1
        { shape := [2, 2, 2], strides := [4, 2, 1] } [exampleDense [2, 2] [4, 5, 6, 7]] =
      (exampleDense [2, 2] [0, 1, 2, 3]).simpleStack 1
        { shape := [2, 2, 2], strides := [4, 2, 1] } [exampleDense [2, 2] [4, 5, 6, 7]] ∧
    exampleView.Stack 1 [exampleDense [2, 2] [4, 5, 6, 7]] =
      (exampleDense [2, 2] [0, 1, 2, 3]).Stack 1 [exampleDense [2, 2] [4, 5, 6, 7]] := by
  obtain ⟨_, _, data, hv, hs, _, hgen⟩ :=
    viewStack_eq_simpleStack [2, 2] 1 (exampleDense [2, 2] [0, 1, 2, 3])
      [exampleDense [2, 2] [4, 5, 6, 7]] (by decide) (by decide) ⟨rfl, rfl, rfl, rfl⟩
      (by
        intro ot hot
        simp only [List.mem_singleton] at hot
        subst hot
        exact ⟨rfl, rfl, rfl, rfl⟩)
  obtain ⟨hv2, hst⟩ := hgen exampleView [exampleDense [2, 2] [4, 5, 6, 7]]
    ⟨rfl, by
      intro coords hin
      rcases hin with _ | ⟨ha, hin⟩
      rcases hin with _ | ⟨hb, hin⟩
      cases hin
      rename_i a b
      interval_cases a <;> interval_cases b <;> exact ⟨_, rfl, rfl⟩⟩
    (List.Forall₂.cons (SameElements_self _ _ ⟨rfl, rfl, rfl, rfl⟩) List.Forall₂.nil)
  exact ⟨by decide, hv.trans hs.symm, hv2.trans hs.symm, hst (Or.inl rfl)⟩

/-! ## Stack returns -/

theorem simpleStackZero_ok : ∀ (others : List (Dense α)) (next : Nat) (data : List α),
    ∃ d, simpleStackZero others next data = .ok d
  | [], _, data => ⟨data, rfl⟩
  | ot :: rest, next, data => by
    simp only [simpleStackZero]
    exact simpleStackZero_ok rest _ _

theorem simpleStackInner_ok (axisStride start stop : Nat) :
    ∀ (others : List (Dense α)) (destStart : Nat) (data : List α),
      ∃ p, simpleStackInner axisStride start stop others destStart data = .ok p
  | [], destStart, data => ⟨(destStart, data), rfl⟩
  | ot :: rest, destStart, data => by
    simp only [simpleStackInner]
    exact simpleStackInner_ok axisStride start stop rest _ _

/-- The outer loop of `simpleStack` returns within `batches` steps, whatever the operands. -/
theorem simpleStackLoop_ok (tdata : List α) (others : List (Dense α))
    (axisStride batches : Nat) :
    ∀ (fuel i destStart start stop : Nat) (data : List α), batches ≤ i + fuel →
      ∃ d, simpleStackLoop tdata others axisStride batches fuel i destStart start stop data =
        .ok d
  | 0, i, _, _, _, data, h => by
    have hi : ¬ i < batches := by omega
    exact ⟨data, by simp only [simpleStackLoop, if_neg hi]⟩
  | fuel + 1, i, destStart, start, stop, data, h => by
    by_cases hi : i < batches
    · obtain ⟨p, hp⟩ := simpleStackInner_ok axisStride start stop others destStart
        (copySlicedArray data destStart data.length tdata start stop).1
      obtain ⟨d, hd⟩ := simpleStackLoop_ok tdata others axisStride batches fuel
        (i + others.length + 1) (p.1 + axisStride) (start + axisStride) (stop + axisStride)
        p.2 (by omega)
      refine ⟨d, ?_⟩
      simp only [simpleStackLoop, if_pos hi, hp]
      exact hd
    · exact ⟨data, by simp only [simpleStackLoop, if_neg hi]⟩

/-- The copies of `simpleStack` cannot fail the call: under the stacked access pattern of a
shape with positive dimensions it returns for every receiver and every list of others. -/
theorem simpleStack_ok [Inhabited α] (S : List Nat) (axis : Nat) (t : Dense α)
    (others : List (Dense α)) (hpos : ∀ d ∈ S, 0 < d) (ha : axis ≤ S.length) :
    ∃ d, t.simpleStack axis
      { shape := S.take axis ++ (others.length + 1) :: S.drop axis,
        strides := CalcStrides (S.take axis ++ (others.length + 1) :: S.drop axis) }
      others = .ok d := by
  cases axis with
  | zero =>
    simp only [Dense.simpleStack]
    exact simpleStackZero_ok others _ _
  | succ a =>
    have hst := stackStrides_axis S (a + 1) (others.length + 1) ha
    have hB : 0 < (S.drop (a + 1)).prod :=
      prod_pos_of_pos _ (fun d hd => hpos d (List.mem_of_mem_drop hd))
    simp only [Dense.simpleStack, hst, if_neg (Nat.pos_iff_ne_zero.1 hB)]
    exact simpleStackLoop_ok t.data others _ _ _ 0 0 0 _ _ (by omega)

theorem viewStackPull_ok (data : List α) : ∀ (j : Nat) (ch : List Nat) (acc : List α),
    (∀ id ∈ ch, id < data.length) →
    ∃ ch1 acc1, viewStackPull data j ch acc = some (ch1, acc1) ∧
      ∀ id ∈ ch1, id < data.length
  | 0, ch, acc, h => ⟨ch, acc, rfl, h⟩
  | _ + 1, [], acc, h => ⟨[], acc, rfl, h⟩
  | j + 1, id :: ch, acc, h => by
    have hid : id < data.length := h id (List.mem_cons_self _ _)
    obtain ⟨ch1, acc1, h1, h2⟩ := viewStackPull_ok data j ch (acc ++ [data[id]])
      (fun x hx => h x (List.mem_cons_of_mem _ hx))
    exact ⟨ch1, acc1, by
      simp only [viewStackPull, dataGet, List.getElem?_eq_getElem hid, h1], h2⟩

theorem viewStackInner_ok (axisStride : Nat) : ∀ (L : List (List α × List Nat))
    (acc : List α), (∀ p ∈ L, ∀ id ∈ p.2, id < p.1.length) →
    ∃ L1 acc1, viewStackInner axisStride L acc = some (L1, acc1) ∧
      ∀ p ∈ L1, ∀ id ∈ p.2, id < p.1.length
  | [], acc, h => ⟨[], acc, rfl, h⟩
  | (d, ch) :: rest, acc, h => by
    obtain ⟨ch1, acc1, h1, h2⟩ := viewStackPull_ok d axisStride ch acc
      (h (d, ch) (List.mem_cons_self _ _))
    obtain ⟨L1, acc2, h3, h4⟩ := viewStackInner_ok axisStride rest acc1
      (fun p hp => h p (List.mem_cons_of_mem _ hp))
    refine ⟨(d, ch1) :: L1, acc2, by simp only [viewStackInner, h1, h3], ?_⟩
    intro p hp
    rcases List.mem_cons.1 hp with e | e
    · rw [e]; exact h2
    · exact h4 p e

theorem viewStackLoop_ok (tdata : List α) (axisStride : Nat) :
    ∀ (b : Nat) (ch : List Nat) (L : List (List α × List Nat)) (acc : List α),
      (∀ id ∈ ch, id < tdata.length) → (∀ p ∈ L, ∀ id ∈ p.2, id < p.1.length) →
      ∃ d, viewStackLoop tdata axisStride b ch L acc = some d
  | 0, _, _, acc, _, _ => ⟨acc, rfl⟩
  | b + 1, ch, L, acc, hch, hL => by
    obtain ⟨ch1, acc1, h1, h2⟩ := viewStackPull_ok tdata axisStride ch acc hch
    obtain ⟨L1, acc2, h3, h4⟩ := viewStackInner_ok axisStride L acc1 hL
    obtain ⟨d, hd⟩ := viewStackLoop_ok tdata axisStride b ch1 L1 acc2 h2 h4
    exact ⟨d, by simp only [viewStackLoop, h1, h3, hd]⟩

/-- The offsets the iterator of a readable operand yields lie inside its buffer. -/
theorem Readable_offsets (op : Dense α) (h : op.Readable) :
    ∀ id ∈ NewFlatIterator op.AP, id < op.data.length := by
  intro id hid
  obtain ⟨c, hc, rfl⟩ := mem_flatOffsets _ _ _ hid
  obtain ⟨v, hg, _⟩ := Readable_get op h c hc
  exact (List.getElem?_eq_some_iff.1 hg).1

/-- On readable operands, under the stacked access pattern of a shape with positive
dimensions, `viewStack` returns. -/
theorem viewStack_ok (S : List Nat) (axis : Nat) (t : Dense α) (others : List (Dense α))
    (hpos : ∀ d ∈ S, 0 < d) (ha : axis ≤ S.length) (hread : ∀ op ∈ t :: others, op.Readable) :
    ∃ d, t.viewStack axis
      { shape := S.take axis ++ (others.length + 1) :: S.drop axis,
        strides := CalcStrides (S.take axis ++ (others.length + 1) :: S.drop axis) }
      others = .ok d := by
  have hst := stackStrides_axis S axis (others.length + 1) ha
  have hB : 0 < (S.drop axis).prod :=
    prod_pos_of_pos _ (fun d hd => hpos d (List.mem_of_mem_drop hd))
  obtain ⟨d, hd⟩ := viewStackLoop_ok t.data (S.drop axis).prod
    (TotalSize (S.take axis ++ (others.length + 1) :: S.drop axis) / (S.drop axis).prod)
    (NewFlatIterator t.AP) (others.map (fun ot => (ot.data, NewFlatIterator ot.AP))) []
    (Readable_offsets t (hread t (List.mem_cons_self _ _)))
    (by
      intro p hp
      obtain ⟨ot, hot, rfl⟩ := List.mem_map.1 hp
      exact Readable_offsets ot (hread ot (List.mem_cons_of_mem _ hot)))
  exact ⟨d, by
    simp only [Dense.viewStack, hst, if_neg (Nat.pos_iff_ne_zero.1 hB), AP.Size, hd]⟩

/-- Claim C11: for `axis ≥ rank + 1` `Stack` returns a nil result and a `DimMismatch` error and
builds nothing.  For `axis ≤ rank`, a receiver of shape `S` with positive dimensions and
every list of others (readable at their coordinates when a view among the operands sends
the call through the flat iterators), `Stack` returns an array and no error, of rank
`rank + 1`, shape `S[:axis] ++ [1 + len(others)] ++ S[axis:]` and row-major strides; and
that is the shape of whatever `Stack` returns for `axis ≤ rank`. -/
theorem Stack_shape [Inhabited α] (t : Dense α) (axis : Nat) (others : List (Dense α)) :
    (t.Dims + 1 ≤ axis →
      t.Stack axis others = .ok { retVal := none, err := some Err.DimMismatch }) ∧
    (axis ≤ t.Dims → (∀ d ∈ t.Shape, 0 < d) →
      ((t.viewOf = true ∨ ∃ ot ∈ others, ot.viewOf = true) →
        ∀ op ∈ t :: others, op.Readable) →
      ∃ r, t.Stack axis others = .ok { retVal := some r, err := none } ∧
        r.Shape = t.Shape.take axis ++ (1 + others.length) :: t.Shape.drop axis ∧
        r.Dims = t.Dims + 1 ∧ r.Strides = CalcStrides r.Shape) ∧
    (axis ≤ t.Dims → ∀ out, t.Stack axis others = .ok out →
      ∃ r, out = { retVal := some r, err := none } ∧
        r.Shape = t.Shape.take axis ++ (1 + others.length) :: t.Shape.drop axis ∧
        r.Dims = t.Dims + 1 ∧ r.Strides = CalcStrides r.Shape) := by
  have hshapeOf : axis ≤ t.Dims → ∀ out, t.Stack axis others = .ok out →
      ∃ r, out = { retVal := some r, err := none } ∧
        r.Shape = t.Shape.take axis ++ (1 + others.length) :: t.Shape.drop axis ∧
        r.Dims = t.Dims + 1 ∧ r.Strides = CalcStrides r.Shape := by
    intro h out hout
    have hge : ¬ axis ≥ t.Dims + 1 := by omega
    have hsh := stackShape_eq t.Shape axis (others.length + 1) h
    simp only [Dense.Stack, if_neg hge] at hout
    split at hout
    · cases hout
    · rename_i data _
      injection hout with hout
      refine ⟨_, hout.symm, ?_, ?_, rfl⟩
      · simp only [Dense.Shape] at hsh ⊢
        rw [hsh, Nat.add_comm]
      · simp only [Dense.Dims, Dense.Shape] at hsh h ⊢
        rw [hsh]
        simp only [List.length_append, List.length_take, List.length_cons, List.length_drop]
        omega
  refine ⟨?_, ?_, hshapeOf⟩
  · intro h
    have hge : axis ≥ t.Dims + 1 := h
    simp only [Dense.Stack, if_pos hge]
  · intro h hpos hread
    have hge : ¬ axis ≥ t.Dims + 1 := by omega
    have hsh := stackShape_eq t.Shape axis (others.length + 1) h
    have hret : ∃ out, t.Stack axis others = .ok out := by
      by_cases hview : t.viewOf = true ∨ ∃ ot ∈ others, ot.viewOf = true
      · obtain ⟨d, hd⟩ := viewStack_ok t.Shape axis t others hpos h (hread hview)
        have hnm : others.foldl
            (fun acc ot => if acc && ot.IsMaterializable then false else acc)
            (!t.IsMaterializable) = false := by
          rcases hview with hv | hv
          · simp only [Dense.IsMaterializable, hv, Bool.not_true]
            exact allNoMat_false others
          · exact allNoMat_of_view others _ hv
        simp only [Dense.Stack, if_neg hge, hnm, hsh, Bool.false_eq_true, if_false, hd]
        exact ⟨_, rfl⟩
      · have hv1 : t.viewOf = false := by
          cases hb : t.viewOf with
          | false => rfl
          | true => exact absurd (Or.inl hb) hview
        have hv2 : ∀ ot ∈ others, ot.viewOf = false := by
          intro ot hot
          cases hb : ot.viewOf with
          | false => rfl
          | true => exact absurd (Or.inr ⟨ot, hot, hb⟩) hview
        obtain ⟨d, hd⟩ := simpleStack_ok t.Shape axis t others hpos h
        have hnm := allNoMat_of_not_view others hv2
        simp only [Dense.IsMaterializable] at hnm
        simp only [Dense.Stack, if_neg hge, Dense.IsMaterializable, hv1, Bool.not_false, hnm,
          hsh, if_true, hd]
        exact ⟨_, rfl⟩
    obtain ⟨out, hout⟩ := hret
    obtain ⟨r, hr, h1, h2, h3⟩ := hshapeOf h out hout
    rw [hr] at hout
    exact ⟨r, hout, h1, h2, h3⟩

/-- The claim C11 on a `2x3` receiver (axis `3` is refused, axis `1` gives the shape
`2x3x3`) and on a receiver of shape `[2]` stacked with others of five and of two elements
along axis `0`. -/
theorem Stack_shape_witness :
    (exampleDense [2, 3] [0, 1, 2, 3, 4, 5]).Stack 3
        [exampleDense [2, 3] [10, 11, 12, 13, 14, 15]] =
      .ok { retVal := none, err := some Err.DimMismatch } ∧
    (∃ r, (exampleDense [2, 3] [0, 1, 2, 3, 4, 5]).Stack 1
        [exampleDense [2, 3] [10, 11, 12, 13, 14, 15],
         exampleDense [2, 3] [20, 21, 22, 23, 24, 25]] = .ok { retVal := some r, err := none } ∧
      r.Shape = [2, 3, 3]) ∧
    (∃ r, (exampleDense [2] [0, 1]).Stack 0
        [exampleDense [5] [1, 2, 3, 4, 5], exampleDense [2] [7, 8]] =
          .ok { retVal := some r, err := none } ∧
      r.Shape = [3, 2]) :=
  ⟨(Stack_shape (exampleDense [2, 3] [0, 1, 2, 3, 4, 5]) 3
      [exampleDense [2, 3] [10, 11, 12, 13, 14, 15]]).1 (by decide),
   by
    obtain ⟨r, hr, h2, _⟩ := (Stack_shape (exampleDense [2, 3] [0, 1, 2, 3, 4, 5]) 1
      [exampleDense [2, 3] [10, 11, 12, 13, 14, 15],
       exampleDense [2, 3] [20, 21, 22, 23, 24, 25]]).2.1 (by decide) (by decide)
      (by
        intro hv
        rcases hv with hv | ⟨ot, hot, hv⟩
        · cases hv
        · simp only [List.mem_cons, List.mem_singleton, List.not_mem_nil, or_false] at hot
          rcases hot with h | h <;> subst h <;> cases hv)
    exact ⟨r, hr, h2⟩,
   by
    obtain ⟨r, hr, h2, _⟩ := (Stack_shape (exampleDense [2] [0, 1]) 0
      [exampleDense [5] [1, 2, 3, 4, 5], exampleDense [2] [7, 8]]).2.1 (by decide) (by decide)
      (by
        intro hv
        rcases hv with hv | ⟨ot, hot, hv⟩
        · cases hv
        · simp only [List.mem_cons, List.mem_singleton, List.not_mem_nil, or_false] at hot
          rcases hot with h | h <;> subst h <;> cases hv)
    exact ⟨r, hr, h2⟩⟩

end Tensor
